import Mathlib

/-!
# Verification of the ivasat CDCL SAT solver

A shallow embedding of the solver in `src/Solver.cpp` (with its header
`Solver.h` and the public `ivasat.h` interface).  Data structures are
translated field by field; the C++ `-1` sentinels (`UnknownIndex`) are kept
as `Int` values, vectors become lists, and the unbounded search loops take
an explicit fuel argument (`none` marks fuel exhaustion, which never occurs
on the concrete runs considered here).  `double` activities are modelled as
rationals; the solver only multiplies them by the constant decay factor and
adds 1, so the algebraic structure of the heuristic is preserved.
`assert` statements of the C++ code are not part of the embedding; where a
theorem needs them they appear as explicit hypotheses.
-/

namespace Ivasat

/-- `Status` from `ivasat.h`. -/
inductive Status where
  | Sat
  | Unsat
  | Unknown
deriving DecidableEq, Repr

/-- `Tribool` from `Solver.h`: a three-valued truth value. -/
inductive Tribool where
  | fls
  | tru
  | unk
deriving DecidableEq, Repr

/-- `operator~(Tribool)` from `SolverUtils.cpp`. -/
def Tribool.negate : Tribool → Tribool
  | .tru => .fls
  | .fls => .tru
  | .unk => .unk

/-- `liftBool` from `Solver.h`. -/
def liftBool (b : Bool) : Tribool :=
  if b then .tru else .fls

/-- `Literal` from `Solver.h`: a signed nonzero integer; the sign is the
polarity and the absolute value the variable index. -/
structure Literal where
  mData : Int
deriving DecidableEq, Repr

namespace Literal

/-- `Literal::isNegated`. -/
def isNegated (l : Literal) : Bool := l.mData < 0

/-- `Literal::index` (the C++ returns `int`; its result is `|mData|`, which we
keep as a `Nat` so that it can index the per-variable vectors). -/
def index (l : Literal) : Nat := l.mData.natAbs

/-- `Literal::value`. -/
def value (l : Literal) : Bool := !l.isNegated

/-- `Literal::negate`. -/
def negate (l : Literal) : Literal := ⟨-l.mData⟩

/-- The `Literal(int index, bool value)` constructor. -/
def ofIndexValue (index : Nat) (value : Bool) : Literal :=
  ⟨if value then (index : Int) else -(index : Int)⟩

end Literal

/-- `Clause` from `Solver.h`.  The constructor
`Clause(std::vector<Literal> literals, bool isLearned = false)` stores the
literal list exactly as given (it performs no sorting, duplicate removal or
tautology check), so a clause is just the stored list plus the learned flag.
The activity / lock / garbage fields are never touched by `Solver.cpp` and
are omitted. -/
structure Clause where
  mLiterals : List Literal
  mIsLearned : Bool := false
deriving DecidableEq, Repr

namespace Clause

/-- `Clause::size`. -/
def size (c : Clause) : Nat := c.mLiterals.length

/-- `Clause::operator[]`.  Out-of-range access is undefined behaviour in the
C++; the embedding returns a junk literal there (never exercised under the
preconditions of our theorems). -/
def get (c : Clause) (i : Nat) : Literal := c.mLiterals.getD i ⟨1⟩

/-- `Clause::back`. -/
def back (c : Clause) : Literal := c.mLiterals.getLastD ⟨1⟩

/-- `Clause::remove(Predicate)` (the erase/remove idiom keeps the literals
that do not satisfy the predicate, in order). -/
def removeWhere (c : Clause) (p : Literal → Bool) : Clause :=
  { c with mLiterals := c.mLiterals.filter (fun l => !p l) }

/-- Swap the literals at positions `i` and `j` (the `std::swap` on clause
slots used by the propagator). -/
def swap (c : Clause) (i j : Nat) : Clause :=
  { c with mLiterals := (c.mLiterals.set i (c.get j)).set j (c.get i) }

end Clause

/-- `Instance` from `ivasat.h`: the input problem plus the cached model. -/
structure Instance where
  mNumVariables : Nat
  mClauses : List (List Int)
  mModel : List Bool := []
deriving DecidableEq, Repr

/-- `Instance::model`. -/
def Instance.model (inst : Instance) : List Bool := inst.mModel

/-- `Solver::Watch` from `Solver.h`. -/
structure Watch where
  clauseIdx : Nat
  lit : Literal
deriving DecidableEq, Repr

/-- `UnknownIndex` from `Solver.h`. -/
def UnknownIndex : Int := -1

/-- `DefaultActivityDecay` from `Solver.h`. -/
def DefaultActivityDecay : ℚ := 9 / 10

/-- The mutable state of `Solver`, one field per C++ member that the
algorithm reads or writes (the statistics counters do not influence
behaviour and are omitted).  All per-variable vectors have length
`numVariables + 1`; index 0 is the unused slot, exactly as in the C++. -/
structure Solver where
  mClauses : List Clause
  mWatches : List (List Watch)
  mVariableState : List Tribool
  mDecisions : List Literal
  mActivity : List ℚ
  mQueue : List Nat
  mImplications : List Int
  mAssignedAtLevel : List Int
  mTrail : List Literal
  mTrailIndices : List Nat
deriving DecidableEq, Repr

namespace Solver

/-- `Solver::decisionLevel`. -/
def decisionLevel (s : Solver) : Int := (s.mDecisions.length : Int)

/-- `Solver::numAssigned` (the trail length; the C++ asserts that it equals
the number of non-Unknown variables). -/
def numAssigned (s : Solver) : Nat := s.mTrail.length

/-- The `Solver(const Instance&)` constructor. -/
def new (inst : Instance) : Solver :=
  { mClauses := inst.mClauses.map
      (fun clauseData => Clause.mk (clauseData.map Literal.mk) false)
    mWatches := List.replicate (inst.mNumVariables + 1) []
    mVariableState := List.replicate (inst.mNumVariables + 1) Tribool.unk
    mDecisions := []
    mActivity := List.replicate (inst.mNumVariables + 1) 1
    mQueue := []
    mImplications := List.replicate (inst.mNumVariables + 1) UnknownIndex
    mAssignedAtLevel := List.replicate (inst.mNumVariables + 1) UnknownIndex
    mTrail := []
    mTrailIndices := [] }

/-- Read `mVariableState[v]`. -/
def varState (s : Solver) (v : Nat) : Tribool :=
  s.mVariableState.getD v Tribool.unk

/-- `Solver::value`. -/
def value (s : Solver) (literal : Literal) : Tribool :=
  if s.varState literal.index = Tribool.unk then Tribool.unk
  else liftBool (decide (s.varState literal.index = liftBool literal.value))

/-- `Solver::assignVariable` (without the two assertions; theorems that rely
on them state them as hypotheses). -/
def assignVariable (s : Solver) (literal : Literal) : Solver :=
  { s with
    mVariableState := s.mVariableState.set literal.index (liftBool literal.value)
    mAssignedAtLevel := s.mAssignedAtLevel.set literal.index s.decisionLevel
    mTrail := s.mTrail ++ [literal] }

/-- `Solver::enqueue`. -/
def enqueue (s : Solver) (literal : Literal) : Solver :=
  let s := s.assignVariable literal
  { s with mQueue := s.mQueue ++ [literal.index] }

/-- `Solver::pushDecision`. -/
def pushDecision (s : Solver) (literal : Literal) : Solver :=
  let s := { s with
    mTrailIndices := s.mTrailIndices ++ [s.mTrail.length]
    mDecisions := s.mDecisions ++ [literal] }
  s.enqueue literal

/-- `Solver::assignUnitClause`. -/
def assignUnitClause (s : Solver) (literal : Literal) (clauseIndex : Nat) : Solver :=
  let s := { s with
    mImplications := s.mImplications.set literal.index (clauseIndex : Int) }
  s.enqueue literal

/-- `Solver::undoAssignment`. -/
def undoAssignment (s : Solver) (variableIndex : Nat) : Solver :=
  { s with
    mVariableState := s.mVariableState.set variableIndex Tribool.unk
    mAssignedAtLevel := s.mAssignedAtLevel.set variableIndex UnknownIndex
    mImplications := s.mImplications.set variableIndex UnknownIndex }

/-- `Solver::popDecision`.  The C++ reads `mTrailIndices.back()`, undoes every
assignment from that trail offset on, pops the last decision and erases the
trail suffix. -/
def popDecision (s : Solver) : Solver :=
  let lastIdx := s.mTrailIndices.getLastD 0
  let s := { s with mTrailIndices := s.mTrailIndices.dropLast }
  let s := (s.mTrail.drop lastIdx).foldl
    (fun st l => st.undoAssignment l.index) s
  let s := { s with mDecisions := s.mDecisions.dropLast }
  { s with mTrail := s.mTrail.take lastIdx }

/-- Apply `popDecision` the given number of times. -/
def popDecisionTimes (s : Solver) : Nat → Solver
  | 0 => s
  | n + 1 => (s.popDecision).popDecisionTimes n

/-- `Solver::popDecisionUntil`.  `decisionLevel() - level` decisions are
popped (the C++ asserts `level <= decisionLevel()`). -/
def popDecisionUntil (s : Solver) (level : Int) : Solver :=
  s.popDecisionTimes (s.decisionLevel - level).toNat

/-- Append a watch entry to `mWatches[v]` (the `emplace_back` calls). -/
def appendWatch (s : Solver) (v : Nat) (w : Watch) : Solver :=
  { s with mWatches := s.mWatches.set v (s.mWatches.getD v [] ++ [w]) }

/-- `Solver::watchClause`. -/
def watchClause (s : Solver) (clauseIdx : Nat) : Solver :=
  let clause := s.mClauses.getD clauseIdx (Clause.mk [] false)
  if clause.size < 2 then s
  else
    let s := s.appendWatch (clause.get 0).index (Watch.mk clauseIdx (clause.get 0))
    s.appendWatch (clause.get 1).index (Watch.mk clauseIdx (clause.get 1))

/-- `Solver::resetWatches`. -/
def resetWatches (s : Solver) : Solver :=
  let s := { s with mWatches := s.mWatches.map (fun _ => []) }
  (List.range s.mClauses.length).foldl (fun st idx => st.watchClause idx) s

/-- Number of occurrences of variable `v` among the literals of the clause
database (the `usages` vector computed by `Solver::preprocess`). -/
def usageCount (s : Solver) (v : Nat) : Nat :=
  (s.mClauses.map (fun c => c.mLiterals.countP (fun l => l.index = v))).sum

/-- The second `preprocess` loop: `Literal{i, true}` is enqueued for every
variable index `1 <= i < usages.size()` that never occurs in a clause. -/
def enqueueUnusedVariables (s : Solver) : Solver :=
  (List.range' 1 (s.mVariableState.length - 1)).foldl
    (fun st i => if s.usageCount i = 0 then st.enqueue (Literal.ofIndexValue i true) else st)
    s

/-- The third `preprocess` loop: walk the (size-sorted) clauses; an empty
clause fails, a unit clause is enqueued if its variable is unassigned and
fails on a conflicting existing assignment.  Returns `false` for the C++
`return false` paths. -/
def preprocessUnits (s : Solver) : List Clause → Solver × Bool
  | [] => (s, true)
  | clause :: rest =>
    if clause.size = 0 then (s, false)
    else if clause.size = 1 then
      let literal := clause.get 0
      if s.varState literal.index = Tribool.unk then
        preprocessUnits (s.enqueue literal) rest
      else if s.varState literal.index ≠ liftBool literal.value then (s, false)
      else preprocessUnits s rest
    else preprocessUnits s rest

/-- Stable insertion of a clause into a size-sorted clause list. -/
def insertBySize (c : Clause) : List Clause → List Clause
  | [] => [c]
  | d :: rest => if c.size ≤ d.size then c :: d :: rest else d :: insertBySize c rest

/-- Stable sort of the clause list by size (ascending). -/
def sortClausesBySize : List Clause → List Clause
  | [] => []
  | c :: rest => insertBySize c (sortClausesBySize rest)

/-- `Solver::preprocess`.  The clause sort `std::ranges::sort(mClauses, by
size)` is modelled as a stable insertion sort by size: for ranges of at most
16 clauses (every input considered below) libstdc++'s introsort runs exactly
its insertion-sort path with the strict `<`-by-size comparator, which is
this stable sort. -/
def preprocess (s : Solver) : Solver × Bool :=
  let s := { s with
    mClauses := sortClausesBySize s.mClauses }
  let s := s.enqueueUnusedVariables
  let r := s.preprocessUnits s.mClauses
  if r.2 then (r.1.resetWatches, true) else (r.1, false)

/-- The watch-replacement scan of `Solver::propagate`:
`newWatchIdx = 2; while (newWatchIdx < size && value(clause[newWatchIdx]) !=
Unknown) newWatchIdx++`.  Only `Unknown` literals stop the scan. -/
def scanForWatch (s : Solver) (clause : Clause) : Nat → Nat → Nat
  | 0, j => j
  | fuel + 1, j =>
    if j < clause.size ∧ s.value (clause.get j) ≠ Tribool.unk then
      s.scanForWatch clause fuel (j + 1)
    else j

/-- `newWatchIdx` as computed by `Solver::propagate` for one clause. -/
def newWatchIndex (s : Solver) (clause : Clause) : Nat :=
  if clause.size > 2 then s.scanForWatch clause clause.size 2 else clause.size

/-- The inner watcher-list loop of `Solver::propagate` for the variable
`lastAssigned`: returns the final contents of `mWatches[lastAssigned]`, the
updated solver, and the conflict clause index if one was found (in which
case the queue has been cleared). -/
def processWatchers (lastAssigned : Nat) (s : Solver) :
    List Watch → List Watch × Solver × Option Nat
  | [] => ([], s, none)
  | w :: rest =>
    let clauseIndex := w.clauseIdx
    let clause := s.mClauses.getD clauseIndex (Clause.mk [] false)
    let first := clause.get 0
    let second := clause.get 1
    if s.value first = Tribool.tru ∨ s.value second = Tribool.tru then
      -- One of the watches is true, the clause is satisfied: keep and move on.
      let (ws, s', r) := processWatchers lastAssigned s rest
      (w :: ws, s', r)
    else if lastAssigned = first.index ∧ s.value first = Tribool.fls then
      let newWatchIdx := s.newWatchIndex clause
      if newWatchIdx = clause.size then
        if s.value second = Tribool.unk then
          let s' := s.assignUnitClause second clauseIndex
          let (ws, s'', r) := processWatchers lastAssigned s' rest
          (w :: ws, s'', r)
        else
          (w :: rest, { s with mQueue := [] }, some clauseIndex)
      else
        let watchedLit := clause.get newWatchIdx
        let s' := { s with mClauses := s.mClauses.set clauseIndex (clause.swap 0 newWatchIdx) }
        let s' := s'.appendWatch watchedLit.index (Watch.mk clauseIndex watchedLit)
        processWatchers lastAssigned s' rest
    else if lastAssigned = second.index ∧ s.value second = Tribool.fls then
      let newWatchIdx := s.newWatchIndex clause
      if newWatchIdx = clause.size then
        if s.value first = Tribool.unk then
          let s' := s.assignUnitClause first clauseIndex
          let (ws, s'', r) := processWatchers lastAssigned s' rest
          (w :: ws, s'', r)
        else
          (w :: rest, { s with mQueue := [] }, some clauseIndex)
      else
        let watchedLit := clause.get newWatchIdx
        let s' := { s with mClauses := s.mClauses.set clauseIndex (clause.swap 1 newWatchIdx) }
        let s' := s'.appendWatch watchedLit.index (Watch.mk clauseIndex watchedLit)
        processWatchers lastAssigned s' rest
    else
      let (ws, s', r) := processWatchers lastAssigned s rest
      (w :: ws, s', r)

/-- `Solver::propagate`: pop queue entries until empty or a conflict; the
result is the updated solver and the conflict clause index (`none` standing
for the C++ `UnknownIndex` return).  The outer `Option` is fuel
exhaustion. -/
def propagateLoop (s : Solver) : Nat → Option (Solver × Option Nat)
  | 0 => if s.mQueue = [] then some (s, none) else none
  | fuel + 1 =>
    match s.mQueue with
    | [] => some (s, none)
    | lastAssigned :: qrest =>
      let s₁ := { s with mQueue := qrest }
      let watchers := s₁.mWatches.getD lastAssigned []
      let res := processWatchers lastAssigned s₁ watchers
      let s₂ := { res.2.1 with mWatches := res.2.1.mWatches.set lastAssigned res.1 }
      match res.2.2 with
      | some c => some (s₂, some c)
      | none => propagateLoop s₂ fuel

/-- `Solver::fillImplyingPredecessors`. -/
def fillImplyingPredecessors (s : Solver) (lit : Literal) : List Literal :=
  let literalIndex := lit.index
  let impliedByClause := s.mImplications.getD literalIndex UnknownIndex
  if impliedByClause = UnknownIndex then []
  else
    let implyingClause := s.mClauses.getD impliedByClause.toNat (Clause.mk [] false)
    (implyingClause.mLiterals.filter (fun cl => cl.index ≠ literalIndex)).map
      (fun cl => Literal.ofIndexValue cl.index (decide (s.varState cl.index = Tribool.tru)))

end Solver

/-- The loop state of `Solver::firstUniqueImplicationPointCut`. -/
structure FuipState where
  seen : List Bool
  counter : Int
  trailIdx : Int
  newClause : List Literal
  backtrackLevel : Int
deriving DecidableEq, Repr

namespace Solver

/-- The `for (Literal lit : predecessors)` body of the 1-UIP loop. -/
def fuipProcessPredecessors (s : Solver) (fs : FuipState) (preds : List Literal) :
    FuipState :=
  preds.foldl
    (fun fs lit =>
      if fs.seen.getD lit.index false then fs
      else
        let fs := { fs with seen := fs.seen.set lit.index true }
        let level := s.mAssignedAtLevel.getD lit.index UnknownIndex
        if level = s.decisionLevel then { fs with counter := fs.counter + 1 }
        else if level > 0 then
          { fs with
            newClause := fs.newClause ++ [lit.negate]
            backtrackLevel := max fs.backtrackLevel level }
        else fs)
    fs

/-- The backwards trail scan of the 1-UIP loop: read `mTrail[trailIdx]`,
decrement, and repeat while the literal's variable is unseen.  A negative
index (out-of-range access in the C++) yields `none`. -/
def fuipScan (s : Solver) (seen : List Bool) : Nat → Int → Option (Literal × Int)
  | 0, _ => none
  | fuel + 1, trailIdx =>
    if trailIdx < 0 then none
    else
      let nextLit := s.mTrail.getD trailIdx.toNat ⟨1⟩
      if seen.getD nextLit.index false then some (nextLit, trailIdx - 1)
      else s.fuipScan seen fuel (trailIdx - 1)

/-- The `while (true)` loop of `Solver::firstUniqueImplicationPointCut`. -/
def fuipLoop (s : Solver) : Nat → FuipState → List Literal → Option (Int × List Literal)
  | 0, _, _ => none
  | fuel + 1, fs, predecessors =>
    let fs := s.fuipProcessPredecessors fs predecessors
    match s.fuipScan fs.seen (s.mTrail.length + 1) fs.trailIdx with
    | none => none
    | some (nextLit, trailIdx') =>
      let preds' := s.fillImplyingPredecessors nextLit
      let counter' := fs.counter - 1
      if counter' = 0 then some (fs.backtrackLevel, fs.newClause ++ [nextLit.negate])
      else s.fuipLoop fuel { fs with trailIdx := trailIdx', counter := counter' } preds'

/-- `Solver::firstUniqueImplicationPointCut`: returns the backtrack level and
the learned clause literal list. -/
def firstUniqueImplicationPointCut (s : Solver) (fuel : Nat) (conflictClauseIndex : Nat) :
    Option (Int × List Literal) :=
  let conflictClause := s.mClauses.getD conflictClauseIndex (Clause.mk [] false)
  let predecessors := conflictClause.mLiterals.map
    (fun lit => Literal.ofIndexValue lit.index (decide (s.varState lit.index = Tribool.tru)))
  s.fuipLoop fuel
    { seen := List.replicate s.mVariableState.length false
      counter := 0
      trailIdx := (s.mTrail.length : Int) - 1
      newClause := []
      backtrackLevel := 0 }
    predecessors

/-- The activity decay loop of `Solver::analyzeConflict`: every entry of
index `>= 1` (that is, every variable slot; slot 0 is the padding entry) is
multiplied by `DefaultActivityDecay`. -/
def decayActivities : List ℚ → List ℚ
  | [] => []
  | a :: rest => a :: rest.map (fun x => x * DefaultActivityDecay)

/-- The activity bump loop of `Solver::analyzeConflict` restricted to the
activity vector: `mActivity[lit.index()] += 1` for each literal in order. -/
def bumpActivities (newClause : List Literal) (acts : List ℚ) : List ℚ :=
  newClause.foldl (fun a lit => a.set lit.index (a.getD lit.index 0 + 1)) acts

/-- `Solver::analyzeConflict`: compute the 1-UIP cut, append the learned
clause, watch it when it has at least two literals, decay all variable
activities, and bump the variables of the learned clause. -/
def analyzeConflict (s : Solver) (fuel : Nat) (conflictClauseIndex : Nat) :
    Option (Int × Solver) :=
  match s.firstUniqueImplicationPointCut fuel conflictClauseIndex with
  | none => none
  | some (backtrackLevel, newClause) =>
    let s := { s with mClauses := s.mClauses ++ [Clause.mk newClause true] }
    let s := if newClause.length ≥ 2 then s.watchClause (s.mClauses.length - 1) else s
    let s := { s with mActivity := decayActivities s.mActivity }
    let s := newClause.foldl
      (fun st lit =>
        { st with mActivity := st.mActivity.set lit.index (st.mActivity.getD lit.index 0 + 1) })
      s
    some (backtrackLevel, s)

/-- `Solver::simplify`: delete the clauses satisfied by the current (level-0)
assignment, remove the false literals from the rest, rebuild the watches and
reset the implication references. -/
def simplify (s : Solver) : Solver :=
  let deleted := { s with
    mClauses := s.mClauses.filter
      (fun (clause : Clause) =>
        !clause.mLiterals.any (fun lit => s.varState lit.index = liftBool lit.value)) }
  let cleaned := { deleted with
    mClauses := deleted.mClauses.map
      (fun (clause : Clause) => clause.removeWhere
        (fun lit =>
          s.varState lit.index ≠ Tribool.unk ∧ liftBool lit.value ≠ s.varState lit.index)) }
  let reset := cleaned.resetWatches
  { reset with mImplications := reset.mImplications.map (fun _ => UnknownIndex) }

/-- `Solver::pickDecisionVariable`: the unassigned variable of maximal
activity, scanning indices upwards with a strict comparison (so ties go to
the smallest index). -/
def pickDecisionVariable (s : Solver) : Int :=
  ((List.range' 1 (s.mVariableState.length - 1)).foldl
    (fun (acc : ℚ × Int) i =>
      if s.varState i ≠ Tribool.unk then acc
      else if s.mActivity.getD i 0 > acc.1 then (s.mActivity.getD i 0, (i : Int))
      else acc)
    (-1, UnknownIndex)).2

/-- `Solver::model`. -/
def model (s : Solver) : List Bool :=
  false :: (List.range' 1 (s.mVariableState.length - 1)).map
    (fun i => decide (s.varState i = Tribool.tru))

/-- The `while (true)` search loop of `Solver::check`.  The first fuel feeds
the inner loops (propagation, conflict analysis); the second counts the
iterations of this loop. -/
def checkLoop (fuel : Nat) : Nat → Solver → Option (Status × Solver)
  | 0, _ => none
  | n + 1, s =>
    match s.propagateLoop fuel with
    | none => none
    | some (s, some conflictClause) =>
      if s.decisionLevel = 0 then some (Status.Unsat, s)
      else
        match s.analyzeConflict fuel conflictClause with
        | none => none
        | some (backtrackLevel, s) =>
          let s := s.popDecisionUntil backtrackLevel
          let s := s.assignUnitClause (s.mClauses.getLastD (Clause.mk [] false)).back
            (s.mClauses.length - 1)
          checkLoop fuel n s
    | some (s, none) =>
      if s.numAssigned = s.mVariableState.length - 1 then some (Status.Sat, s)
      else
        let s := if s.decisionLevel = 0 then s.simplify else s
        let decisionVariable := s.pickDecisionVariable
        let nextDecision := Literal.ofIndexValue decisionVariable.toNat true
        checkLoop fuel n (s.pushDecision nextDecision)

/-- `Solver::check`. -/
def check (s : Solver) (fuel : Nat) : Option (Status × Solver) :=
  if s.mClauses = [] then
    some (Status.Sat, { s with mVariableState := s.mVariableState.map (fun _ => Tribool.tru) })
  else
    let res := s.preprocess
    if !res.2 then some (Status.Unsat, res.1)
    else checkLoop fuel fuel res.1

end Solver

/-- `Instance::check`: run a fresh solver and store the model on `Sat`. -/
def Instance.check (inst : Instance) (fuel : Nat) : Option (Status × Instance) :=
  match (Solver.new inst).check fuel with
  | none => none
  | some (status, solver) =>
    some (status, if status = Status.Sat then { inst with mModel := solver.model } else inst)

/-! ## Reference semantics of CNF instances

Clause evaluation under a model vector, exactly as the repository's own test
helper `assertSat` evaluates it: `model[|v|]`, complemented for a negative
literal. -/

/-- One raw DIMACS-style literal evaluated under a model vector. -/
def evalRawLiteral (model : List Bool) (litData : Int) : Bool :=
  if litData < 0 then !(model.getD litData.natAbs false) else model.getD litData.natAbs false

/-- A raw clause is true iff some literal evaluates to true. -/
def clauseTrue (model : List Bool) (clause : List Int) : Bool :=
  clause.any (evalRawLiteral model)

/-- The canonical (1-indexed, padded) model vector encoding the low `n` bits
of `bits`. -/
def bitsModel (n bits : Nat) : List Bool :=
  false :: (List.range' 1 n).map (fun i => bits.testBit (i - 1))

/-- Brute-force satisfiability of a CNF over `n` variables. -/
def bruteforceSat (n : Nat) (clauses : List (List Int)) : Bool :=
  (List.range (2 ^ n)).any (fun bits => clauses.all (clauseTrue (bitsModel n bits)))

/-- Variable `v` occurs (with either polarity) in the raw clause list. -/
def occursIn (clauses : List (List Int)) (v : Nat) : Prop :=
  ∃ c ∈ clauses, ∃ l ∈ c, l.natAbs = v

instance (clauses : List (List Int)) (v : Nat) : Decidable (occursIn clauses v) := by
  unfold occursIn; infer_instance

/-- The claimed trail/per-variable agreement invariant: a variable is
Unknown exactly when its assignment level is `-1` and it is not on the
trail, every trail literal has a non-negative recorded level, and the
number of non-Unknown variables equals the trail length. -/
def stateConsistent (s : Solver) : Prop :=
  (∀ v, v < s.mVariableState.length →
    (s.varState v = Tribool.unk ↔
      (s.mAssignedAtLevel.getD v 0 = -1 ∧ ∀ l ∈ s.mTrail, l.index ≠ v)))
  ∧ (∀ l ∈ s.mTrail, 0 ≤ s.mAssignedAtLevel.getD l.index (-1))
  ∧ s.mVariableState.countP (fun t => decide (t ≠ Tribool.unk)) = s.mTrail.length

instance (s : Solver) : Decidable (stateConsistent s) := by
  unfold stateConsistent
  infer_instance

/-! ## Supporting lemmas -/

theorem getD_set_ne {α : Type} (l : List α) (i j : Nat) (x d : α)
    (h : i ≠ j) : (l.set i x).getD j d = l.getD j d := by
  simp [List.getD_eq_getElem?_getD, List.getElem?_set_ne h]

theorem getD_set_self {α : Type} (l : List α) (i : Nat) (x d : α)
    (h : i < l.length) : (l.set i x).getD i d = x := by
  simp [List.getD_eq_getElem?_getD, List.getElem?_set_self, h]

theorem countP_set_true_of_false {α : Type} (p : α → Bool) (l : List α)
    (i : Nat) (x d : α) (hi : i < l.length)
    (hold : p (l.getD i d) = false) (hx : p x = true) :
    (l.set i x).countP p = l.countP p + 1 := by
  induction l generalizing i with
  | nil => cases hi
  | cons a rest ih =>
    cases i with
    | zero =>
      show (x :: rest).countP p = (a :: rest).countP p + 1
      rw [List.countP_cons, List.countP_cons, hx]
      have ha : p a = false := hold
      rw [ha]
      simp
    | succ i' =>
      show (a :: rest.set i' x).countP p = (a :: rest).countP p + 1
      rw [List.countP_cons, List.countP_cons,
        ih i' (by simpa using hi) hold]
      omega

theorem countP_set_false_of_true {α : Type} (p : α → Bool) (l : List α)
    (i : Nat) (x d : α) (hi : i < l.length)
    (hold : p (l.getD i d) = true) (hx : p x = false) :
    l.countP p = (l.set i x).countP p + 1 := by
  induction l generalizing i with
  | nil => cases hi
  | cons a rest ih =>
    cases i with
    | zero =>
      show (a :: rest).countP p = (x :: rest).countP p + 1
      rw [List.countP_cons, List.countP_cons, hx]
      have ha : p a = true := hold
      rw [ha]
      simp
    | succ i' =>
      show (a :: rest).countP p = (a :: rest.set i' x).countP p + 1
      rw [List.countP_cons, List.countP_cons,
        ih i' (by simpa using hi) hold]
      omega

/-- Setting a fixed value at a list of indices, characterised pointwise. -/
theorem foldl_set_getD {α : Type} (ids : List Nat) (x : α) (vs : List α)
    (w : Nat) (d : α) :
    (ids.foldl (fun vs i => vs.set i x) vs).getD w d
      = if w ∈ ids ∧ w < vs.length then x else vs.getD w d := by
  induction ids generalizing vs with
  | nil => simp
  | cons i rest ih =>
    simp only [List.foldl_cons]
    rw [ih]
    simp only [List.length_set]
    by_cases hmem : w ∈ rest ∧ w < vs.length
    · rw [if_pos hmem, if_pos ⟨List.mem_cons_of_mem i hmem.1, hmem.2⟩]
    · rw [if_neg hmem]
      by_cases hiw : i = w
      · subst hiw
        by_cases hlt : i < vs.length
        · rw [getD_set_self _ _ _ _ hlt, if_pos ⟨List.mem_cons_self _ _, hlt⟩]
        · rw [if_neg (fun h => hlt h.2)]
          have : vs.set i x = vs := List.set_eq_of_length_le (by omega)
          rw [this]
      · rw [getD_set_ne _ _ _ _ _ hiw]
        rw [if_neg (fun h => hmem ⟨?_, h.2⟩)]
        rcases List.mem_cons.mp h.1 with he | hm
        · exact absurd he.symm hiw
        · exact hm

theorem foldl_set_length {α : Type} (ids : List Nat) (x : α) (vs : List α) :
    (ids.foldl (fun vs i => vs.set i x) vs).length = vs.length := by
  induction ids generalizing vs with
  | nil => rfl
  | cons i rest ih => simp only [List.foldl_cons]; rw [ih, List.length_set]

/-- Clearing a duplicate-free list of in-range, assigned slots lowers the
non-Unknown count by exactly the number of slots cleared. -/
theorem countP_foldl_set_unk (ids : List Nat) (vs : List Tribool)
    (hnd : ids.Nodup) (hrange : ∀ i ∈ ids, i < vs.length)
    (hassigned : ∀ i ∈ ids, vs.getD i Tribool.unk ≠ Tribool.unk) :
    (ids.foldl (fun vs i => vs.set i Tribool.unk) vs).countP
        (fun t => decide (t ≠ Tribool.unk)) + ids.length
      = vs.countP (fun t => decide (t ≠ Tribool.unk)) := by
  induction ids generalizing vs with
  | nil => simp
  | cons i rest ih =>
    simp only [List.foldl_cons, List.length_cons]
    have hi : i < vs.length := hrange i (List.mem_cons_self i rest)
    have hstep : vs.countP (fun t => decide (t ≠ Tribool.unk))
        = (vs.set i Tribool.unk).countP (fun t => decide (t ≠ Tribool.unk)) + 1 := by
      refine countP_set_false_of_true _ vs i Tribool.unk Tribool.unk hi ?_ (by decide)
      exact decide_eq_true (hassigned i (List.mem_cons_self i rest))
    rw [hstep]
    have hrec := ih (vs.set i Tribool.unk) (List.Nodup.of_cons hnd)
      (fun j hj => by rw [List.length_set]; exact hrange j (List.mem_cons_of_mem i hj))
      (fun j hj => by
        rw [getD_set_ne _ _ _ _ _
          (fun he => (List.nodup_cons.mp hnd).1 (by rw [he]; exact hj))]
        exact hassigned j (List.mem_cons_of_mem i hj))
    omega

/-- The undo fold of `popDecision`, restricted to each per-variable field. -/
theorem foldl_undo_fields (D : List Literal) (s : Solver) :
    let r := D.foldl (fun st l => st.undoAssignment l.index) s
    r.mVariableState
        = (D.map Literal.index).foldl (fun vs i => vs.set i Tribool.unk) s.mVariableState
    ∧ r.mAssignedAtLevel
        = (D.map Literal.index).foldl (fun vs i => vs.set i UnknownIndex) s.mAssignedAtLevel
    ∧ r.mTrail = s.mTrail
    ∧ r.mTrailIndices = s.mTrailIndices
    ∧ r.mDecisions = s.mDecisions
    ∧ r.mImplications
        = (D.map Literal.index).foldl (fun vs i => vs.set i UnknownIndex) s.mImplications := by
  induction D generalizing s with
  | nil => exact ⟨rfl, rfl, rfl, rfl, rfl, rfl⟩
  | cons l rest ih =>
    simp only [List.foldl_cons, List.map_cons]
    exact ih (s.undoAssignment l.index)

theorem getD_take {α : Type} (l : List α) (k p : Nat) (d : α) (h : p < k) :
    (l.take k).getD p d = l.getD p d := by
  rw [List.getD_eq_getElem?_getD, List.getD_eq_getElem?_getD, List.getElem?_take,
    if_pos h]

theorem getD_drop {α : Type} (l : List α) (k j : Nat) (d : α) :
    (l.drop k).getD j d = l.getD (k + j) d := by
  rw [List.getD_eq_getElem?_getD, List.getD_eq_getElem?_getD, List.getElem?_drop]

/-- The decision level of the assignment at trail position `p`: the number
of decision marks at or before `p`. -/
def Solver.levelOfPos (s : Solver) (p : Nat) : Int :=
  (s.mTrailIndices.countP (fun k => decide (k ≤ p)) : Int)

/-- Structural well-formedness of the trail bookkeeping, as maintained by
the solver: vector lengths agree, the decision marks are strictly
increasing offsets into the trail (one per decision), trail variables are
distinct and in range, each trail literal's recorded level is the number of
marks at or before its position, only trail variables carry a level, and no
level exceeds the decision level. -/
def wellFormedTrail (s : Solver) : Prop :=
  s.mAssignedAtLevel.length = s.mVariableState.length
  ∧ s.mImplications.length = s.mVariableState.length
  ∧ s.mTrailIndices.length = s.mDecisions.length
  ∧ s.mTrailIndices.Pairwise (· < ·)
  ∧ (∀ k ∈ s.mTrailIndices, k ≤ s.mTrail.length)
  ∧ (s.mTrail.map Literal.index).Nodup
  ∧ (∀ l ∈ s.mTrail, l.index < s.mVariableState.length)
  ∧ (∀ p, p < s.mTrail.length →
      s.mAssignedAtLevel.getD (s.mTrail.getD p (Literal.mk 1)).index 0 = s.levelOfPos p)
  ∧ (∀ v, v < s.mVariableState.length →
      s.mAssignedAtLevel.getD v 0 ≠ -1 → ∃ l ∈ s.mTrail, l.index = v)
  ∧ (∀ v, v < s.mVariableState.length →
      s.mAssignedAtLevel.getD v 0 ≤ s.decisionLevel)

instance (s : Solver) : Decidable (wellFormedTrail s) := by
  unfold wellFormedTrail
  infer_instance

/-- `decayActivities` multiplies every variable slot by the decay factor. -/
theorem decayActivities_getD (a : List ℚ) (v : Nat) (h : 1 ≤ v) :
    (Solver.decayActivities a).getD v 0 = a.getD v 0 * DefaultActivityDecay := by
  match a, v with
  | [], v => simp [Solver.decayActivities, List.getD]
  | a0 :: rest, v + 1 =>
    show (rest.map (fun x => x * DefaultActivityDecay)).getD v 0 = rest.getD v 0 * _
    induction rest generalizing v with
    | nil => simp [List.getD]
    | cons r rs ih =>
      cases v with
      | zero => rfl
      | succ v' => exact ih v' (Nat.le_add_left 1 v')

theorem decayActivities_length (a : List ℚ) :
    (Solver.decayActivities a).length = a.length := by
  cases a with
  | nil => rfl
  | cons a0 rest => simp [Solver.decayActivities]

/-- Bumping literals whose variable is not `v` leaves slot `v` unchanged. -/
theorem bumpActivities_getD_not_mem (nc : List Literal) (a : List ℚ) (v : Nat)
    (h : v ∉ nc.map Literal.index) :
    (Solver.bumpActivities nc a).getD v 0 = a.getD v 0 := by
  induction nc generalizing a with
  | nil => rfl
  | cons l rest ih =>
    simp only [List.map_cons, List.mem_cons, not_or] at h
    show (Solver.bumpActivities rest _).getD v 0 = _
    rw [ih _ h.2, getD_set_ne _ _ _ _ _ (fun hle => h.1 hle.symm)]

/-- Bumping a duplicate-free literal list increments each member slot once. -/
theorem bumpActivities_getD_mem (nc : List Literal) (a : List ℚ) (v : Nat)
    (hm : v ∈ nc.map Literal.index) (hnd : (nc.map Literal.index).Nodup)
    (hv : v < a.length) :
    (Solver.bumpActivities nc a).getD v 0 = a.getD v 0 + 1 := by
  induction nc generalizing a with
  | nil => cases hm
  | cons l rest ih =>
    simp only [List.map_cons, List.mem_cons] at hm
    simp only [List.map_cons, List.nodup_cons] at hnd
    show (Solver.bumpActivities rest _).getD v 0 = _
    rcases hm with hm | hm
    · subst hm
      rw [bumpActivities_getD_not_mem _ _ _ hnd.1,
        getD_set_self _ _ _ _ hv]
    · rw [ih _ hm hnd.2 (by simpa using hv),
        getD_set_ne _ _ _ _ _ (fun he => hnd.1 (by rwa [he]))]

/-- The rewritten activity vector of `analyzeConflict`, as a function of the
1-UIP result. -/
theorem analyzeConflict_mActivity (s : Solver) (fuel ci : Nat) (bt : Int)
    (nc : List Literal)
    (h : s.firstUniqueImplicationPointCut fuel ci = some (bt, nc)) :
    (s.analyzeConflict fuel ci).map (fun r => (r.1, r.2.mActivity))
      = some (bt, Solver.bumpActivities nc (Solver.decayActivities s.mActivity)) := by
  have hfold : ∀ (ls : List Literal) (st : Solver),
      (ls.foldl (fun st lit =>
          { st with mActivity := st.mActivity.set lit.index (st.mActivity.getD lit.index 0 + 1) })
        st).mActivity = Solver.bumpActivities ls st.mActivity := by
    intro ls
    induction ls with
    | nil => intro st; rfl
    | cons l rest ih =>
      intro st
      rw [List.foldl_cons, ih]
      rfl
  unfold Solver.analyzeConflict
  rw [h]
  simp only [Option.map_some', Option.some.injEq, Prod.mk.injEq, true_and]
  rw [hfold]
  refine congrArg (Solver.bumpActivities nc) (congrArg Solver.decayActivities ?_)
  split
  · unfold Solver.watchClause
    dsimp only
    split
    · rfl
    · rfl
  · rfl

theorem insertBySize_perm (c : Clause) (l : List Clause) :
    (Solver.insertBySize c l).Perm (c :: l) := by
  induction l with
  | nil => exact List.Perm.refl _
  | cons d rest ih =>
    unfold Solver.insertBySize
    split
    · exact List.Perm.refl _
    · exact (List.Perm.cons d ih).trans (List.Perm.swap c d rest)

theorem sortClausesBySize_perm (l : List Clause) :
    (Solver.sortClausesBySize l).Perm l := by
  induction l with
  | nil => exact List.Perm.refl _
  | cons c rest ih =>
    exact (insertBySize_perm c _).trans (List.Perm.cons c ih)

/-- A variable that occurs in no clause has usage count 0 in any state whose
clause list is a permutation of the constructed one. -/
theorem usageCount_eq_zero (s : Solver) (v : Nat)
    (h : ∀ c ∈ s.mClauses, ∀ l ∈ c.mLiterals, l.index ≠ v) :
    s.usageCount v = 0 := by
  unfold Solver.usageCount
  rw [List.sum_eq_zero]
  intro x hx
  simp only [List.mem_map] at hx
  obtain ⟨c, hc, rfl⟩ := hx
  rw [List.countP_eq_zero]
  intro l hl
  simpa using h c hc l hl

/-- `enqueue` preserves the length of the per-variable vectors. -/
theorem enqueue_lengths (s : Solver) (l : Literal) :
    (s.enqueue l).mVariableState.length = s.mVariableState.length
    ∧ (s.enqueue l).mAssignedAtLevel.length = s.mAssignedAtLevel.length
    ∧ (s.enqueue l).mDecisions = s.mDecisions := by
  refine ⟨?_, ?_, rfl⟩ <;> simp [Solver.enqueue, Solver.assignVariable]

theorem ofIndexValue_true_index (i : Nat) :
    (Literal.ofIndexValue i true).index = i := by
  simp [Literal.ofIndexValue, Literal.index]

theorem ofIndexValue_true_value (i : Nat) :
    (Literal.ofIndexValue i true).value = true := by
  simp only [Literal.ofIndexValue, Literal.value, Literal.isNegated, if_pos]
  simp only [Bool.not_eq_true']
  rw [decide_eq_false_iff_not]
  omega

/-- Once a variable slot holds `tru` at level 0, the unused-variable
enqueue loop keeps it that way. -/
theorem foldl_enqueue_unused_preserves (s : Solver) (v : Nat) (is : List Nat)
    (st : Solver)
    (hv : st.varState v = Tribool.tru)
    (hl : st.mAssignedAtLevel.getD v 0 = 0)
    (hd : st.mDecisions = [])
    (hlen : v < st.mVariableState.length)
    (hlen2 : v < st.mAssignedAtLevel.length) :
    let r := is.foldl (fun st i =>
      if s.usageCount i = 0 then st.enqueue (Literal.ofIndexValue i true) else st) st
    r.varState v = Tribool.tru ∧ r.mAssignedAtLevel.getD v 0 = 0 := by
  induction is generalizing st with
  | nil => exact ⟨hv, hl⟩
  | cons i rest ih =>
    simp only [List.foldl_cons]
    split
    · refine ih _ ?_ ?_ ?_ ?_ ?_
      · show ((st.enqueue _).mVariableState).getD v Tribool.unk = Tribool.tru
        by_cases hiv : (Literal.ofIndexValue i true).index = v
        · simp only [Solver.enqueue, Solver.assignVariable]
          rw [hiv, getD_set_self _ _ _ _ hlen, ofIndexValue_true_value]
          rfl
        · simp only [Solver.enqueue, Solver.assignVariable]
          rw [getD_set_ne _ _ _ _ _ hiv]
          exact hv
      · by_cases hiv : (Literal.ofIndexValue i true).index = v
        · simp only [Solver.enqueue, Solver.assignVariable]
          rw [hiv, getD_set_self _ _ _ _ hlen2]
          simp [Solver.decisionLevel, hd]
        · simp only [Solver.enqueue, Solver.assignVariable]
          rw [getD_set_ne _ _ _ _ _ hiv]
          exact hl
      · rw [(enqueue_lengths st _).2.2]; exact hd
      · rw [(enqueue_lengths st _).1]; exact hlen
      · rw [(enqueue_lengths st _).2.1]; exact hlen2
    · exact ih st hv hl hd hlen hlen2

/-- The unused-variable loop of `preprocess` assigns `true` at level 0 to
every zero-usage variable it visits. -/
theorem foldl_enqueue_unused_assigns (s : Solver) (v : Nat) (is : List Nat)
    (st : Solver)
    (hin : v ∈ is)
    (hus : s.usageCount v = 0)
    (hd : st.mDecisions = [])
    (hlen : v < st.mVariableState.length)
    (hlen2 : v < st.mAssignedAtLevel.length) :
    let r := is.foldl (fun st i =>
      if s.usageCount i = 0 then st.enqueue (Literal.ofIndexValue i true) else st) st
    r.varState v = Tribool.tru ∧ r.mAssignedAtLevel.getD v 0 = 0 := by
  induction is generalizing st with
  | nil => cases hin
  | cons i rest ih =>
    simp only [List.foldl_cons]
    rcases List.mem_cons.mp hin with rfl | hin'
    · rw [if_pos hus]
      refine foldl_enqueue_unused_preserves s v rest _ ?_ ?_ ?_ ?_ ?_
      · show ((st.enqueue _).mVariableState).getD v Tribool.unk = Tribool.tru
        simp only [Solver.enqueue, Solver.assignVariable]
        rw [ofIndexValue_true_index, getD_set_self _ _ _ _ hlen,
          ofIndexValue_true_value]
        rfl
      · simp only [Solver.enqueue, Solver.assignVariable]
        rw [ofIndexValue_true_index, getD_set_self _ _ _ _ hlen2]
        simp [Solver.decisionLevel, hd]
      · rw [(enqueue_lengths st _).2.2]; exact hd
      · rw [(enqueue_lengths st _).1]; exact hlen
      · rw [(enqueue_lengths st _).2.1]; exact hlen2
    · split
      · refine ih _ hin' ?_ ?_ ?_
        · rw [(enqueue_lengths st _).2.2]; exact hd
        · rw [(enqueue_lengths st _).1]; exact hlen
        · rw [(enqueue_lengths st _).2.1]; exact hlen2
      · exact ih st hin' hd hlen hlen2

/-- The unit-clause loop of `preprocess` never touches a variable that
occurs in no clause, whichever way it returns. -/
theorem preprocessUnits_preserves (v : Nat) (cls : List Clause) (st : Solver)
    (hocc : ∀ c ∈ cls, ∀ l ∈ c.mLiterals, l.index ≠ v) :
    (st.preprocessUnits cls).1.varState v = st.varState v
    ∧ (st.preprocessUnits cls).1.mAssignedAtLevel.getD v 0
        = st.mAssignedAtLevel.getD v 0 := by
  induction cls generalizing st with
  | nil => exact ⟨rfl, rfl⟩
  | cons c rest ih =>
    have hocc' : ∀ c' ∈ rest, ∀ l ∈ c'.mLiterals, l.index ≠ v :=
      fun c' hc' => hocc c' (List.mem_cons_of_mem c hc')
    unfold Solver.preprocessUnits
    split
    · exact ⟨rfl, rfl⟩
    · split
      · rename_i hsize0 hsize1
        dsimp only
        have hne : (c.get 0).index ≠ v := by
          refine hocc c (List.mem_cons_self c rest) (c.get 0) ?_
          have hpos : 0 < c.mLiterals.length := by
            have := hsize1
            unfold Clause.size at this
            omega
          unfold Clause.get
          rw [List.getD_eq_getElem?_getD, List.getElem?_eq_getElem hpos]
          exact List.getElem_mem hpos
        split
        · have hstep := ih (st.enqueue (c.get 0)) hocc'
          refine ⟨hstep.1.trans ?_, hstep.2.trans ?_⟩
          · show ((st.enqueue _).mVariableState).getD v Tribool.unk = _
            simp only [Solver.enqueue, Solver.assignVariable]
            rw [getD_set_ne _ _ _ _ _ hne]
            rfl
          · simp only [Solver.enqueue, Solver.assignVariable]
            rw [getD_set_ne _ _ _ _ _ hne]
        · split
          · exact ⟨rfl, rfl⟩
          · exact ih st hocc'
      · exact ih st hocc'

/-- `resetWatches` (and `watchClause`) only modify the watch lists. -/
theorem resetWatches_preserves (s : Solver) :
    (s.resetWatches).mVariableState = s.mVariableState
    ∧ (s.resetWatches).mAssignedAtLevel = s.mAssignedAtLevel := by
  unfold Solver.resetWatches
  have h : ∀ (is : List Nat) (st : Solver),
      ((is.foldl (fun st idx => st.watchClause idx) st).mVariableState
          = st.mVariableState)
      ∧ ((is.foldl (fun st idx => st.watchClause idx) st).mAssignedAtLevel
          = st.mAssignedAtLevel) := by
    intro is
    induction is with
    | nil => exact fun st => ⟨rfl, rfl⟩
    | cons i rest ih =>
      intro st
      simp only [List.foldl_cons]
      refine ⟨(ih _).1.trans ?_, (ih _).2.trans ?_⟩ <;>
        · unfold Solver.watchClause
          dsimp only
          split
          · rfl
          · rfl
  exact h _ _

/-- The maximum assignment level among a list of literals (0 when empty),
accumulated exactly like `backtrackLevel` in the 1-UIP loop. -/
def maxLevelOf (s : Solver) (ls : List Literal) : Int :=
  ls.foldl (fun acc lit => max acc (s.mAssignedAtLevel.getD lit.index 0)) 0

/-- The number of trail positions in `[k, T]` whose variable is marked seen:
the quantity tracked by `counter` in `firstUniqueImplicationPointCut`. -/
def seenCount (s : Solver) (k : Nat) (seen : List Bool) (T : Int) : Int :=
  ((List.range s.mTrail.length).countP (fun p =>
      decide (k ≤ p) && decide ((p : Int) ≤ T)
      && seen.getD (s.mTrail.getD p (Literal.mk 1)).index false) : Int)

/-- The loop invariant of the 1-UIP traversal (for a solver state with last
decision mark `k`): the seen vector covers the variables, the trail cursor
is in range, `counter` counts the seen current-level trail positions at or
below the cursor, the collected clause literals lie at levels strictly
between 0 and the decision level, and `backtrackLevel` is their maximum
level. -/
def fuipInv (s : Solver) (k : Nat) (fs : FuipState) : Prop :=
  fs.seen.length = s.mVariableState.length
  ∧ fs.trailIdx < (s.mTrail.length : Int)
  ∧ fs.counter = seenCount s k fs.seen fs.trailIdx
  ∧ (∀ lit ∈ fs.newClause, 0 < s.mAssignedAtLevel.getD lit.index 0
      ∧ s.mAssignedAtLevel.getD lit.index 0 < s.decisionLevel)
  ∧ fs.backtrackLevel = maxLevelOf s fs.newClause

/-- Sanity of the clause reported as a conflict: it exists, its variables
are in range and carry an assignment level, and at least one of them was
assigned at the current decision level. -/
def conflictClauseSane (s : Solver) (ci : Nat) : Prop :=
  ci < s.mClauses.length
  ∧ (∀ lit ∈ (s.mClauses.getD ci (Clause.mk [] false)).mLiterals,
      lit.index < s.mVariableState.length
      ∧ s.mAssignedAtLevel.getD lit.index 0 ≠ -1)
  ∧ ∃ lit ∈ (s.mClauses.getD ci (Clause.mk [] false)).mLiterals,
      s.mAssignedAtLevel.getD lit.index 0 = s.decisionLevel

instance (s : Solver) (ci : Nat) : Decidable (conflictClauseSane s ci) := by
  unfold conflictClauseSane
  infer_instance

/-- Sanity of the implying-clause references: every implied trail literal's
reason clause exists and its remaining literals were assigned strictly
earlier on the trail. -/
def reasonsSane (s : Solver) : Prop :=
  ∀ p, p < s.mTrail.length →
    s.mImplications.getD (s.mTrail.getD p (Literal.mk 1)).index (-1) ≠ -1 →
    (s.mImplications.getD (s.mTrail.getD p (Literal.mk 1)).index (-1)).toNat
        < s.mClauses.length
    ∧ ∀ cl ∈ (s.mClauses.getD
          (s.mImplications.getD (s.mTrail.getD p (Literal.mk 1)).index (-1)).toNat
          (Clause.mk [] false)).mLiterals,
        cl.index ≠ (s.mTrail.getD p (Literal.mk 1)).index →
        ∃ q, q < p ∧ (s.mTrail.getD q (Literal.mk 1)).index = cl.index

instance (s : Solver) : Decidable (reasonsSane s) := by
  unfold reasonsSane
  infer_instance

theorem Literal.negate_index (l : Literal) : (l.negate).index = l.index := by
  simp [Literal.negate, Literal.index]

theorem ofIndexValue_index (i : Nat) (b : Bool) :
    (Literal.ofIndexValue i b).index = i := by
  cases b <;> simp [Literal.ofIndexValue, Literal.index]

theorem getD_irrel {α : Type} (l : List α) (i : Nat) (d₁ d₂ : α)
    (h : i < l.length) : l.getD i d₁ = l.getD i d₂ := by
  rw [List.getD_eq_getElem?_getD, List.getD_eq_getElem?_getD,
    List.getElem?_eq_getElem h]
  rfl

theorem getD_oob {α : Type} (l : List α) (i : Nat) (d : α)
    (h : l.length ≤ i) : l.getD i d = d := by
  rw [List.getD_eq_getElem?_getD, List.getElem?_eq_none h]
  rfl

theorem countP_or_disjoint {α : Type} (l : List α) (f g h : α → Bool)
    (hfg : ∀ p ∈ l, f p = (g p || h p))
    (hdis : ∀ p ∈ l, ¬(g p = true ∧ h p = true)) :
    l.countP f = l.countP g + l.countP h := by
  induction l with
  | nil => rfl
  | cons a rest ih =>
    rw [List.countP_cons, List.countP_cons, List.countP_cons,
      ih (fun p hp => hfg p (List.mem_cons_of_mem a hp))
        (fun p hp => hdis p (List.mem_cons_of_mem a hp)),
      hfg a (List.mem_cons_self a rest)]
    rcases hg : g a with _ | _ <;> rcases hh : h a with _ | _
    · simp
    · simp [hg, hh]
      omega
    · simp [hg, hh]
      omega
    · exact absurd ⟨hg, hh⟩ (hdis a (List.mem_cons_self a rest))

theorem maxLevelOf_append (s : Solver) (nc : List Literal) (x : Literal) :
    maxLevelOf s (nc ++ [x])
      = max (maxLevelOf s nc) (s.mAssignedAtLevel.getD x.index 0) := by
  unfold maxLevelOf
  rw [List.foldl_append]
  rfl

/-- Level of a trail position versus the last decision mark: a position is
at the current decision level exactly when it is at or after the mark. -/
theorem levelOfPos_last_mark (s : Solver) (A : List Nat) (k : Nat)
    (hmarks : s.mTrailIndices = A ++ [k])
    (hpair : s.mTrailIndices.Pairwise (· < ·))
    (hlen3 : s.mTrailIndices.length = s.mDecisions.length)
    (p : Nat) :
    (k ≤ p → s.levelOfPos p = s.decisionLevel)
    ∧ (p < k → s.levelOfPos p < s.decisionLevel) := by
  have hAlt : ∀ m ∈ A, m < k := by
    rw [hmarks, List.pairwise_append] at hpair
    exact fun m hm => hpair.2.2 m hm k (List.mem_singleton.mpr rfl)
  have hmlen : s.mTrailIndices.length = A.length + 1 := by
    rw [hmarks]
    simp
  constructor
  · intro hp
    unfold Solver.levelOfPos Solver.decisionLevel
    rw [List.countP_eq_length.mpr, hlen3]
    intro m hm
    rw [hmarks] at hm
    rcases List.mem_append.mp hm with h | h
    · exact decide_eq_true (Nat.le_of_lt (Nat.lt_of_lt_of_le (hAlt m h) hp))
    · rw [List.mem_singleton.mp h]
      exact decide_eq_true hp
  · intro hp
    unfold Solver.levelOfPos Solver.decisionLevel
    rw [hmarks, List.countP_append]
    have h0 : List.countP (fun m => decide (m ≤ p)) [k] = 0 := by
      simp only [List.countP_cons, List.countP_nil]
      rw [decide_eq_false (by omega : ¬k ≤ p)]
      rfl
    rw [h0]
    have hle := List.countP_le_length (fun m => decide (m ≤ p)) (l := A)
    rw [← hlen3, hmlen]
    omega

/-- Distinct trail variables: positions with equal variable index are
equal. -/
theorem trail_index_inj (s : Solver)
    (hnd : (s.mTrail.map Literal.index).Nodup) (p q : Nat)
    (hp : p < s.mTrail.length) (hq : q < s.mTrail.length)
    (he : (s.mTrail.getD p (Literal.mk 1)).index
        = (s.mTrail.getD q (Literal.mk 1)).index) : p = q := by
  have hp' : p < (s.mTrail.map Literal.index).length := by
    rw [List.length_map]
    exact hp
  have hq' : q < (s.mTrail.map Literal.index).length := by
    rw [List.length_map]
    exact hq
  have e1 : (s.mTrail.map Literal.index).get ⟨p, hp'⟩
      = (s.mTrail.getD p (Literal.mk 1)).index := by
    rw [List.get_eq_getElem, List.getElem_map, List.getD_eq_getElem?_getD,
      List.getElem?_eq_getElem hp]
    rfl
  have e2 : (s.mTrail.map Literal.index).get ⟨q, hq'⟩
      = (s.mTrail.getD q (Literal.mk 1)).index := by
    rw [List.get_eq_getElem, List.getElem_map, List.getD_eq_getElem?_getD,
      List.getElem?_eq_getElem hq]
    rfl
  have hfe : (⟨p, hp'⟩ : Fin (s.mTrail.map Literal.index).length) = ⟨q, hq'⟩ :=
    (List.Nodup.get_inj_iff hnd).mp (by rw [e1, e2]; exact he)
  exact congrArg Fin.val hfe

theorem getD_mem {α : Type} (l : List α) (n : Nat) (d : α) (h : n < l.length) :
    l.getD n d ∈ l := by
  rw [List.getD_eq_getElem?_getD, List.getElem?_eq_getElem h]
  exact List.getElem_mem h

theorem countP_congr_bool {α : Type} (l : List α) (p q : α → Bool)
    (h : ∀ a ∈ l, p a = q a) : l.countP p = l.countP q :=
  List.countP_congr (fun a ha => by rw [h a ha])

/-- Flipping a predicate from false to true at a single element occurring
exactly once increases the count by one. -/
theorem countP_flip_one {α : Type} [DecidableEq α] (l : List α)
    (f g : α → Bool) (a : α) (hcount : l.count a = 1)
    (hfa : f a = false) (hga : g a = true)
    (hother : ∀ b ∈ l, b ≠ a → g b = f b) :
    l.countP g = l.countP f + 1 := by
  induction l with
  | nil => simp at hcount
  | cons b rest ih =>
    rw [List.countP_cons, List.countP_cons]
    by_cases hba : b = a
    · subst hba
      have h0 : rest.count b = 0 := by
        rw [List.count_cons_self] at hcount
        omega
      have hnotmem : b ∉ rest := List.count_eq_zero.mp h0
      have hcong : rest.countP g = rest.countP f :=
        countP_congr_bool rest g f (fun c hc =>
          hother c (List.mem_cons_of_mem b hc)
            (fun hca => hnotmem (hca ▸ hc)))
      rw [hcong, hfa, hga]
      simp
    · have hcount' : rest.count a = 1 := by
        rw [List.count_cons, if_neg (by simpa using hba)] at hcount
        omega
      have hgb : g b = f b := hother b (List.mem_cons_self b rest) hba
      rw [hgb, ih hcount' (fun c hc hca =>
        hother c (List.mem_cons_of_mem b hc) hca)]
      omega

theorem getD_replicate_false (n p : Nat) :
    (List.replicate n false).getD p false = false := by
  induction n generalizing p with
  | zero => rfl
  | succ m ih =>
    cases p with
    | zero => rfl
    | succ q => exact ih q

/-- Partial correctness of the backwards trail scan of the 1-UIP loop: a
successful scan returns the greatest seen trail position at or below the
cursor, together with the cursor moved just past it. -/
theorem fuipScan_spec (s : Solver) (seen : List Bool) :
    ∀ (fuel : Nat) (T : Int) (lit : Literal) (T' : Int),
      T < (s.mTrail.length : Int) →
      s.fuipScan seen fuel T = some (lit, T') →
      ∃ p : Nat, (p : Int) ≤ T ∧ p < s.mTrail.length
        ∧ lit = s.mTrail.getD p (Literal.mk 1)
        ∧ T' = (p : Int) - 1
        ∧ seen.getD lit.index false = true
        ∧ ∀ q : Nat, p < q → (q : Int) ≤ T →
            seen.getD (s.mTrail.getD q (Literal.mk 1)).index false = false := by
  intro fuel
  induction fuel with
  | zero =>
    intro T lit T' hT hres
    exact absurd hres (by simp [Solver.fuipScan])
  | succ n ih =>
    intro T lit T' hT hres
    unfold Solver.fuipScan at hres
    split at hres
    · exact absurd hres (by simp)
    · rename_i hTnn
      dsimp only at hres
      split at hres
      · rename_i hseen
        simp only [Option.some.injEq, Prod.mk.injEq] at hres
        obtain ⟨h1, h2⟩ := hres
        refine ⟨T.toNat, ?_, ?_, h1.symm, ?_, ?_, ?_⟩
        · omega
        · omega
        · omega
        · rw [← h1]
          exact hseen
        · intro q hq1 hq2
          omega
      · rename_i hseen
        have hseen' : seen.getD (s.mTrail.getD T.toNat (Literal.mk 1)).index false
            = false := by
          revert hseen
          cases seen.getD (s.mTrail.getD T.toNat (Literal.mk 1)).index false <;> simp
        obtain ⟨p, hp1, hp2, hp3, hp4, hp5, hp6⟩ :=
          ih (T - 1) lit T' (by omega) hres
        refine ⟨p, by omega, hp2, hp3, hp4, hp5, ?_⟩
        intro q hq1 hq2
        by_cases hqT : (q : Int) ≤ T - 1
        · exact hp6 q hq1 hqT
        · have hq : q = T.toNat := by omega
          rw [hq]
          exact hseen'

/-- One iteration of the predecessor loop of the 1-UIP cut preserves the
loop invariant, keeps the trail cursor, grows the seen set monotonically
and marks the processed literal seen. -/
theorem fuipStep_spec (s : Solver) (A : List Nat) (k : Nat)
    (hwf : wellFormedTrail s)
    (hmarks : s.mTrailIndices = A ++ [k])
    (fs : FuipState) (lit : Literal)
    (hinv : fuipInv s k fs)
    (hidx : lit.index < s.mVariableState.length)
    (hpos : ∃ p, p < s.mTrail.length ∧ (p : Int) ≤ fs.trailIdx
        ∧ (s.mTrail.getD p (Literal.mk 1)).index = lit.index)
    (fs₁ : FuipState)
    (hfs₁ : fs₁ = if fs.seen.getD lit.index false then fs
      else
        if s.mAssignedAtLevel.getD lit.index UnknownIndex = s.decisionLevel then
          { fs with
            seen := fs.seen.set lit.index true
            counter := fs.counter + 1 }
        else if s.mAssignedAtLevel.getD lit.index UnknownIndex > 0 then
          { fs with
            seen := fs.seen.set lit.index true
            newClause := fs.newClause ++ [lit.negate]
            backtrackLevel := max fs.backtrackLevel
              (s.mAssignedAtLevel.getD lit.index UnknownIndex) }
        else { fs with seen := fs.seen.set lit.index true }) :
    fuipInv s k fs₁ ∧ fs₁.trailIdx = fs.trailIdx
    ∧ (∀ v, fs.seen.getD v false = true → fs₁.seen.getD v false = true)
    ∧ fs₁.seen.getD lit.index false = true := by
  subst hfs₁
  obtain ⟨hlen1, hlen2, hlen3, hpair, hbound, hnd, hrange, hposlvl, hmemlvl,
    hlvlbound⟩ := hwf
  obtain ⟨hs1, hs2, hs3, hs4, hs5⟩ := hinv
  have hvlen : lit.index < fs.seen.length := by
    rw [hs1]
    exact hidx
  have hbridge : s.mAssignedAtLevel.getD lit.index UnknownIndex
      = s.mAssignedAtLevel.getD lit.index 0 :=
    getD_irrel _ _ _ _ (by rw [hlen1]; exact hidx)
  have hmono : ∀ w, fs.seen.getD w false = true →
      (fs.seen.set lit.index true).getD w false = true := by
    intro w hw
    by_cases hwv : lit.index = w
    · subst hwv
      rw [getD_set_self _ _ _ _ hvlen]
    · rw [getD_set_ne _ _ _ _ _ hwv]
      exact hw
  have hmarked : (fs.seen.set lit.index true).getD lit.index false = true :=
    getD_set_self _ _ _ _ hvlen
  by_cases hseen : fs.seen.getD lit.index false = true
  · rw [if_pos hseen]
    exact ⟨⟨hs1, hs2, hs3, hs4, hs5⟩, rfl, fun v h => h, hseen⟩
  · rw [if_neg hseen]
    have hunseen : fs.seen.getD lit.index false = false := by
      revert hseen
      cases fs.seen.getD lit.index false <;> simp
    have hK1 : s.mAssignedAtLevel.getD lit.index 0 = s.decisionLevel →
        seenCount s k (fs.seen.set lit.index true) fs.trailIdx
          = seenCount s k fs.seen fs.trailIdx + 1 := by
      intro hlev
      obtain ⟨p, hplen, hpT, hpidx⟩ := hpos
      have hplvl : s.levelOfPos p = s.decisionLevel := by
        rw [← hposlvl p hplen, hpidx]
        exact hlev
      have hkp : k ≤ p := by
        by_contra h
        have := (levelOfPos_last_mark s A k hmarks hpair hlen3 p).2 (by omega)
        omega
      have hflip : (List.range s.mTrail.length).countP (fun q =>
            decide (k ≤ q) && decide ((q : Int) ≤ fs.trailIdx)
            && (fs.seen.set lit.index true).getD
                (s.mTrail.getD q (Literal.mk 1)).index false)
          = (List.range s.mTrail.length).countP (fun q =>
            decide (k ≤ q) && decide ((q : Int) ≤ fs.trailIdx)
            && fs.seen.getD (s.mTrail.getD q (Literal.mk 1)).index false) + 1 := by
        refine countP_flip_one _ _ _ p
          (List.count_eq_one_of_mem (List.nodup_range s.mTrail.length)
            (List.mem_range.mpr hplen)) ?_ ?_ ?_
        · rw [hpidx, hunseen]
          simp
        · rw [hpidx, hmarked]
          simp [hkp, hpT]
        · intro q hq hqp
          have hqlen : q < s.mTrail.length := List.mem_range.mp hq
          have hne : lit.index ≠ (s.mTrail.getD q (Literal.mk 1)).index := by
            intro h
            exact hqp (trail_index_inj s hnd q p hqlen hplen (by rw [← h, hpidx]))
          rw [getD_set_ne _ _ _ _ _ hne]
      unfold seenCount
      omega
    have hK2 : s.mAssignedAtLevel.getD lit.index 0 ≠ s.decisionLevel →
        seenCount s k (fs.seen.set lit.index true) fs.trailIdx
          = seenCount s k fs.seen fs.trailIdx := by
      intro hlevne
      have hnotrail : ∀ q, q < s.mTrail.length → k ≤ q →
          (s.mTrail.getD q (Literal.mk 1)).index ≠ lit.index := by
        intro q hq hkq heq
        have h1 := hposlvl q hq
        rw [heq] at h1
        have h2 := (levelOfPos_last_mark s A k hmarks hpair hlen3 q).1 hkq
        exact hlevne (h1.trans h2)
      unfold seenCount
      congr 1
      refine countP_congr_bool _ _ _ ?_
      intro q hq
      by_cases hkq : k ≤ q
      · have hne : lit.index ≠ (s.mTrail.getD q (Literal.mk 1)).index :=
          fun h => hnotrail q (List.mem_range.mp hq) hkq h.symm
        rw [getD_set_ne _ _ _ _ _ hne]
      · simp [hkq]
    by_cases hlevd : s.mAssignedAtLevel.getD lit.index UnknownIndex = s.decisionLevel
    · rw [if_pos hlevd]
      refine ⟨⟨?_, hs2, ?_, hs4, hs5⟩, rfl, hmono, hmarked⟩
      · show (fs.seen.set lit.index true).length = _
        rw [List.length_set]
        exact hs1
      · show fs.counter + 1 = seenCount s k (fs.seen.set lit.index true) fs.trailIdx
        rw [hK1 (by rw [← hbridge]; exact hlevd), hs3]
    · rw [if_neg hlevd]
      have hlevne : s.mAssignedAtLevel.getD lit.index 0 ≠ s.decisionLevel := by
        rw [← hbridge]
        exact hlevd
      by_cases hlevpos : s.mAssignedAtLevel.getD lit.index UnknownIndex > 0
      · rw [if_pos hlevpos]
        refine ⟨⟨?_, hs2, ?_, ?_, ?_⟩, rfl, hmono, hmarked⟩
        · show (fs.seen.set lit.index true).length = _
          rw [List.length_set]
          exact hs1
        · show fs.counter = seenCount s k (fs.seen.set lit.index true) fs.trailIdx
          rw [hK2 hlevne]
          exact hs3
        · show ∀ l ∈ fs.newClause ++ [lit.negate], _
          intro l hl
          rcases List.mem_append.mp hl with h | h
          · exact hs4 l h
          · rw [List.mem_singleton.mp h, Literal.negate_index]
            constructor
            · rw [← hbridge]
              omega
            · have hle := hlvlbound lit.index hidx
              omega
        · show max fs.backtrackLevel (s.mAssignedAtLevel.getD lit.index UnknownIndex)
              = maxLevelOf s (fs.newClause ++ [lit.negate])
          rw [maxLevelOf_append, Literal.negate_index, ← hs5, hbridge]
      · rw [if_neg hlevpos]
        refine ⟨⟨?_, hs2, ?_, hs4, hs5⟩, rfl, hmono, hmarked⟩
        · show (fs.seen.set lit.index true).length = _
          rw [List.length_set]
          exact hs1
        · show fs.counter = seenCount s k (fs.seen.set lit.index true) fs.trailIdx
          rw [hK2 hlevne]
          exact hs3

/-- The predecessor loop of the 1-UIP cut preserves the loop invariant,
keeps the trail cursor, grows the seen set monotonically and marks every
processed literal seen. -/
theorem fuipProcessPredecessors_spec (s : Solver) (A : List Nat) (k : Nat)
    (hwf : wellFormedTrail s)
    (hmarks : s.mTrailIndices = A ++ [k]) :
    ∀ (preds : List Literal) (fs : FuipState),
      fuipInv s k fs →
      (∀ lit ∈ preds, lit.index < s.mVariableState.length) →
      (∀ lit ∈ preds, ∃ p, p < s.mTrail.length ∧ (p : Int) ≤ fs.trailIdx
          ∧ (s.mTrail.getD p (Literal.mk 1)).index = lit.index) →
      fuipInv s k (s.fuipProcessPredecessors fs preds)
      ∧ (s.fuipProcessPredecessors fs preds).trailIdx = fs.trailIdx
      ∧ (∀ v, fs.seen.getD v false = true →
          (s.fuipProcessPredecessors fs preds).seen.getD v false = true)
      ∧ ∀ lit ∈ preds,
          (s.fuipProcessPredecessors fs preds).seen.getD lit.index false = true := by
  intro preds
  induction preds with
  | nil =>
    intro fs hinv _ _
    exact ⟨hinv, rfl, fun v h => h, fun lit h => absurd h (List.not_mem_nil lit)⟩
  | cons lit rest ih =>
    intro fs hinv hidx hpos
    have hstep := fuipStep_spec s A k hwf hmarks fs lit hinv
      (hidx lit (List.mem_cons_self lit rest))
      (hpos lit (List.mem_cons_self lit rest)) _ rfl
    obtain ⟨hinv₁, hT₁, hmono₁, hmark₁⟩ := hstep
    have hfold : s.fuipProcessPredecessors fs (lit :: rest)
        = s.fuipProcessPredecessors
            (if fs.seen.getD lit.index false then fs
             else
               if s.mAssignedAtLevel.getD lit.index UnknownIndex = s.decisionLevel then
                 { fs with
                   seen := fs.seen.set lit.index true
                   counter := fs.counter + 1 }
               else if s.mAssignedAtLevel.getD lit.index UnknownIndex > 0 then
                 { fs with
                   seen := fs.seen.set lit.index true
                   newClause := fs.newClause ++ [lit.negate]
                   backtrackLevel := max fs.backtrackLevel
                     (s.mAssignedAtLevel.getD lit.index UnknownIndex) }
               else { fs with seen := fs.seen.set lit.index true }) rest := by
      unfold Solver.fuipProcessPredecessors
      rw [List.foldl_cons]
    have hrest := ih _ hinv₁
      (fun l hl => hidx l (List.mem_cons_of_mem lit hl))
      (fun l hl => by
        obtain ⟨p, h1, h2, h3⟩ := hpos l (List.mem_cons_of_mem lit hl)
        exact ⟨p, h1, by rw [hT₁]; exact h2, h3⟩)
    rw [hfold]
    refine ⟨hrest.1, hrest.2.1.trans hT₁, ?_, ?_⟩
    · intro v hv
      exact hrest.2.2.1 v (hmono₁ v hv)
    · intro l hl
      rcases List.mem_cons.mp hl with h | h
      · subst h
        exact hrest.2.2.1 l.index hmark₁
      · exact hrest.2.2.2 l h

/-- Partial correctness of the `while (true)` loop of
`firstUniqueImplicationPointCut`: if the loop terminates with a clause and
a backtrack level, then the clause's final literal was assigned at the
current decision level, every other literal strictly between level 0 and
the current level, exactly one literal of the clause sits at the current
level, and the backtrack level is the maximum level of the other
literals. -/
theorem fuipLoop_spec (s : Solver) (A : List Nat) (k : Nat)
    (hwf : wellFormedTrail s)
    (hmarks : s.mTrailIndices = A ++ [k])
    (hrs : reasonsSane s) :
    ∀ (fuel : Nat) (fs : FuipState) (preds : List Literal) (bt : Int)
      (nc : List Literal),
      fuipInv s k fs →
      (∀ lit ∈ preds, lit.index < s.mVariableState.length) →
      (∀ lit ∈ preds, ∃ p, p < s.mTrail.length ∧ (p : Int) ≤ fs.trailIdx
          ∧ (s.mTrail.getD p (Literal.mk 1)).index = lit.index) →
      (∃ p, p < s.mTrail.length ∧ k ≤ p ∧ (p : Int) ≤ fs.trailIdx
          ∧ (fs.seen.getD (s.mTrail.getD p (Literal.mk 1)).index false = true
             ∨ ∃ lit ∈ preds, lit.index = (s.mTrail.getD p (Literal.mk 1)).index)) →
      s.fuipLoop fuel fs preds = some (bt, nc) →
      nc ≠ []
      ∧ (∀ lit ∈ nc.dropLast, 0 < s.mAssignedAtLevel.getD lit.index 0
          ∧ s.mAssignedAtLevel.getD lit.index 0 < s.decisionLevel)
      ∧ s.mAssignedAtLevel.getD (nc.getLastD (Literal.mk 1)).index 0 = s.decisionLevel
      ∧ nc.countP (fun lit =>
          decide (s.mAssignedAtLevel.getD lit.index 0 = s.decisionLevel)) = 1
      ∧ bt = maxLevelOf s nc.dropLast := by
  have hUnk : UnknownIndex = (-1 : Int) := rfl
  intro fuel
  induction fuel with
  | zero =>
    intro fs preds bt nc _ _ _ _ hres
    exact absurd hres (by simp [Solver.fuipLoop])
  | succ n ih =>
    intro fs preds bt nc hinv hidx hpos hpend hres
    unfold Solver.fuipLoop at hres
    dsimp only at hres
    obtain ⟨hinv₁, hT₁, hmono₁, hmarked₁⟩ :=
      fuipProcessPredecessors_spec s A k hwf hmarks preds fs hinv hidx hpos
    set F := s.fuipProcessPredecessors fs preds with hF
    obtain ⟨hF1, hF2, hF3, hF4, hF5⟩ := hinv₁
    rcases hscan : s.fuipScan F.seen (s.mTrail.length + 1) F.trailIdx with _ | ⟨nextLit, T'⟩
    · rw [hscan] at hres
      exact absurd hres (by simp)
    · rw [hscan] at hres
      dsimp only at hres
      obtain ⟨pstar, hpsT, hpslen, hnext, hT', hseenps, hnone⟩ :=
        fuipScan_spec s F.seen _ F.trailIdx nextLit T' hF2 hscan
      obtain ⟨p₀, hp₀len, hkp₀, hp₀T, hp₀seen⟩ := hpend
      have hp₀T' : (p₀ : Int) ≤ F.trailIdx := by
        rw [hT₁]
        exact hp₀T
      have hp₀seen' : F.seen.getD (s.mTrail.getD p₀ (Literal.mk 1)).index false
          = true := by
        rcases hp₀seen with h | ⟨lit, hmem, heq⟩
        · exact hmono₁ _ h
        · rw [← heq]
          exact hmarked₁ lit hmem
      have hkps : k ≤ pstar := by
        rcases Nat.lt_or_ge pstar p₀ with h | h
        · exact absurd hp₀seen'
            (by rw [hnone p₀ h hp₀T']; simp)
        · omega
      have hseen_ps : F.seen.getD (s.mTrail.getD pstar (Literal.mk 1)).index false
          = true := by
        rw [← hnext]
        exact hseenps
      have hlevnext : s.mAssignedAtLevel.getD nextLit.index 0 = s.decisionLevel := by
        obtain ⟨hlen1, hlen2, hlen3, hpair, hbound, hnd, hrange, hposlvl, hmemlvl,
          hlvlbound⟩ := hwf
        rw [hnext, hposlvl pstar hpslen]
        exact (levelOfPos_last_mark s A k hmarks hpair hlen3 pstar).1 hkps
      have hone : (List.range s.mTrail.length).countP (fun q => q == pstar) = 1 := by
        show (List.range s.mTrail.length).count pstar = 1
        exact List.count_eq_one_of_mem (List.nodup_range s.mTrail.length)
          (List.mem_range.mpr hpslen)
      have hdec : (List.range s.mTrail.length).countP (fun q =>
            decide (k ≤ q) && decide ((q : Int) ≤ F.trailIdx)
            && F.seen.getD (s.mTrail.getD q (Literal.mk 1)).index false)
          = (List.range s.mTrail.length).countP (fun q =>
            decide (k ≤ q) && decide ((q : Int) ≤ (pstar : Int) - 1)
            && F.seen.getD (s.mTrail.getD q (Literal.mk 1)).index false)
            + (List.range s.mTrail.length).countP (fun q => q == pstar) := by
        refine countP_or_disjoint _ _ _ _ ?_ ?_
        · intro q hq
          by_cases hqp : q = pstar
          · subst hqp
            rw [hseen_ps]
            have e1 : decide (k ≤ q) = true := decide_eq_true hkps
            have e2 : decide ((q : Int) ≤ F.trailIdx) = true := decide_eq_true hpsT
            have e3 : decide ((q : Int) ≤ (q : Int) - 1) = false :=
              decide_eq_false (by omega)
            rw [e1, e2, e3]
            simp
          · have hbeq : (q == pstar) = false := by
              simp [hqp]
            rw [hbeq, Bool.or_false]
            by_cases hql : (q : Int) ≤ (pstar : Int) - 1
            · have e1 : decide ((q : Int) ≤ F.trailIdx) = true :=
                decide_eq_true (by omega)
              have e2 : decide ((q : Int) ≤ (pstar : Int) - 1) = true :=
                decide_eq_true hql
              rw [e1, e2]
            · have e2 : decide ((q : Int) ≤ (pstar : Int) - 1) = false :=
                decide_eq_false hql
              rw [e2, Bool.and_false, Bool.false_and]
              by_cases hqT : (q : Int) ≤ F.trailIdx
              · have hgt : pstar < q := by omega
                rw [hnone q hgt hqT]
                simp
              · have e1 : decide ((q : Int) ≤ F.trailIdx) = false :=
                  decide_eq_false hqT
                rw [e1, Bool.and_false, Bool.false_and]
        · intro q hq ⟨hg, hh⟩
          have hqp : q = pstar := by simpa using hh
          subst hqp
          have e3 : decide ((q : Int) ≤ (q : Int) - 1) = false :=
            decide_eq_false (by omega)
          rw [e3, Bool.and_false, Bool.false_and] at hg
          exact Bool.false_ne_true hg
      have hcnt2 : F.counter = seenCount s k F.seen ((pstar : Int) - 1) + 1 := by
        rw [hF3]
        unfold seenCount
        omega
      by_cases hc0 : F.counter - 1 = 0
      · rw [if_pos hc0] at hres
        simp only [Option.some.injEq, Prod.mk.injEq] at hres
        obtain ⟨hbt, hnc⟩ := hres
        subst hbt
        subst hnc
        refine ⟨by simp, ?_, ?_, ?_, ?_⟩
        · rw [List.dropLast_concat]
          exact hF4
        · rw [List.getLastD_concat, Literal.negate_index]
          exact hlevnext
        · rw [List.countP_append]
          have h0 : F.newClause.countP (fun lit =>
              decide (s.mAssignedAtLevel.getD lit.index 0 = s.decisionLevel)) = 0 := by
            refine List.countP_eq_zero.mpr ?_
            intro lit hlit
            have := (hF4 lit hlit).2
            simp only [decide_eq_true_eq]
            omega
          rw [h0]
          have hx : decide (s.mAssignedAtLevel.getD (nextLit.negate).index 0
              = s.decisionLevel) = true :=
            decide_eq_true (by rw [Literal.negate_index]; exact hlevnext)
          simp only [List.countP_cons, List.countP_nil, hx, Nat.zero_add]
          rfl
        · rw [List.dropLast_concat]
          exact hF5
      · rw [if_neg hc0] at hres
        have hcpos : 1 ≤ seenCount s k F.seen ((pstar : Int) - 1) := by
          unfold seenCount at hcnt2 ⊢
          omega
        refine ih { F with trailIdx := T', counter := F.counter - 1 }
          (s.fillImplyingPredecessors nextLit) bt nc
          ⟨hF1, ?_, ?_, hF4, hF5⟩ ?_ ?_ ?_ hres
        · show T' < (s.mTrail.length : Int)
          omega
        · show F.counter - 1 = seenCount s k F.seen T'
          rw [hT']
          omega
        · intro lit hlit
          unfold Solver.fillImplyingPredecessors at hlit
          dsimp only at hlit
          split at hlit
          · exact absurd hlit (List.not_mem_nil lit)
          · rename_i himp
            rw [hUnk] at himp
            rw [hnext] at himp
            obtain ⟨hcl_lt, hcl_all⟩ := hrs pstar hpslen himp
            obtain ⟨cl, hclmem, hcleq⟩ := List.mem_map.mp hlit
            obtain ⟨hclmem', hclne⟩ := List.mem_filter.mp hclmem
            have hclne' : cl.index ≠ nextLit.index := by simpa using hclne
            obtain ⟨q, hq1, hq2⟩ := hcl_all cl (by rw [← hnext]; exact hclmem')
              (by rw [← hnext]; exact hclne')
            have hidxeq : lit.index = cl.index := by
              rw [← hcleq, ofIndexValue_index]
            obtain ⟨hlen1, hlen2, hlen3, hpair, hbound, hnd, hrange, hposlvl,
              hmemlvl, hlvlbound⟩ := hwf
            have hqlen : q < s.mTrail.length := by omega
            have := hrange _ (getD_mem s.mTrail q (Literal.mk 1) hqlen)
            rw [hq2, ← hidxeq] at this
            exact this
        · intro lit hlit
          unfold Solver.fillImplyingPredecessors at hlit
          dsimp only at hlit
          split at hlit
          · exact absurd hlit (List.not_mem_nil lit)
          · rename_i himp
            rw [hUnk] at himp
            rw [hnext] at himp
            obtain ⟨hcl_lt, hcl_all⟩ := hrs pstar hpslen himp
            obtain ⟨cl, hclmem, hcleq⟩ := List.mem_map.mp hlit
            obtain ⟨hclmem', hclne⟩ := List.mem_filter.mp hclmem
            have hclne' : cl.index ≠ nextLit.index := by simpa using hclne
            obtain ⟨q, hq1, hq2⟩ := hcl_all cl (by rw [← hnext]; exact hclmem')
              (by rw [← hnext]; exact hclne')
            have hidxeq : lit.index = cl.index := by
              rw [← hcleq, ofIndexValue_index]
            refine ⟨q, by omega, ?_, by rw [hq2, hidxeq]⟩
            show (q : Int) ≤ T'
            omega
        · have hex : ∃ q ∈ List.range s.mTrail.length,
              (decide (k ≤ q) && decide ((q : Int) ≤ (pstar : Int) - 1)
                && F.seen.getD (s.mTrail.getD q (Literal.mk 1)).index false)
                = true := by
            refine List.countP_pos_iff.mp ?_
            unfold seenCount at hcpos
            omega
          obtain ⟨q, hq, hqpred⟩ := hex
          simp only [Bool.and_eq_true, decide_eq_true_eq] at hqpred
          obtain ⟨⟨hqk, hqle⟩, hqseen⟩ := hqpred
          refine ⟨q, List.mem_range.mp hq, hqk, ?_, Or.inl hqseen⟩
          show (q : Int) ≤ T'
          omega

/-- `popDecision` on a well-formed state with at least one decision: the
decision level drops by one, the variables assigned at the current decision
level are unassigned (value, level and implying-clause reference cleared),
every other variable's record is untouched, and well-formedness is
preserved. -/
theorem popDecision_spec (s : Solver) (hwf : wellFormedTrail s)
    (hd : 1 ≤ s.decisionLevel) :
    wellFormedTrail s.popDecision
    ∧ s.popDecision.decisionLevel = s.decisionLevel - 1
    ∧ s.popDecision.mVariableState.length = s.mVariableState.length
    ∧ (∀ v, v < s.mVariableState.length →
        (s.mAssignedAtLevel.getD v 0 = s.decisionLevel →
          s.popDecision.varState v = Tribool.unk
          ∧ s.popDecision.mAssignedAtLevel.getD v 0 = -1
          ∧ s.popDecision.mImplications.getD v (-1) = -1)
        ∧ (s.mAssignedAtLevel.getD v 0 ≠ s.decisionLevel →
          s.popDecision.varState v = s.varState v
          ∧ s.popDecision.mAssignedAtLevel.getD v 0 = s.mAssignedAtLevel.getD v 0
          ∧ s.popDecision.mImplications.getD v (-1) = s.mImplications.getD v (-1))) := by
  obtain ⟨hlen1, hlen2, hlen3, hpair, hbound, hnd, hrange, hposlvl, hmemlvl, hlvlbound⟩ := hwf
  have hdlen : 1 ≤ s.mDecisions.length := by
    unfold Solver.decisionLevel at hd
    omega
  have hmne : s.mTrailIndices ≠ [] := by
    intro h
    rw [h] at hlen3
    simp at hlen3
    omega
  obtain ⟨A, k₀, hmarks⟩ : ∃ A k₀, s.mTrailIndices = A ++ [k₀] := by
    rcases List.eq_nil_or_concat s.mTrailIndices with h | ⟨A, b, h⟩
    · exact absurd h hmne
    · exact ⟨A, b, by rw [h, List.concat_eq_append]⟩
  have hk : s.mTrailIndices.getLastD 0 = k₀ := by
    rw [hmarks]
    exact List.getLastD_concat ..
  have hkmem : k₀ ∈ s.mTrailIndices := by
    rw [hmarks]
    exact List.mem_append_right _ (List.mem_singleton.mpr rfl)
  have hkle : k₀ ≤ s.mTrail.length := hbound k₀ hkmem
  have hAlt : ∀ m ∈ A, m < k₀ := by
    have hp := hpair
    rw [hmarks, List.pairwise_append] at hp
    exact fun m hm => hp.2.2 m hm k₀ (List.mem_singleton.mpr rfl)
  have hmlen : s.mTrailIndices.length = A.length + 1 := by
    rw [hmarks]
    simp
  have hcount_ge : ∀ p : Nat, k₀ ≤ p → s.levelOfPos p = s.decisionLevel := by
    intro p hp
    unfold Solver.levelOfPos Solver.decisionLevel
    rw [List.countP_eq_length.mpr, hlen3]
    intro m hm
    rw [hmarks] at hm
    rcases List.mem_append.mp hm with h | h
    · exact decide_eq_true (Nat.le_of_lt (Nat.lt_of_lt_of_le (hAlt m h) hp))
    · rw [List.mem_singleton.mp h]
      exact decide_eq_true hp
  have hcount_lt : ∀ p : Nat, p < k₀ →
      s.levelOfPos p < s.decisionLevel
      ∧ s.levelOfPos p = ((A.countP (fun m => decide (m ≤ p)) : Nat) : Int) := by
    intro p hp
    have h0 : List.countP (fun m => decide (m ≤ p)) [k₀] = 0 := by
      simp only [List.countP_cons, List.countP_nil]
      rw [decide_eq_false (by omega : ¬k₀ ≤ p)]
      rfl
    have heq : s.levelOfPos p = ((A.countP (fun m => decide (m ≤ p)) : Nat) : Int) := by
      unfold Solver.levelOfPos
      rw [hmarks, List.countP_append, h0]
      simp
    refine ⟨?_, heq⟩
    rw [heq]
    have hle := List.countP_le_length (fun m => decide (m ≤ p)) (l := A)
    unfold Solver.decisionLevel
    rw [← hlen3, hmlen]
    omega
  -- the popped state, componentwise
  have hfields := foldl_undo_fields (s.mTrail.drop k₀)
    { s with mTrailIndices := s.mTrailIndices.dropLast }
  have hvs : s.popDecision.mVariableState
      = ((s.mTrail.drop k₀).map Literal.index).foldl
          (fun vs i => vs.set i Tribool.unk) s.mVariableState := by
    unfold Solver.popDecision
    rw [hk]
    exact hfields.1
  have hal : s.popDecision.mAssignedAtLevel
      = ((s.mTrail.drop k₀).map Literal.index).foldl
          (fun vs i => vs.set i UnknownIndex) s.mAssignedAtLevel := by
    unfold Solver.popDecision
    rw [hk]
    exact hfields.2.1
  have himp : s.popDecision.mImplications
      = ((s.mTrail.drop k₀).map Literal.index).foldl
          (fun vs i => vs.set i UnknownIndex) s.mImplications := by
    unfold Solver.popDecision
    rw [hk]
    exact hfields.2.2.2.2.2
  have htrF : ((s.mTrail.drop k₀).foldl
      (fun (st : Solver) (l : Literal) => st.undoAssignment l.index)
      { s with mTrailIndices := s.mTrailIndices.dropLast }).mTrail = s.mTrail :=
    hfields.2.2.1
  have htiF : ((s.mTrail.drop k₀).foldl
      (fun (st : Solver) (l : Literal) => st.undoAssignment l.index)
      { s with mTrailIndices := s.mTrailIndices.dropLast }).mTrailIndices
      = s.mTrailIndices.dropLast :=
    hfields.2.2.2.1
  have hdecF : ((s.mTrail.drop k₀).foldl
      (fun (st : Solver) (l : Literal) => st.undoAssignment l.index)
      { s with mTrailIndices := s.mTrailIndices.dropLast }).mDecisions = s.mDecisions :=
    hfields.2.2.2.2.1
  have htr : s.popDecision.mTrail = s.mTrail.take k₀ := by
    unfold Solver.popDecision
    rw [hk]
    dsimp only
    rw [htrF]
  have hti : s.popDecision.mTrailIndices = A := by
    unfold Solver.popDecision
    rw [hk]
    dsimp only
    rw [htiF, hmarks]
    exact List.dropLast_concat ..
  have hdec : s.popDecision.mDecisions = s.mDecisions.dropLast := by
    unfold Solver.popDecision
    rw [hk]
    dsimp only
    rw [hdecF]
  -- membership in the dropped suffix is equivalent to being assigned at the
  -- current decision level
  have hmemD_level : ∀ v, v ∈ (s.mTrail.drop k₀).map Literal.index →
      v < s.mVariableState.length
      ∧ s.mAssignedAtLevel.getD v 0 = s.decisionLevel := by
    intro v hv
    simp only [List.mem_map] at hv
    obtain ⟨l, hl, rfl⟩ := hv
    have hlmem : l ∈ s.mTrail := (List.drop_sublist ..).subset hl
    refine ⟨hrange l hlmem, ?_⟩
    obtain ⟨j, hj, hjeq⟩ := List.mem_iff_getElem.mp hl
    have hp : k₀ + j < s.mTrail.length := by
      rw [List.length_drop] at hj
      omega
    have hgd : s.mTrail.getD (k₀ + j) ⟨1⟩ = l := by
      rw [← getD_drop, List.getD_eq_getElem?_getD, List.getElem?_eq_getElem hj, hjeq]
      rfl
    have hlvl := hposlvl (k₀ + j) hp
    rw [hgd] at hlvl
    rw [hlvl]
    exact hcount_ge (k₀ + j) (Nat.le_add_right _ _)
  have hlevel_memD : ∀ v, v < s.mVariableState.length →
      s.mAssignedAtLevel.getD v 0 = s.decisionLevel →
      v ∈ (s.mTrail.drop k₀).map Literal.index := by
    intro v hv hlv
    have hne : s.mAssignedAtLevel.getD v 0 ≠ -1 := by
      rw [hlv]
      unfold Solver.decisionLevel
      omega
    obtain ⟨l, hl, hleq⟩ := hmemlvl v hv hne
    obtain ⟨p, hp, hpeq⟩ := List.mem_iff_getElem.mp hl
    have hgd : s.mTrail.getD p ⟨1⟩ = l := by
      rw [List.getD_eq_getElem?_getD, List.getElem?_eq_getElem hp, hpeq]
      rfl
    have hlvl := hposlvl p hp
    rw [hgd, hleq] at hlvl
    have hlvlp : s.levelOfPos p = s.decisionLevel := by
      rw [← hlvl, hlv]
    have hpge : k₀ ≤ p := by
      by_contra hplt
      push_neg at hplt
      have := (hcount_lt p hplt).1
      omega
    have hj : p - k₀ < (s.mTrail.drop k₀).length := by
      rw [List.length_drop]
      omega
    refine List.mem_map.mpr ⟨(s.mTrail.drop k₀).getD (p - k₀) ⟨1⟩, getD_mem _ _ _ hj, ?_⟩
    rw [getD_drop, show k₀ + (p - k₀) = p from by omega, hgd, hleq]
  have hdisj : ∀ v, v ∈ ((s.mTrail.take k₀).map Literal.index) →
      v ∉ ((s.mTrail.drop k₀).map Literal.index) := by
    intro v hvP hvD
    have hsplit : (s.mTrail.map Literal.index)
        = (s.mTrail.take k₀).map Literal.index ++ (s.mTrail.drop k₀).map Literal.index := by
      rw [List.map_take, List.map_drop, List.take_append_drop]
    rw [hsplit] at hnd
    exact (List.disjoint_of_nodup_append hnd) hvP hvD
  refine ⟨?_, ?_, ?_, ?_⟩
  -- well-formedness is preserved
  · refine ⟨?_, ?_, ?_, ?_, ?_, ?_, ?_, ?_, ?_, ?_⟩
    · rw [hal, hvs, foldl_set_length, foldl_set_length]
      exact hlen1
    · rw [himp, hvs, foldl_set_length, foldl_set_length]
      exact hlen2
    · rw [hti, hdec, List.length_dropLast, ← hlen3, hmlen]
      simp
    · rw [hti]
      have hpA := hpair
      rw [hmarks, List.pairwise_append] at hpA
      exact hpA.1
    · rw [hti, htr, List.length_take, Nat.min_eq_left hkle]
      exact fun m hm => Nat.le_of_lt (hAlt m hm)
    · rw [htr, List.map_take]
      exact hnd.sublist (List.take_sublist ..)
    · intro l hl
      rw [hvs, foldl_set_length]
      rw [htr] at hl
      exact hrange l ((List.take_sublist ..).subset hl)
    · intro p hp
      rw [htr, List.length_take, Nat.min_eq_left hkle] at hp
      rw [htr, getD_take _ _ _ _ hp]
      have hvP : (s.mTrail.getD p ⟨1⟩).index ∈ (s.mTrail.take k₀).map Literal.index := by
        refine List.mem_map.mpr ⟨s.mTrail.getD p ⟨1⟩, ?_, rfl⟩
        rw [← getD_take s.mTrail k₀ p ⟨1⟩ hp]
        refine getD_mem _ _ _ ?_
        rw [List.length_take, Nat.min_eq_left hkle]
        exact hp
      have hnotD := fun h => hdisj _ hvP h
      have huntouched : s.popDecision.mAssignedAtLevel.getD (s.mTrail.getD p ⟨1⟩).index 0
          = s.mAssignedAtLevel.getD (s.mTrail.getD p ⟨1⟩).index 0 := by
        rw [hal, foldl_set_getD, if_neg (fun h => hnotD h.1)]
      rw [huntouched]
      have hplen : p < s.mTrail.length := by omega
      rw [hposlvl p hplen]
      show s.levelOfPos p = s.popDecision.levelOfPos p
      unfold Solver.levelOfPos
      rw [hti, hmarks, List.countP_append]
      have h0 : List.countP (fun m => decide (m ≤ p)) [k₀] = 0 := by
        simp only [List.countP_cons, List.countP_nil]
        rw [decide_eq_false (by omega : ¬k₀ ≤ p)]
        rfl
      rw [h0]
      simp
    · intro v hv hneq
      rw [hvs, foldl_set_length] at hv
      by_cases hmem : v ∈ (s.mTrail.drop k₀).map Literal.index
      · exfalso
        refine hneq ?_
        rw [hal, foldl_set_getD, if_pos ⟨hmem, by omega⟩]
        rfl
      · rw [hal, foldl_set_getD, if_neg (fun h => hmem h.1)] at hneq
        obtain ⟨l, hl, hleq⟩ := hmemlvl v hv hneq
        rw [htr]
        obtain ⟨p, hp, hpeq⟩ := List.mem_iff_getElem.mp hl
        have hgd : s.mTrail.getD p ⟨1⟩ = l := by
          rw [List.getD_eq_getElem?_getD, List.getElem?_eq_getElem hp, hpeq]
          rfl
        have hplt : p < k₀ := by
          by_contra hge
          push_neg at hge
          refine hmem ?_
          have hj : p - k₀ < (s.mTrail.drop k₀).length := by
            rw [List.length_drop]
            omega
          refine List.mem_map.mpr ⟨(s.mTrail.drop k₀).getD (p - k₀) ⟨1⟩, getD_mem _ _ _ hj, ?_⟩
          rw [getD_drop, show k₀ + (p - k₀) = p from by omega, hgd, hleq]
        refine ⟨l, ?_, hleq⟩
        rw [← hgd, ← getD_take s.mTrail k₀ p ⟨1⟩ hplt]
        refine getD_mem _ _ _ ?_
        rw [List.length_take, Nat.min_eq_left hkle]
        exact hplt
    · intro v hv
      rw [hvs, foldl_set_length] at hv
      have hdl' : s.popDecision.decisionLevel = s.decisionLevel - 1 := by
        unfold Solver.decisionLevel
        rw [hdec, List.length_dropLast]
        unfold Solver.decisionLevel at hd
        omega
      rw [hdl']
      by_cases hmem : v ∈ (s.mTrail.drop k₀).map Literal.index
      · rw [hal, foldl_set_getD, if_pos ⟨hmem, by omega⟩]
        show UnknownIndex ≤ _
        unfold UnknownIndex
        omega
      · rw [hal, foldl_set_getD, if_neg (fun h => hmem h.1)]
        have hb := hlvlbound v hv
        have hne : s.mAssignedAtLevel.getD v 0 ≠ s.decisionLevel :=
          fun he => hmem (hlevel_memD v hv he)
        omega
  -- decision level drops by one
  · unfold Solver.decisionLevel
    rw [hdec, List.length_dropLast]
    unfold Solver.decisionLevel at hd
    omega
  · rw [hvs, foldl_set_length]
  -- the per-variable effect
  · intro v hv
    constructor
    · intro hlv
      have hmem := hlevel_memD v hv hlv
      refine ⟨?_, ?_, ?_⟩
      · show s.popDecision.mVariableState.getD v Tribool.unk = Tribool.unk
        rw [hvs, foldl_set_getD, if_pos ⟨hmem, hv⟩]
      · rw [hal, foldl_set_getD, if_pos ⟨hmem, by omega⟩]
        rfl
      · rw [himp, foldl_set_getD, if_pos ⟨hmem, by omega⟩]
        rfl
    · intro hlv
      have hmem : v ∉ (s.mTrail.drop k₀).map Literal.index :=
        fun hm => hlv (hmemD_level v hm).2
      refine ⟨?_, ?_, ?_⟩
      · show s.popDecision.mVariableState.getD v Tribool.unk = _
        rw [hvs, foldl_set_getD, if_neg (fun h => hmem h.1)]
        rfl
      · rw [hal, foldl_set_getD, if_neg (fun h => hmem h.1)]
      · rw [himp, foldl_set_getD, if_neg (fun h => hmem h.1)]

/-! ## Theorems -/

/-- A satisfiable instance on which the solver returns `Unsat`: the clause
`1 ∨ 3 ∨ 2` is satisfied by the forced assignment `2 ↦ true`, but when the
propagator processes the falsified watches of variables 1 and 3 its
replacement-watch scan skips the true unwatched literal `2` (it only stops
on Unknown literals) and reports the satisfied clause as a conflict at
decision level 0. -/
def wrongUnsatInstance : Instance := ⟨3, [[1, 3, 2], [-3], [2], [-1]], []⟩

/-- **C2** (code bug).  `Solver::check` returns `Unsat` on
`wrongUnsatInstance`, although the assignment `x1 = false, x2 = true,
x3 = false` (model vector `[false, false, true, false]`) makes every input
clause true, so the instance is satisfiable. -/
theorem check_returns_unsat_on_satisfiable_instance :
    (wrongUnsatInstance.check 100).map Prod.fst = some Status.Unsat
    ∧ wrongUnsatInstance.mClauses.all (clauseTrue [false, false, true, false]) = true
    ∧ bruteforceSat 3 wrongUnsatInstance.mClauses = true :=
  ⟨rfl, rfl, rfl⟩

/-- **C3** (code bug).  On the state reached by preprocessing
`wrongUnsatInstance` (all three unit clauses enqueued at level 0),
`Solver::propagate` returns clause 3 as a conflict; that clause is
`[1, 3, 2]` and its literal `2` is True under the current assignment, so
the returned clause is not false and the unwatched true literal was not
accepted as a replacement watch. -/
theorem propagate_conflict_clause_contains_true_literal :
    (((Solver.new wrongUnsatInstance).preprocess.1).propagateLoop 100).map
        (fun r =>
          (r.2,
           (r.1.mClauses.getD 3 (Clause.mk [] false)).mLiterals,
           (r.1.mClauses.getD 3 (Clause.mk [] false)).mLiterals.map r.1.value))
      = some (some 3,
              [Literal.mk 1, Literal.mk 3, Literal.mk 2],
              [Tribool.fls, Tribool.fls, Tribool.tru]) :=
  rfl

/-- **C5** (counterexample).  The clause database of a freshly constructed
solver contains a clause holding both the literal `1` and its negation
(from the repository's own `smoke_test_simple_or` input), and a clause with
a duplicated literal: the `Clause` constructor stores the raw literal list
as given. -/
theorem clause_database_keeps_tautologies_and_duplicates :
    (Solver.new ⟨1, [[1, -1]], []⟩).mClauses
        = [Clause.mk [Literal.mk 1, Literal.mk (-1)] false]
    ∧ Literal.mk (-1) = (Literal.mk 1).negate
    ∧ (Solver.new ⟨1, [[1, 1]], []⟩).mClauses
        = [Clause.mk [Literal.mk 1, Literal.mk 1] false] :=
  ⟨rfl, rfl, rfl⟩

/-- **C5** (amended).  The solver constructor stores every input clause
verbatim: the stored literal data equals the raw input clause list, with no
duplicate merging, no tautology discarding and no reordering, and no input
clause is marked learned. -/
theorem solver_constructor_stores_clauses_verbatim (inst : Instance) :
    (Solver.new inst).mClauses.map (fun c => c.mLiterals.map Literal.mData)
        = inst.mClauses
    ∧ ∀ c ∈ (Solver.new inst).mClauses, c.mIsLearned = false := by
  constructor
  · show (inst.mClauses.map _).map _ = inst.mClauses
    rw [List.map_map]
    have h : ((fun c : Clause => c.mLiterals.map Literal.mData) ∘
        (fun clauseData : List Int => Clause.mk (clauseData.map Literal.mk) false))
        = fun cls => cls := by
      funext cls
      show (cls.map Literal.mk).map Literal.mData = cls
      rw [List.map_map]
      show cls.map (fun x => x) = cls
      exact List.map_id cls
    rw [h]
    exact List.map_id inst.mClauses
  · intro c hc
    simp only [Solver.new, List.mem_map] at hc
    obtain ⟨cls, _, rfl⟩ := hc
    rfl

/-- A solver state reached from the instance `(¬1 ∨ 2) ∧ (¬1 ∨ 3) ∧
(¬2 ∨ ¬3)` by preprocessing, deciding variable 1 and propagating: the
propagation of `2` and `3` falsifies both watches of clause 2, which is
reported as a conflict at decision level 1. -/
def conflictStateExample : Solver :=
  { mClauses := [Clause.mk [Literal.mk (-1), Literal.mk 2] false,
                 Clause.mk [Literal.mk (-1), Literal.mk 3] false,
                 Clause.mk [Literal.mk (-2), Literal.mk (-3)] false]
    mWatches := [[],
                 [Watch.mk 0 (Literal.mk (-1)), Watch.mk 1 (Literal.mk (-1))],
                 [Watch.mk 0 (Literal.mk 2), Watch.mk 2 (Literal.mk (-2))],
                 [Watch.mk 1 (Literal.mk 3), Watch.mk 2 (Literal.mk (-3))]]
    mVariableState := [Tribool.unk, Tribool.tru, Tribool.tru, Tribool.tru]
    mDecisions := [Literal.mk 1]
    mActivity := [1, 1, 1, 1]
    mQueue := []
    mImplications := [-1, -1, 0, 1]
    mAssignedAtLevel := [-1, 1, 1, 1]
    mTrail := [Literal.mk 1, Literal.mk 2, Literal.mk 3]
    mTrailIndices := [0] }

/-- `conflictStateExample` really is the state produced by the solver's own
operations on that instance, with clause 2 the reported conflict. -/
theorem conflictStateExample_reachable :
    (((Solver.new ⟨3, [[-1, 2], [-1, 3], [-2, -3]], []⟩).preprocess.1).pushDecision
        (Literal.mk 1)).propagateLoop 20
      = some (conflictStateExample, some 2) :=
  rfl

/-- **C8**.  Variable activities start at 1.0, and on every conflict
analysis every variable slot is first multiplied by the decay factor and
then the slots of exactly the variables of the newly learned (1-UIP) clause
are incremented by 1. -/
theorem activity_initialisation_and_conflict_update :
    (∀ inst : Instance,
      (Solver.new inst).mActivity = List.replicate (inst.mNumVariables + 1) 1)
    ∧ ∀ (s : Solver) (fuel ci : Nat) (bt : Int) (nc : List Literal),
        s.firstUniqueImplicationPointCut fuel ci = some (bt, nc) →
        (nc.map Literal.index).Nodup →
        ∀ v : Nat, 1 ≤ v → v < s.mActivity.length →
          (s.analyzeConflict fuel ci).map (fun r => r.2.mActivity.getD v 0)
            = some (s.mActivity.getD v 0 * DefaultActivityDecay
                + if v ∈ nc.map Literal.index then 1 else 0) := by
  refine ⟨fun _ => rfl, ?_⟩
  intro s fuel ci bt nc h hnd v hv1 hvlen
  have hact := analyzeConflict_mActivity s fuel ci bt nc h
  cases hres : s.analyzeConflict fuel ci with
  | none => rw [hres] at hact; cases hact
  | some r =>
    rw [hres] at hact
    simp only [Option.map_some', Option.some.injEq, Prod.mk.injEq] at hact
    simp only [Option.map_some', Option.some.injEq]
    rw [hact.2]
    by_cases hm : v ∈ nc.map Literal.index
    · rw [if_pos hm, bumpActivities_getD_mem nc _ v hm hnd
        (by rw [decayActivities_length]; exact hvlen),
        decayActivities_getD _ _ hv1]
    · rw [if_neg hm, bumpActivities_getD_not_mem nc _ v hm,
        decayActivities_getD _ _ hv1, add_zero]

/-- **C8** witness: at the reachable conflict state, the 1-UIP cut of
conflict clause 2 is the unit clause `¬1`; after `analyzeConflict` the
activity of variable 1 is `1 * 0.9 + 1` and that of variable 2 is
`1 * 0.9`. -/
theorem activity_conflict_update_witness :
    conflictStateExample.firstUniqueImplicationPointCut 50 2
        = some (0, [Literal.mk (-1)])
    ∧ (conflictStateExample.analyzeConflict 50 2).map
          (fun r => r.2.mActivity.getD 1 0)
        = some (conflictStateExample.mActivity.getD 1 0 * DefaultActivityDecay
            + if 1 ∈ [Literal.mk (-1)].map Literal.index then 1 else 0)
    ∧ (conflictStateExample.analyzeConflict 50 2).map
          (fun r => r.2.mActivity.getD 2 0)
        = some (conflictStateExample.mActivity.getD 2 0 * DefaultActivityDecay
            + if 2 ∈ [Literal.mk (-1)].map Literal.index then 1 else 0) :=
  ⟨rfl,
   activity_initialisation_and_conflict_update.2 conflictStateExample 50 2 0
     [Literal.mk (-1)] rfl (by decide) 1 (by decide) (by decide),
   activity_initialisation_and_conflict_update.2 conflictStateExample 50 2 0
     [Literal.mk (-1)] rfl (by decide) 2 (by decide) (by decide)⟩

/-- **C9**.  `Instance::check` only reads the clause list and the variable
count, so a second call on the instance returned by a first call yields the
same status and leaves the instance (including the stored model) unchanged:
after a Sat result the identical model is returned again. -/
theorem instance_check_idempotent (inst : Instance) (fuel : Nat) (st : Status)
    (inst₁ : Instance) (h : inst.check fuel = some (st, inst₁)) :
    inst₁.check fuel = some (st, inst₁) := by
  obtain ⟨n, cls, m⟩ := inst
  unfold Instance.check at h ⊢
  cases hc : (Solver.new ⟨n, cls, m⟩).check fuel with
  | none => rw [hc] at h; cases h
  | some p =>
    obtain ⟨status, solver⟩ := p
    rw [hc] at h
    simp only [Option.some.injEq, Prod.mk.injEq] at h
    obtain ⟨h1, h2⟩ := h
    subst h1
    by_cases hst : status = Status.Sat
    · subst hst
      rw [if_pos rfl] at h2
      subst h2
      have hnew : Solver.new { mNumVariables := n, mClauses := cls, mModel := solver.model }
          = Solver.new { mNumVariables := n, mClauses := cls, mModel := m } := rfl
      rw [hnew, hc]
      simp
    · rw [if_neg hst] at h2
      subst h2
      rw [hc]
      simp [hst]

/-- **C9** witness: checking `(1 ∨ 2)` over two variables returns Sat with
model `[false, true, true]`, and a second call on the returned instance
gives the same status and the identical model. -/
theorem instance_check_idempotent_witness :
    (⟨2, [[1, 2]], []⟩ : Instance).check 50
        = some (Status.Sat, ⟨2, [[1, 2]], [false, true, true]⟩)
    ∧ (⟨2, [[1, 2]], [false, true, true]⟩ : Instance).check 50
        = some (Status.Sat, ⟨2, [[1, 2]], [false, true, true]⟩) :=
  ⟨rfl, instance_check_idempotent ⟨2, [[1, 2]], []⟩ 50 Status.Sat
    ⟨2, [[1, 2]], [false, true, true]⟩ rfl⟩

/-- The unused-variable enqueue loop does not modify the clause list. -/
theorem foldl_enqueue_unused_mClauses (s : Solver) (is : List Nat) (st : Solver) :
    (is.foldl (fun st i =>
      if s.usageCount i = 0 then st.enqueue (Literal.ofIndexValue i true) else st)
      st).mClauses = st.mClauses := by
  induction is generalizing st with
  | nil => rfl
  | cons i rest ih =>
    simp only [List.foldl_cons]
    split
    · exact (ih _).trans rfl
    · exact ih st

/-- The unused-variable enqueue loop keeps the per-variable vector lengths
and the decision stack. -/
theorem foldl_enqueue_unused_shape (s : Solver) (is : List Nat) (st : Solver) :
    let r := is.foldl (fun st i =>
      if s.usageCount i = 0 then st.enqueue (Literal.ofIndexValue i true) else st) st
    r.mVariableState.length = st.mVariableState.length
    ∧ r.mAssignedAtLevel.length = st.mAssignedAtLevel.length
    ∧ r.mDecisions = st.mDecisions := by
  induction is generalizing st with
  | nil => exact ⟨rfl, rfl, rfl⟩
  | cons i rest ih =>
    simp only [List.foldl_cons]
    split
    · refine ⟨((ih _).1).trans ?_, ((ih _).2.1).trans ?_, ((ih _).2.2).trans ?_⟩
      · exact (enqueue_lengths st _).1
      · exact (enqueue_lengths st _).2.1
      · exact (enqueue_lengths st _).2.2
    · exact ih st

/-- **C6** (counterexample).  In the instance with the single clause
`1 ∨ 2`, variable 1 appears only with positive polarity, yet after
`Solver::preprocess` completes (returning true) variable 1 is still
unassigned: the preprocessor performs no pure-literal elimination. -/
theorem preprocess_ignores_pure_literals :
    ((Solver.new ⟨2, [[1, 2]], []⟩).preprocess.1).varState 1 = Tribool.unk
    ∧ ((Solver.new ⟨2, [[1, 2]], []⟩).preprocess.1).mAssignedAtLevel.getD 1 0 = -1
    ∧ (Solver.new ⟨2, [[1, 2]], []⟩).preprocess.2 = true :=
  ⟨rfl, rfl, rfl⟩

/-- **C6** (amended).  What `preprocess` does assign at level 0 are the
variables that occur in *no* clause at all: every in-range variable with no
occurrence is assigned True at decision level 0 when preprocessing
finishes, whichever way it returns.  (Variables occurring with a single
polarity in a clause are not assigned; see the counterexample.) -/
theorem preprocess_assigns_unused_variables (inst : Instance) (v : Nat)
    (hv1 : 1 ≤ v) (hv2 : v ≤ inst.mNumVariables)
    (hocc : ¬occursIn inst.mClauses v) :
    ((Solver.new inst).preprocess.1).varState v = Tribool.tru
    ∧ ((Solver.new inst).preprocess.1).mAssignedAtLevel.getD v 0 = 0 := by
  have hclauses : ∀ c ∈ Solver.sortClausesBySize (Solver.new inst).mClauses,
      ∀ l ∈ c.mLiterals, l.index ≠ v := by
    intro c hc l hl he
    have hc' := (sortClausesBySize_perm _).mem_iff.mp hc
    simp only [Solver.new, List.mem_map] at hc'
    obtain ⟨cd, hcd, rfl⟩ := hc'
    simp only [List.mem_map] at hl
    obtain ⟨raw, hraw, rfl⟩ := hl
    exact hocc ⟨cd, hcd, raw, hraw, he⟩
  have hs1v : ({ Solver.new inst with
      mClauses := Solver.sortClausesBySize (Solver.new inst).mClauses } :
      Solver).mVariableState.length = inst.mNumVariables + 1 := by
    show (List.replicate (inst.mNumVariables + 1) Tribool.unk).length = _
    rw [List.length_replicate]
  have hs1l : ({ Solver.new inst with
      mClauses := Solver.sortClausesBySize (Solver.new inst).mClauses } :
      Solver).mAssignedAtLevel.length = inst.mNumVariables + 1 := by
    show (List.replicate (inst.mNumVariables + 1) UnknownIndex).length = _
    rw [List.length_replicate]
  have hmain : ∀ s1 : Solver,
      s1.mVariableState.length = inst.mNumVariables + 1 →
      s1.mAssignedAtLevel.length = inst.mNumVariables + 1 →
      s1.mDecisions = [] →
      (∀ c ∈ s1.mClauses, ∀ l ∈ c.mLiterals, l.index ≠ v) →
      (s1.enqueueUnusedVariables.preprocessUnits
          s1.enqueueUnusedVariables.mClauses).1.varState v = Tribool.tru
      ∧ (s1.enqueueUnusedVariables.preprocessUnits
          s1.enqueueUnusedVariables.mClauses).1.mAssignedAtLevel.getD v 0 = 0 := by
    intro s1 hlenv hlenl hdec hcl
    have husage : s1.usageCount v = 0 := usageCount_eq_zero s1 v hcl
    have hlen1 : v < s1.mVariableState.length := by omega
    have hlen2 : v < s1.mAssignedAtLevel.length := by omega
    have hin : v ∈ List.range' 1 (s1.mVariableState.length - 1) := by
      rw [List.mem_range'_1]
      omega
    have hassigned := foldl_enqueue_unused_assigns s1 v
      (List.range' 1 (s1.mVariableState.length - 1)) s1 hin husage hdec hlen1 hlen2
    have hcl2 : s1.enqueueUnusedVariables.mClauses = s1.mClauses :=
      foldl_enqueue_unused_mClauses s1 _ s1
    have hclauses2 : ∀ c ∈ s1.enqueueUnusedVariables.mClauses,
        ∀ l ∈ c.mLiterals, l.index ≠ v := by
      rw [hcl2]; exact hcl
    have hpu := preprocessUnits_preserves v s1.enqueueUnusedVariables.mClauses
      s1.enqueueUnusedVariables hclauses2
    exact ⟨hpu.1.trans hassigned.1, hpu.2.trans hassigned.2⟩
  have hkey := hmain
    { Solver.new inst with
      mClauses := Solver.sortClausesBySize (Solver.new inst).mClauses }
    hs1v hs1l rfl hclauses
  unfold Solver.preprocess
  dsimp only
  split
  · constructor
    · show Solver.varState (Solver.resetWatches _) v = Tribool.tru
      unfold Solver.varState
      rw [(resetWatches_preserves _).1]
      exact hkey.1
    · show (Solver.resetWatches _).mAssignedAtLevel.getD v 0 = 0
      rw [(resetWatches_preserves _).2]
      exact hkey.2
  · exact hkey

/-- The induction core for `popDecisionUntil`: applying `popDecision`
`(decisionLevel - L).toNat` times reaches level `L`, clears exactly the
variables above level `L` and keeps the rest. -/
theorem popDecisionTimes_spec (L : Int) (hL0 : 0 ≤ L) :
    ∀ (n : Nat) (s : Solver), wellFormedTrail s → L ≤ s.decisionLevel →
      (s.decisionLevel - L).toNat = n →
      (s.popDecisionTimes n).decisionLevel = L
      ∧ ∀ v, v < s.mVariableState.length →
          (L < s.mAssignedAtLevel.getD v 0 →
            (s.popDecisionTimes n).varState v = Tribool.unk
            ∧ (s.popDecisionTimes n).mAssignedAtLevel.getD v 0 = -1
            ∧ (s.popDecisionTimes n).mImplications.getD v (-1) = -1)
          ∧ (s.mAssignedAtLevel.getD v 0 ≤ L →
            (s.popDecisionTimes n).varState v = s.varState v
            ∧ (s.popDecisionTimes n).mAssignedAtLevel.getD v 0
                = s.mAssignedAtLevel.getD v 0
            ∧ (s.popDecisionTimes n).mImplications.getD v (-1)
                = s.mImplications.getD v (-1)) := by
  intro n
  induction n with
  | zero =>
    intro s hwf hLd hn
    have hdL : s.decisionLevel = L := by omega
    refine ⟨hdL, fun v hv => ⟨fun hgt => ?_, fun _ => ⟨rfl, rfl, rfl⟩⟩⟩
    exfalso
    have := hwf.2.2.2.2.2.2.2.2.2 v hv
    omega
  | succ n ih =>
    intro s hwf hLd hn
    have hd1 : 1 ≤ s.decisionLevel := by omega
    obtain ⟨hwf', hdl', hlen', hvars'⟩ := popDecision_spec s hwf hd1
    have hstep : s.popDecisionTimes (n + 1) = (s.popDecision).popDecisionTimes n := rfl
    have hLd' : L ≤ s.popDecision.decisionLevel := by omega
    have hn' : (s.popDecision.decisionLevel - L).toNat = n := by omega
    obtain ⟨ihl, ihv⟩ := ih s.popDecision hwf' hLd' hn'
    rw [hstep]
    refine ⟨ihl, fun v hv => ⟨fun hgt => ?_, fun hle => ?_⟩⟩
    · by_cases hvd : s.mAssignedAtLevel.getD v 0 = s.decisionLevel
      · obtain ⟨c1, c2, c3⟩ := (hvars' v hv).1 hvd
        obtain ⟨u1, u2, u3⟩ := (ihv v (by omega)).2 (by rw [c2]; omega)
        exact ⟨u1.trans c1, u2.trans c2, u3.trans c3⟩
      · obtain ⟨c1, c2, c3⟩ := (hvars' v hv).2 hvd
        obtain ⟨u1, u2, u3⟩ := (ihv v (by omega)).1 (by rw [c2]; omega)
        exact ⟨u1, u2, u3⟩
    · have hvd : s.mAssignedAtLevel.getD v 0 ≠ s.decisionLevel := by omega
      obtain ⟨c1, c2, c3⟩ := (hvars' v hv).2 hvd
      obtain ⟨u1, u2, u3⟩ := (ihv v (by omega)).2 (by rw [c2]; omega)
      exact ⟨u1.trans c1, u2.trans c2, u3.trans c3⟩

/-- **C7**.  For every level `0 <= L <= decisionLevel`, on a well-formed
state `popDecisionUntil(L)` leaves the decision level equal to `L`
(inclusive semantics: level `L` itself is preserved), unassigns exactly the
variables assigned at levels greater than `L` (clearing their value,
assignment level and implying-clause reference), and leaves every
variable's record with level at most `L` (including all level-`L`
assignments) unchanged. -/
theorem popDecisionUntil_pops_to_level (s : Solver) (L : Int)
    (hwf : wellFormedTrail s) (hL0 : 0 ≤ L) (hLd : L ≤ s.decisionLevel) :
    (s.popDecisionUntil L).decisionLevel = L
    ∧ ∀ v, v < s.mVariableState.length →
        (L < s.mAssignedAtLevel.getD v 0 →
          (s.popDecisionUntil L).varState v = Tribool.unk
          ∧ (s.popDecisionUntil L).mAssignedAtLevel.getD v 0 = -1
          ∧ (s.popDecisionUntil L).mImplications.getD v (-1) = -1)
        ∧ (s.mAssignedAtLevel.getD v 0 ≤ L →
          (s.popDecisionUntil L).varState v = s.varState v
          ∧ (s.popDecisionUntil L).mAssignedAtLevel.getD v 0
              = s.mAssignedAtLevel.getD v 0
          ∧ (s.popDecisionUntil L).mImplications.getD v (-1)
              = s.mImplications.getD v (-1)) :=
  popDecisionTimes_spec L hL0 (s.decisionLevel - L).toNat s hwf hLd rfl

/-- **C7** witness: at the reachable conflict state (decision level 1,
variables 1-3 assigned at level 1), `popDecisionUntil(0)` returns to level
0 and unassigns variable 2, which was assigned at level 1 > 0. -/
theorem popDecisionUntil_pops_to_level_witness :
    wellFormedTrail conflictStateExample
    ∧ (conflictStateExample.popDecisionUntil 0).decisionLevel = 0
    ∧ (conflictStateExample.popDecisionUntil 0).varState 2 = Tribool.unk :=
  ⟨by decide,
   (popDecisionUntil_pops_to_level conflictStateExample 0 (by decide) (by decide)
     (by decide)).1,
   (((popDecisionUntil_pops_to_level conflictStateExample 0 (by decide) (by decide)
     (by decide)).2 2 (by decide)).1 (by decide)).1⟩

/-- **C10** (counterexample).  `undoAssignment` alone does not preserve the
trail/per-variable agreement invariant: on the consistent state obtained by
assigning literal `1` in a fresh one-variable solver, `undoAssignment(1)`
clears the value and level but leaves the literal on the trail, so the
invariant fails afterwards. -/
theorem undoAssignment_breaks_trail_invariant :
    stateConsistent ((Solver.new ⟨1, [[1]], []⟩).assignVariable (Literal.mk 1))
    ∧ ¬stateConsistent
        (((Solver.new ⟨1, [[1]], []⟩).assignVariable (Literal.mk 1)).undoAssignment 1) := by
  constructor
  · decide
  · decide

/-- **C10** (amended).  The trail/per-variable agreement invariant is
preserved by `assignVariable` (on an unassigned in-range variable), by
`enqueue`, and by `popDecision` (on states whose trail is duplicate-free
and in range); `undoAssignment` alone breaks it, and the invariant is only
restored once `popDecision` erases the undone trail suffix. -/
theorem trail_invariant_preservation :
    (∀ (s : Solver) (l : Literal),
      stateConsistent s →
      s.varState l.index = Tribool.unk →
      l.index < s.mVariableState.length →
      l.index < s.mAssignedAtLevel.length →
      stateConsistent (s.assignVariable l))
    ∧ (∀ (s : Solver) (l : Literal),
      stateConsistent s →
      s.varState l.index = Tribool.unk →
      l.index < s.mVariableState.length →
      l.index < s.mAssignedAtLevel.length →
      stateConsistent (s.enqueue l))
    ∧ (∀ s : Solver,
      stateConsistent s →
      (s.mTrail.map Literal.index).Nodup →
      (∀ l ∈ s.mTrail, l.index < s.mVariableState.length) →
      s.mAssignedAtLevel.length = s.mVariableState.length →
      stateConsistent s.popDecision) := by
  have hassign : ∀ (s : Solver) (l : Literal),
      stateConsistent s →
      s.varState l.index = Tribool.unk →
      l.index < s.mVariableState.length →
      l.index < s.mAssignedAtLevel.length →
      stateConsistent (s.assignVariable l) := by
    intro s l hcons hunk hr1 hr2
    obtain ⟨h1, h2, h3⟩ := hcons
    refine ⟨?_, ?_, ?_⟩
    · intro w hw
      have hw' : w < s.mVariableState.length := by
        simpa [Solver.assignVariable] using hw
      by_cases hwl : w = l.index
      · subst hwl
        constructor
        · intro habs
          exfalso
          have he : (s.assignVariable l).varState l.index = liftBool l.value := by
            show (s.mVariableState.set l.index _).getD l.index Tribool.unk = _
            exact getD_set_self _ _ _ _ hr1
          rw [he] at habs
          cases hb : l.value <;> rw [hb] at habs <;> cases habs
        · rintro ⟨hlev, -⟩
          exfalso
          have he : (s.assignVariable l).mAssignedAtLevel.getD l.index 0
              = s.decisionLevel := by
            show (s.mAssignedAtLevel.set l.index _).getD l.index 0 = _
            exact getD_set_self _ _ _ _ hr2
          rw [he] at hlev
          unfold Solver.decisionLevel at hlev
          omega
      · have e1 : (s.assignVariable l).varState w = s.varState w :=
          getD_set_ne _ _ _ _ _ (fun he => hwl he.symm)
        have e2 : (s.assignVariable l).mAssignedAtLevel.getD w 0
            = s.mAssignedAtLevel.getD w 0 :=
          getD_set_ne _ _ _ _ _ (fun he => hwl he.symm)
        rw [e1, e2]
        show s.varState w = Tribool.unk ↔ _ ∧ ∀ l' ∈ s.mTrail ++ [l], l'.index ≠ w
        rw [h1 w hw']
        constructor
        · rintro ⟨ha, hb⟩
          refine ⟨ha, fun l' hl' => ?_⟩
          rcases List.mem_append.mp hl' with hm | hm
          · exact hb l' hm
          · rw [List.mem_singleton.mp hm]
            exact fun he => hwl he.symm
        · rintro ⟨ha, hb⟩
          exact ⟨ha, fun l' hl' => hb l' (List.mem_append_left _ hl')⟩
    · intro l' hl'
      show 0 ≤ (s.mAssignedAtLevel.set l.index s.decisionLevel).getD l'.index (-1)
      have hdl : (0 : Int) ≤ s.decisionLevel := by
        unfold Solver.decisionLevel; omega
      rcases List.mem_append.mp hl' with hm | hm
      · by_cases hci : l'.index = l.index
        · rw [hci, getD_set_self _ _ _ _ hr2]
          exact hdl
        · rw [getD_set_ne _ _ _ _ _ (fun he => hci he.symm)]
          exact h2 l' hm
      · rw [List.mem_singleton.mp hm, getD_set_self _ _ _ _ hr2]
        exact hdl
    · show (s.mVariableState.set l.index (liftBool l.value)).countP _
          = (s.mTrail ++ [l]).length
      rw [countP_set_true_of_false _ _ l.index _ Tribool.unk hr1 ?_ ?_]
      · rw [h3, List.length_append, List.length_singleton]
      · simp only [decide_eq_false_iff_not, Decidable.not_not]
        exact hunk
      · cases hb : l.value <;> simp [liftBool]
  refine ⟨hassign, fun s l hcons hunk hr1 hr2 => hassign s l hcons hunk hr1 hr2, ?_⟩
  intro s hcons hnd hrange hlen
  obtain ⟨h1, h2, h3⟩ := hcons
  have hfields := foldl_undo_fields
    (s.mTrail.drop (s.mTrailIndices.getLastD 0))
    { s with mTrailIndices := s.mTrailIndices.dropLast }
  set k := s.mTrailIndices.getLastD 0 with hk
  set D := s.mTrail.drop k with hD
  set P := s.mTrail.take k with hP
  have htd : P ++ D = s.mTrail := List.take_append_drop k s.mTrail
  have hDsub : ∀ l ∈ D, l ∈ s.mTrail := by
    intro l hl
    rw [← htd]
    exact List.mem_append_right _ hl
  have hPsub : ∀ l ∈ P, l ∈ s.mTrail := by
    intro l hl
    rw [← htd]
    exact List.mem_append_left _ hl
  have hnd' : (P.map Literal.index ++ D.map Literal.index).Nodup := by
    rw [← List.map_append, htd]
    exact hnd
  have hdisj : ∀ w, w ∈ D.map Literal.index → w ∉ P.map Literal.index := by
    intro w hwD hwP
    exact (List.disjoint_of_nodup_append hnd') hwP hwD
  -- the fields of the popped state
  have hvs : s.popDecision.mVariableState
      = (D.map Literal.index).foldl (fun vs i => vs.set i Tribool.unk) s.mVariableState := by
    show (_ : Solver).mVariableState = _
    exact hfields.1
  have hal : s.popDecision.mAssignedAtLevel
      = (D.map Literal.index).foldl (fun vs i => vs.set i UnknownIndex) s.mAssignedAtLevel := by
    exact hfields.2.1
  have htr : s.popDecision.mTrail = P := by
    show ((_ : Solver).mTrail).take k = P
    rw [hfields.2.2.1]
  have hDassigned : ∀ w ∈ D.map Literal.index, s.mVariableState.getD w Tribool.unk ≠ Tribool.unk := by
    intro w hw
    simp only [List.mem_map] at hw
    obtain ⟨l, hl, rfl⟩ := hw
    intro habs
    have := (h1 l.index (hrange l (hDsub l hl))).mp habs
    exact this.2 l (hDsub l hl) rfl
  have hDrange : ∀ w ∈ D.map Literal.index, w < s.mVariableState.length := by
    intro w hw
    simp only [List.mem_map] at hw
    obtain ⟨l, hl, rfl⟩ := hw
    exact hrange l (hDsub l hl)
  have hDnodup : (D.map Literal.index).Nodup := (List.nodup_append.mp hnd').2.1
  refine ⟨?_, ?_, ?_⟩
  · intro w hw
    rw [hvs] at hw
    rw [foldl_set_length] at hw
    have e1 : s.popDecision.varState w
        = if w ∈ D.map Literal.index ∧ w < s.mVariableState.length then Tribool.unk
          else s.varState w := by
      show s.popDecision.mVariableState.getD w Tribool.unk = _
      rw [hvs]
      exact foldl_set_getD _ _ _ _ _
    have e2 : s.popDecision.mAssignedAtLevel.getD w 0
        = if w ∈ D.map Literal.index ∧ w < s.mAssignedAtLevel.length then UnknownIndex
          else s.mAssignedAtLevel.getD w 0 := by
      rw [hal]
      exact foldl_set_getD _ _ _ _ _
    rw [e1, e2, htr]
    by_cases hmem : w ∈ D.map Literal.index
    · rw [if_pos ⟨hmem, hw⟩, if_pos ⟨hmem, by omega⟩]
      constructor
      · intro _
        refine ⟨rfl, fun l hl he => ?_⟩
        refine hdisj w hmem ?_
        rw [← he]
        exact List.mem_map_of_mem Literal.index hl
      · intro _
        rfl
    · rw [if_neg (fun h => hmem h.1), if_neg (fun h => hmem h.1)]
      rw [h1 w hw]
      have hDw : ∀ l ∈ D, l.index ≠ w := by
        intro l hl he
        exact hmem (by rw [← he]; exact List.mem_map_of_mem Literal.index hl)
      constructor
      · rintro ⟨ha, hb⟩
        exact ⟨ha, fun l hl => hb l (hPsub l hl)⟩
      · rintro ⟨ha, hb⟩
        refine ⟨ha, fun l hl => ?_⟩
        rw [← htd] at hl
        rcases List.mem_append.mp hl with hm | hm
        · exact hb l hm
        · exact hDw l hm
  · intro l hl
    rw [htr] at hl
    have hlP : l.index ∈ P.map Literal.index := List.mem_map_of_mem Literal.index hl
    have e2 : s.popDecision.mAssignedAtLevel.getD l.index (-1)
        = if l.index ∈ D.map Literal.index ∧ l.index < s.mAssignedAtLevel.length
          then UnknownIndex else s.mAssignedAtLevel.getD l.index (-1) := by
      rw [hal]
      exact foldl_set_getD _ _ _ _ _
    rw [e2, if_neg (fun h => hdisj _ h.1 hlP)]
    exact h2 l (hPsub l hl)
  · rw [hvs, htr]
    have hcount := countP_foldl_set_unk (D.map Literal.index) s.mVariableState
      hDnodup hDrange hDassigned
    have hlenPD : P.length + D.length = s.mTrail.length := by
      rw [← htd, List.length_append]
    have hDlen : (D.map Literal.index).length = D.length := List.length_map _ _
    omega

/-- **C10** witness: the preserved invariant at concrete states: assigning
literal `2` in a fresh two-variable solver preserves consistency, as does
popping the decision that assigned it. -/
theorem trail_invariant_preservation_witness :
    stateConsistent ((Solver.new ⟨2, [[1, 2]], []⟩).pushDecision (Literal.mk 2)).popDecision
    ∧ stateConsistent ((Solver.new ⟨2, [[1, 2]], []⟩).assignVariable (Literal.mk 2))
    ∧ stateConsistent ((Solver.new ⟨2, [[1, 2]], []⟩).enqueue (Literal.mk 2)) :=
  ⟨trail_invariant_preservation.2.2
      ((Solver.new ⟨2, [[1, 2]], []⟩).pushDecision (Literal.mk 2))
      (by decide) (by decide) (by decide) (by decide),
   trail_invariant_preservation.1 (Solver.new ⟨2, [[1, 2]], []⟩) (Literal.mk 2)
      (by decide) (by decide) (by decide) (by decide),
   trail_invariant_preservation.2.1 (Solver.new ⟨2, [[1, 2]], []⟩) (Literal.mk 2)
      (by decide) (by decide) (by decide) (by decide)⟩

/-- **C6** witness: in the instance over two variables whose single clause
is `2`, variable 1 occurs nowhere and is assigned True at level 0 by
preprocessing. -/
theorem preprocess_assigns_unused_variables_witness :
    (1 ≤ 1 ∧ 1 ≤ 2 ∧ ¬occursIn [[2]] 1)
    ∧ ((Solver.new ⟨2, [[2]], []⟩).preprocess.1).varState 1 = Tribool.tru
    ∧ ((Solver.new ⟨2, [[2]], []⟩).preprocess.1).mAssignedAtLevel.getD 1 0 = 0 :=
  ⟨⟨by decide, by decide, by decide⟩,
   preprocess_assigns_unused_variables ⟨2, [[2]], []⟩ 1 (by decide) (by decide)
     (by decide)⟩

/-! ## Satisfaction soundness

The invariants below tie a running solver to the raw input clauses: every
input clause is either satisfied by a root-level (level-0) assignment or
backed by a database clause whose two watched literals obey the
two-watched-literal discipline.  At a `Sat` exit the queue is empty and all
variables are assigned, so each backing clause has a true watch. -/

/-- A well-formed CNF input: no zero literals and every variable index
within the declared variable count (the DIMACS parser guarantees both). -/
def wfInstance (inst : Instance) : Prop :=
  ∀ C ∈ inst.mClauses, ∀ i ∈ C, i ≠ 0 ∧ i.natAbs ≤ inst.mNumVariables

instance (inst : Instance) : Decidable (wfInstance inst) := by
  unfold wfInstance
  infer_instance

namespace Solver

/-- The database clause at index `ci` (out-of-range reads give the empty
clause, as elsewhere in the embedding). -/
def clauseAt (s : Solver) (ci : Nat) : Clause :=
  s.mClauses.getD ci (Clause.mk [] false)

/-- A literal true under a root-level (level-0) assignment; such
assignments are never undone. -/
def rootTrue (s : Solver) (lit : Literal) : Prop :=
  s.value lit = Tribool.tru ∧ s.mAssignedAtLevel.getD lit.index 0 = 0

/-- Clause `ci` has an unprocessed watcher entry on variable `u`. -/
def pendingEntry (s : Solver) (ci : Nat) (u : Nat) : Prop :=
  u ∈ s.mQueue ∧ ∃ w ∈ s.mWatches.getD u [], w.clauseIdx = ci

/-- Clause `ci` is registered in the watcher lists of its two watch
positions, counted per variable: each variable carries at least as many
watcher entries for `ci` as `ci` has watch positions on it.  (Counting
makes the invariant stable when a watch moves off a variable that carried
both watches.) -/
def watched (s : Solver) (ci : Nat) : Prop :=
  ∀ u : Nat,
    [(s.clauseAt ci).get 0, (s.clauseAt ci).get 1].countP
        (fun l => decide (l.index = u))
      ≤ (s.mWatches.getD u []).countP (fun w => decide (w.clauseIdx = ci))

/-- Two-watched-literal value invariant: both watches are false only while
one of the falsifying assignments still has an unprocessed watcher entry
in the queue. -/
def valInv (s : Solver) (ci : Nat) : Prop :=
  s.value ((s.clauseAt ci).get 0) = Tribool.fls →
  s.value ((s.clauseAt ci).get 1) = Tribool.fls →
  pendingEntry s ci ((s.clauseAt ci).get 0).index
  ∨ pendingEntry s ci ((s.clauseAt ci).get 1).index

/-- A watch falsified by a root-level assignment is only tolerated while
the clause holds a root-level true literal or the falsifying assignment is
still pending (this is what lets `simplify` keep every surviving backing
clause at size at least two). -/
def w0Inv (s : Solver) (ci : Nat) : Prop :=
  ∀ i, i ≤ 1 →
    s.value ((s.clauseAt ci).get i) = Tribool.fls →
    s.mAssignedAtLevel.getD ((s.clauseAt ci).get i).index 0 = 0 →
    (∃ lit ∈ (s.clauseAt ci).mLiterals, s.rootTrue lit)
    ∨ pendingEntry s ci ((s.clauseAt ci).get i).index

/-- The per-clause health of a database clause backing an input clause. -/
def goodClause (s : Solver) (ci : Nat) : Prop :=
  watched s ci ∧ valInv s ci ∧ w0Inv s ci

/-- Every literal of `c` occurs among the raw integers of the input clause
`C`. -/
def subClause (c : Clause) (C : List Int) : Prop :=
  ∀ lit ∈ c.mLiterals, lit.mData ∈ C

/-- Database clause `ci` backs the input clause `C`: its literals come from
`C` and it is either a root-satisfied unit or a healthy watched clause. -/
def covers (s : Solver) (ci : Nat) (C : List Int) : Prop :=
  ci < s.mClauses.length
  ∧ subClause (s.clauseAt ci) C
  ∧ (((s.clauseAt ci).size = 1 ∧ s.rootTrue ((s.clauseAt ci).get 0))
    ∨ (2 ≤ (s.clauseAt ci).size ∧ goodClause s ci))

/-- Coverage of the input: every input clause is already satisfied at the
root level or backed by a database clause. -/
def coverage (s : Solver) (origs : List (List Int)) : Prop :=
  ∀ C ∈ origs, (∃ i ∈ C, s.rootTrue (Literal.mk i)) ∨ ∃ ci, covers s ci C

/-- The global solver health invariant threaded through the search loop,
minus the implication-cleanliness of unassigned variables (broken
transiently inside `assignUnitClause`) and the strictness of the decision
marks (broken transiently inside `pushDecision`). -/
def solverInvPre (s : Solver) (n : Nat) : Prop :=
  s.mVariableState.length = n + 1
  ∧ s.mWatches.length = n + 1
  ∧ s.mAssignedAtLevel.length = n + 1
  ∧ s.mImplications.length = n + 1
  ∧ s.mActivity.length = n + 1
  ∧ s.varState 0 = Tribool.unk
  ∧ wellFormedTrail s
  ∧ stateConsistent s
  ∧ (∀ l ∈ s.mTrail, 1 ≤ l.index)
  ∧ (∀ u ∈ s.mQueue, u ≤ n ∧ s.mAssignedAtLevel.getD u 0 = s.decisionLevel)
  ∧ reasonsSane s
  ∧ (∀ c ∈ s.mClauses, ∀ lit ∈ c.mLiterals, 1 ≤ lit.index ∧ lit.index ≤ n)
  ∧ (∀ v, v ≤ n → 0 < s.mActivity.getD v 0)
  ∧ (∀ L ∈ s.mWatches, ∀ w ∈ L, w.clauseIdx < s.mClauses.length)
  ∧ s.mQueue.Nodup

/-- The health invariant minus strict decision marks. -/
def solverInvCore (s : Solver) (n : Nat) : Prop :=
  solverInvPre s n
  ∧ (∀ v, s.varState v = Tribool.unk → s.mImplications.getD v (-1) = -1)

/-- The full health invariant: the core plus strictly in-range decision
marks. -/
def solverInv (s : Solver) (n : Nat) : Prop :=
  solverInvCore s n ∧ (∀ k ∈ s.mTrailIndices, k < s.mTrail.length)

end Solver

/-! ### Basic facts about values, trail positions and counting -/

theorem getD_concat_lt {α : Type} (l : List α) (x : α) (p : Nat) (d : α)
    (h : p < l.length) : (l ++ [x]).getD p d = l.getD p d := by
  rw [List.getD_eq_getElem?_getD, List.getD_eq_getElem?_getD,
    List.getElem?_append_left h]

theorem getD_concat_last {α : Type} (l : List α) (x : α) (d : α) :
    (l ++ [x]).getD l.length d = x := by
  simp

theorem mem_iff_getD {α : Type} (l : List α) (v : α) (d : α) :
    v ∈ l ↔ ∃ p, p < l.length ∧ l.getD p d = v := by
  constructor
  · intro h
    obtain ⟨p, hp, he⟩ := List.mem_iff_getElem.mp h
    exact ⟨p, hp, by
      rw [List.getD_eq_getElem?_getD, List.getElem?_eq_getElem hp]
      exact he⟩
  · rintro ⟨p, hp, he⟩
    rw [List.getD_eq_getElem?_getD, List.getElem?_eq_getElem hp] at he
    exact he ▸ List.getElem_mem hp

/-- Counting elements satisfying a predicate equals counting positions whose
element satisfies it. -/
theorem countP_eq_countP_range {α : Type} (L : List α) (P : α → Bool) (d : α) :
    L.countP P = (List.range L.length).countP (fun i => P (L.getD i d)) := by
  induction L with
  | nil => rfl
  | cons a rest ih =>
    show (a :: rest).countP P = (List.range (rest.length + 1)).countP _
    rw [List.range_succ_eq_map, List.countP_cons, List.countP_cons, List.countP_map]
    simp only [List.getD_cons_zero]
    rw [ih, countP_congr_bool (List.range rest.length)
      ((fun i => P ((a :: rest).getD i d)) ∘ Nat.succ)
      (fun i => P (rest.getD i d)) (fun i _ => rfl)]

/-- A duplicate-free family of in-range positions whose elements satisfy a
predicate bounds the count from below. -/
theorem length_le_countP_of_positions {α : Type} (L : List α) (P : α → Bool)
    (d : α) (I : List Nat) (hnd : I.Nodup)
    (hsub : ∀ i ∈ I, i < L.length)
    (hP : ∀ i ∈ I, P (L.getD i d) = true) :
    I.length ≤ L.countP P := by
  rw [countP_eq_countP_range L P d]
  have hsubl : I ⊆ List.range L.length := fun i hi =>
    List.mem_range.mpr (hsub i hi)
  have hperm := List.subperm_of_subset hnd hsubl
  have h1 : I.countP (fun i => P (L.getD i d)) = I.length :=
    List.countP_eq_length.mpr (fun i hi => hP i hi)
  rw [← h1]
  exact hperm.countP_le _

namespace Solver

theorem value_tru_iff (s : Solver) (lit : Literal) :
    s.value lit = Tribool.tru ↔ s.varState lit.index = liftBool lit.value := by
  unfold Solver.value
  rcases h : s.varState lit.index with _ | _ | _ <;>
    rcases hv : lit.value with _ | _ <;>
      simp [liftBool, h, hv]

theorem value_fls_iff (s : Solver) (lit : Literal) :
    s.value lit = Tribool.fls ↔ s.varState lit.index = liftBool (!lit.value) := by
  unfold Solver.value
  rcases h : s.varState lit.index with _ | _ | _ <;>
    rcases hv : lit.value with _ | _ <;>
      simp [liftBool, h, hv]

theorem value_unk_iff (s : Solver) (lit : Literal) :
    s.value lit = Tribool.unk ↔ s.varState lit.index = Tribool.unk := by
  unfold Solver.value
  rcases h : s.varState lit.index with _ | _ | _ <;>
    rcases hv : lit.value with _ | _ <;>
      simp [liftBool, h, hv]

/-- Every assigned variable sits on the trail (by counting: the trail
variables are distinct, assigned and in range, and the number of assigned
variables equals the trail length). -/
theorem assigned_mem_trail (s : Solver)
    (hsc : stateConsistent s)
    (hnd : (s.mTrail.map Literal.index).Nodup)
    (hrange : ∀ l ∈ s.mTrail, l.index < s.mVariableState.length)
    (v : Nat) (hv : v < s.mVariableState.length)
    (hass : s.varState v ≠ Tribool.unk) :
    ∃ p, p < s.mTrail.length ∧ (s.mTrail.getD p (Literal.mk 1)).index = v := by
  by_contra hno
  push_neg at hno
  have hvnot : v ∉ s.mTrail.map Literal.index := by
    intro hmem
    obtain ⟨l, hl, hlv⟩ := List.mem_map.mp hmem
    obtain ⟨p, hp, hpe⟩ := (mem_iff_getD s.mTrail l (Literal.mk 1)).mp hl
    exact hno p hp (by rw [hpe, hlv])
  have htrailass : ∀ l ∈ s.mTrail, s.varState l.index ≠ Tribool.unk := by
    intro l hl hunk
    have := (hsc.1 l.index (hrange l hl)).mp hunk
    exact this.2 l hl rfl
  have hIset : ∀ i ∈ v :: s.mTrail.map Literal.index,
      i < s.mVariableState.length := by
    intro i hi
    rcases List.mem_cons.mp hi with h | h
    · exact h ▸ hv
    · obtain ⟨l, hl, hlv⟩ := List.mem_map.mp h
      exact hlv ▸ hrange l hl
  have hIP : ∀ i ∈ v :: s.mTrail.map Literal.index,
      (fun t => decide (t ≠ Tribool.unk)) (s.mVariableState.getD i Tribool.unk)
        = true := by
    intro i hi
    rcases List.mem_cons.mp hi with h | h
    · subst h
      exact decide_eq_true hass
    · obtain ⟨l, hl, hlv⟩ := List.mem_map.mp h
      exact decide_eq_true (hlv ▸ htrailass l hl)
  have hle := length_le_countP_of_positions s.mVariableState
    (fun t => decide (t ≠ Tribool.unk)) Tribool.unk
    (v :: s.mTrail.map Literal.index) (List.nodup_cons.mpr ⟨hvnot, hnd⟩)
    hIset hIP
  rw [hsc.2.2] at hle
  simp at hle

theorem enqueue_fields (s : Solver) (lit : Literal) :
    (s.enqueue lit).mClauses = s.mClauses
    ∧ (s.enqueue lit).mWatches = s.mWatches
    ∧ (s.enqueue lit).mDecisions = s.mDecisions
    ∧ (s.enqueue lit).mTrailIndices = s.mTrailIndices
    ∧ (s.enqueue lit).mImplications = s.mImplications
    ∧ (s.enqueue lit).mActivity = s.mActivity
    ∧ (s.enqueue lit).mQueue = s.mQueue ++ [lit.index]
    ∧ (s.enqueue lit).mTrail = s.mTrail ++ [lit]
    ∧ (s.enqueue lit).mVariableState
        = s.mVariableState.set lit.index (liftBool lit.value)
    ∧ (s.enqueue lit).mAssignedAtLevel
        = s.mAssignedAtLevel.set lit.index s.decisionLevel :=
  ⟨rfl, rfl, rfl, rfl, rfl, rfl, rfl, rfl, rfl, rfl⟩

theorem liftBool_ne_unk (b : Bool) : liftBool b ≠ Tribool.unk := by
  cases b <;> simp [liftBool]

/-- The kernel of the enqueue preservation argument: enqueueing an
unassigned in-range variable preserves the health invariant, given that all
other unassigned variables are implication-clean and that whatever
implying-clause reference is recorded for the new variable is sane. -/
theorem enqueue_solverInvAux (s : Solver) (n : Nat) (lit : Literal)
    (hpre : solverInvPre s n)
    (hicr : ∀ v, v ≠ lit.index → s.varState v = Tribool.unk →
      s.mImplications.getD v (-1) = -1)
    (hrsnew : s.mImplications.getD lit.index (-1) ≠ -1 →
      (s.mImplications.getD lit.index (-1)).toNat < s.mClauses.length
      ∧ ∀ cl ∈ (s.mClauses.getD (s.mImplications.getD lit.index (-1)).toNat
            (Clause.mk [] false)).mLiterals,
          cl.index ≠ lit.index →
          ∃ q, q < s.mTrail.length ∧ (s.mTrail.getD q (Literal.mk 1)).index = cl.index)
    (hunk : s.varState lit.index = Tribool.unk)
    (h1 : 1 ≤ lit.index) (hn : lit.index ≤ n) :
    solverInvCore (s.enqueue lit) n := by
  obtain ⟨hL1, hL2, hL3, hL4, hL5, hv0, hwf, hsc, htr1, hql, hrs, hcv,
    hact, hwr, hqnd⟩ := hpre
  obtain ⟨hlen1, hlen2, hlen3, hpair, hbound, hnd, hrange, hposlvl, hmemlvl,
    hlvlbound⟩ := hwf
  have hlt : lit.index < s.mVariableState.length := by omega
  have hltA : lit.index < s.mAssignedAtLevel.length := by omega
  have hnotontrail : ∀ l ∈ s.mTrail, l.index ≠ lit.index := by
    intro l hl he
    exact ((hsc.1 lit.index hlt).mp hunk).2 l hl he
  have hlvlm1 : s.mAssignedAtLevel.getD lit.index 0 = -1 :=
    ((hsc.1 lit.index hlt).mp hunk).1
  obtain ⟨hC, hW, hD, hTI, hI, hA, hQ, hT, hVS, hAL⟩ := enqueue_fields s lit
  have hdle : (s.enqueue lit).decisionLevel = s.decisionLevel := by
    unfold Solver.decisionLevel
    rw [hD]
  have hd0 : (0 : Int) ≤ s.decisionLevel := by
    unfold Solver.decisionLevel
    omega
  have hvs_ne : ∀ v, v ≠ lit.index → (s.enqueue lit).varState v = s.varState v := by
    intro v hv
    show ((s.enqueue lit).mVariableState).getD v Tribool.unk = _
    rw [hVS, getD_set_ne _ _ _ _ _ (fun h => hv h.symm)]
    rfl
  have hvs_self : (s.enqueue lit).varState lit.index = liftBool lit.value := by
    show ((s.enqueue lit).mVariableState).getD lit.index Tribool.unk = _
    rw [hVS, getD_set_self _ _ _ _ hlt]
  have hal_ne : ∀ (v : Nat) (dflt : Int), v ≠ lit.index →
      (s.enqueue lit).mAssignedAtLevel.getD v dflt
        = s.mAssignedAtLevel.getD v dflt := by
    intro v dflt hv
    rw [hAL, getD_set_ne _ _ _ _ _ (fun h => hv h.symm)]
  have hal_self : ∀ dflt : Int,
      (s.enqueue lit).mAssignedAtLevel.getD lit.index dflt = s.decisionLevel := by
    intro dflt
    rw [hAL, getD_set_self _ _ _ _ hltA]
  have htrail_getD_lt : ∀ p, p < s.mTrail.length →
      (s.enqueue lit).mTrail.getD p (Literal.mk 1)
        = s.mTrail.getD p (Literal.mk 1) := by
    intro p hp
    rw [hT, getD_concat_lt _ _ _ _ hp]
  have htrail_getD_last :
      (s.enqueue lit).mTrail.getD s.mTrail.length (Literal.mk 1) = lit := by
    rw [hT, getD_concat_last]
  have hlvlpos : (s.enqueue lit).levelOfPos = s.levelOfPos := by
    funext p
    unfold Solver.levelOfPos
    rw [hTI]
  refine ⟨⟨?_, ?_, ?_, ?_, ?_, ?_, ?_, ?_, ?_, ?_, ?_, ?_, ?_, ?_, ?_⟩, ?_⟩
  · rw [hVS, List.length_set]
    exact hL1
  · rw [hW]
    exact hL2
  · rw [hAL, List.length_set]
    exact hL3
  · rw [hI]
    exact hL4
  · rw [hA]
    exact hL5
  · rw [hvs_ne 0 (by omega)]
    exact hv0
  · refine ⟨?_, ?_, ?_, ?_, ?_, ?_, ?_, ?_, ?_, ?_⟩
    · rw [hVS, hAL, List.length_set, List.length_set]
      exact hlen1
    · rw [hVS, hI, List.length_set]
      exact hlen2
    · rw [hTI, hD]
      exact hlen3
    · rw [hTI]
      exact hpair
    · intro k hk
      rw [hTI] at hk
      rw [hT, List.length_append]
      have := hbound k hk
      simp only [List.length_cons, List.length_nil]
      omega
    · rw [hT, List.map_append]
      refine List.Nodup.append hnd (by simp) ?_
      intro a ha hb
      simp only [List.map_cons, List.map_nil, List.mem_singleton] at hb
      obtain ⟨l, hl, hlv⟩ := List.mem_map.mp ha
      exact hnotontrail l hl (by rw [hlv, hb])
    · intro l hl
      rw [hT] at hl
      rw [hVS, List.length_set]
      rcases List.mem_append.mp hl with h | h
      · exact hrange l h
      · rw [List.mem_singleton.mp h]
        exact hlt
    · intro p hp
      rw [hT, List.length_append] at hp
      simp only [List.length_cons, List.length_nil] at hp
      rw [hlvlpos]
      rcases Nat.lt_or_ge p s.mTrail.length with hlt' | hge
      · rw [htrail_getD_lt p hlt',
          hal_ne _ _ (hnotontrail _ (getD_mem _ _ _ hlt'))]
        exact hposlvl p hlt'
      · have hpe : p = s.mTrail.length := by omega
        subst hpe
        rw [htrail_getD_last, hal_self]
        unfold Solver.levelOfPos Solver.decisionLevel
        rw [List.countP_eq_length.mpr, hlen3]
        intro k hk
        exact decide_eq_true (hbound k hk)
    · intro v hv hne
      rw [hVS, List.length_set] at hv
      by_cases hveq : v = lit.index
      · subst hveq
        exact ⟨lit, by rw [hT]; exact List.mem_append_right _ (by simp), rfl⟩
      · rw [hal_ne _ _ hveq] at hne
        obtain ⟨l, hl, hle⟩ := hmemlvl v hv hne
        exact ⟨l, by rw [hT]; exact List.mem_append_left _ hl, hle⟩
    · intro v hv
      rw [hVS, List.length_set] at hv
      rw [hdle]
      by_cases hveq : v = lit.index
      · subst hveq
        rw [hal_self]
      · rw [hal_ne _ _ hveq]
        exact hlvlbound v hv
  · refine ⟨?_, ?_, ?_⟩
    · intro v hv
      rw [hVS, List.length_set] at hv
      by_cases hveq : v = lit.index
      · subst hveq
        constructor
        · intro h
          rw [hvs_self] at h
          exact absurd h (liftBool_ne_unk _)
        · rintro ⟨-, hb⟩
          exact absurd (hb lit (by rw [hT]; exact List.mem_append_right _ (by simp)) rfl)
            (fun h => h)
      · rw [show (s.enqueue lit).varState v = s.varState v from hvs_ne v hveq,
          hal_ne _ _ hveq]
        constructor
        · intro h
          obtain ⟨ha, hb⟩ := (hsc.1 v hv).mp h
          refine ⟨ha, ?_⟩
          intro l hl
          rw [hT] at hl
          rcases List.mem_append.mp hl with h' | h'
          · exact hb l h'
          · rw [List.mem_singleton.mp h']
            exact fun he => hveq he.symm
        · rintro ⟨ha, hb⟩
          refine (hsc.1 v hv).mpr ⟨ha, ?_⟩
          intro l hl
          exact hb l (by rw [hT]; exact List.mem_append_left _ hl)
    · intro l hl
      rw [hT] at hl
      rcases List.mem_append.mp hl with h | h
      · rw [hal_ne _ _ (hnotontrail l h)]
        exact hsc.2.1 l h
      · rw [List.mem_singleton.mp h, hal_self]
        exact hd0
    · rw [hVS, hT, List.length_append,
        countP_set_true_of_false _ _ _ _ Tribool.unk hlt
          (by rw [show s.mVariableState.getD lit.index Tribool.unk
              = s.varState lit.index from rfl, hunk]; rfl)
          (decide_eq_true (liftBool_ne_unk lit.value)),
        hsc.2.2]
      simp
  · intro l hl
    rw [hT] at hl
    rcases List.mem_append.mp hl with h | h
    · exact htr1 l h
    · rw [List.mem_singleton.mp h]
      exact h1
  · intro u hu
    rw [hQ] at hu
    rw [hdle]
    rcases List.mem_append.mp hu with h | h
    · obtain ⟨hun, hulvl⟩ := hql u h
      have hune : u ≠ lit.index := by
        intro he
        rw [he, hlvlm1] at hulvl
        unfold Solver.decisionLevel at hulvl
        omega
      rw [hal_ne _ _ hune]
      exact ⟨hun, hulvl⟩
    · rw [List.mem_singleton.mp h]
      exact ⟨hn, hal_self 0⟩
  · intro p hp
    rw [hT, List.length_append] at hp
    simp only [List.length_cons, List.length_nil] at hp
    rcases Nat.lt_or_ge p s.mTrail.length with hlt' | hge
    · rw [htrail_getD_lt p hlt', hI, hC]
      intro hne
      obtain ⟨ha, hb⟩ := hrs p hlt' hne
      refine ⟨ha, ?_⟩
      intro cl hcl hclne
      obtain ⟨q, hq1, hq2⟩ := hb cl hcl hclne
      exact ⟨q, hq1, by rw [htrail_getD_lt q (by omega)]; exact hq2⟩
    · have hpe : p = s.mTrail.length := by omega
      subst hpe
      rw [htrail_getD_last, hI, hC]
      intro hne
      obtain ⟨ha, hb⟩ := hrsnew hne
      refine ⟨ha, ?_⟩
      intro cl hcl hclne
      obtain ⟨q, hq1, hq2⟩ := hb cl hcl hclne
      exact ⟨q, hq1, by rw [htrail_getD_lt q hq1]; exact hq2⟩
  · rw [hC]
    exact hcv
  · intro v hv
    rw [hA]
    exact hact v hv
  · intro L hL w' hw'
    rw [hW] at hL
    rw [hC]
    exact hwr L hL w' hw'
  · rw [hQ]
    refine List.Nodup.append hqnd (by simp) ?_
    intro a ha hb
    rw [List.mem_singleton.mp hb] at ha
    have hlv := (hql lit.index ha).2
    rw [hlvlm1] at hlv
    unfold Solver.decisionLevel at hlv
    omega
  · intro v hv
    rw [hI]
    by_cases hveq : v = lit.index
    · subst hveq
      rw [hvs_self] at hv
      exact absurd hv (liftBool_ne_unk _)
    · rw [hvs_ne v hveq] at hv
      exact hicr v hveq hv

/-- Enqueueing an unassigned in-range variable preserves the core health
invariant. -/
theorem enqueue_solverInvCore (s : Solver) (n : Nat) (lit : Literal)
    (hinv : solverInvCore s n)
    (hunk : s.varState lit.index = Tribool.unk)
    (h1 : 1 ≤ lit.index) (hn : lit.index ≤ n) :
    solverInvCore (s.enqueue lit) n := by
  refine enqueue_solverInvAux s n lit hinv.1 (fun v _ hu => hinv.2 v hu) ?_ hunk h1 hn
  intro hne
  exact absurd (hinv.2 lit.index hunk) hne

/-- Enqueueing an unassigned in-range variable preserves the full health
invariant. -/
theorem enqueue_solverInv (s : Solver) (n : Nat) (lit : Literal)
    (hinv : solverInv s n)
    (hunk : s.varState lit.index = Tribool.unk)
    (h1 : 1 ≤ lit.index) (hn : lit.index ≤ n) :
    solverInv (s.enqueue lit) n := by
  refine ⟨enqueue_solverInvCore s n lit hinv.1 hunk h1 hn, ?_⟩
  intro k hk
  obtain ⟨-, -, -, -, -, -, -, hT, -, -⟩ := enqueue_fields s lit
  rw [hT, List.length_append]
  rw [show (s.enqueue lit).mTrailIndices = s.mTrailIndices from rfl] at hk
  have := hinv.2 k hk
  simp only [List.length_cons, List.length_nil]
  omega

/-- `assignUnitClause` on an unassigned in-range variable, for a reason
clause that exists and whose other literals are all on the trail, preserves
the full health invariant. -/
theorem assignUnitClause_solverInv (s : Solver) (n : Nat) (lit : Literal)
    (ci : Nat) (hinv : solverInv s n)
    (hunk : s.varState lit.index = Tribool.unk)
    (h1 : 1 ≤ lit.index) (hn : lit.index ≤ n)
    (hci : ci < s.mClauses.length)
    (hreason : ∀ cl ∈ (s.mClauses.getD ci (Clause.mk [] false)).mLiterals,
      cl.index ≠ lit.index →
      ∃ q, q < s.mTrail.length ∧ (s.mTrail.getD q (Literal.mk 1)).index = cl.index) :
    solverInv (s.assignUnitClause lit ci) n := by
  obtain ⟨⟨hpre, hic⟩, hstrict⟩ := hinv
  obtain ⟨hL1, hL2, hL3, hL4, hL5, hv0, hwf, hsc, htr1, hql, hrs, hcv,
    hact, hwr, hqnd⟩ := hpre
  obtain ⟨hlen1, hlen2, hlen3, hpair, hbound, hnd, hrange, hposlvl, hmemlvl,
    hlvlbound⟩ := hwf
  have hlt : lit.index < s.mVariableState.length := by omega
  have hltI : lit.index < s.mImplications.length := by omega
  have hnotontrail : ∀ l ∈ s.mTrail, l.index ≠ lit.index := by
    intro l hl he
    exact ((hsc.1 lit.index hlt).mp hunk).2 l hl he
  set s₁ : Solver :=
    { s with mImplications := s.mImplications.set lit.index (ci : Int) } with hs₁
  have hIset : s₁.mImplications = s.mImplications.set lit.index (ci : Int) := rfl
  have himp_ne : ∀ (v : Nat) (dflt : Int), v ≠ lit.index →
      s₁.mImplications.getD v dflt = s.mImplications.getD v dflt := by
    intro v dflt hv
    rw [hIset, getD_set_ne _ _ _ _ _ (fun h => hv h.symm)]
  have himp_self : ∀ dflt : Int,
      s₁.mImplications.getD lit.index dflt = (ci : Int) := by
    intro dflt
    rw [hIset, getD_set_self _ _ _ _ hltI]
  have hpre₁ : solverInvPre s₁ n := by
    refine ⟨hL1, hL2, hL3, ?_, hL5, hv0,
      ⟨hlen1, ?_, hlen3, hpair, hbound, hnd, hrange, hposlvl, hmemlvl, hlvlbound⟩,
      hsc, htr1, hql, ?_, hcv, hact, ?_, hqnd⟩
    · rw [hIset, List.length_set]
      exact hL4
    · show s₁.mImplications.length = s.mVariableState.length
      rw [hIset, List.length_set]
      exact hlen2
    · intro p hp
      rw [show s₁.mTrail = s.mTrail from rfl] at hp ⊢
      have hne := hnotontrail _ (getD_mem s.mTrail p (Literal.mk 1) hp)
      rw [himp_ne _ _ hne, show s₁.mClauses = s.mClauses from rfl]
      intro himpne
      obtain ⟨ha, hb⟩ := hrs p hp himpne
      refine ⟨ha, ?_⟩
      intro cl hcl hclne
      exact hb cl hcl hclne
    · intro L hL w' hw'
      rw [show s₁.mWatches = s.mWatches from rfl] at hL
      rw [show s₁.mClauses = s.mClauses from rfl]
      exact hwr L hL w' hw'
  have hicr₁ : ∀ v, v ≠ lit.index → s₁.varState v = Tribool.unk →
      s₁.mImplications.getD v (-1) = -1 := by
    intro v hv hu
    rw [himp_ne _ _ hv]
    exact hic v hu
  have hrsnew₁ : s₁.mImplications.getD lit.index (-1) ≠ -1 →
      (s₁.mImplications.getD lit.index (-1)).toNat < s₁.mClauses.length
      ∧ ∀ cl ∈ (s₁.mClauses.getD (s₁.mImplications.getD lit.index (-1)).toNat
            (Clause.mk [] false)).mLiterals,
          cl.index ≠ lit.index →
          ∃ q, q < s₁.mTrail.length
            ∧ (s₁.mTrail.getD q (Literal.mk 1)).index = cl.index := by
    intro _
    rw [himp_self, Int.toNat_natCast,
      show s₁.mClauses = s.mClauses from rfl,
      show s₁.mTrail = s.mTrail from rfl]
    exact ⟨hci, hreason⟩
  have hfin : s.assignUnitClause lit ci = s₁.enqueue lit := rfl
  rw [hfin]
  refine ⟨enqueue_solverInvAux s₁ n lit hpre₁ hicr₁ hrsnew₁ hunk h1 hn, ?_⟩
  intro k hk
  rw [show (s₁.enqueue lit).mTrailIndices = s.mTrailIndices from rfl] at hk
  rw [(enqueue_fields s₁ lit).2.2.2.2.2.2.2.1,
    show s₁.mTrail = s.mTrail from rfl, List.length_append]
  have := hstrict k hk
  simp only [List.length_cons, List.length_nil]
  omega

theorem swap_size (c : Clause) (i j : Nat) : (c.swap i j).size = c.size := by
  unfold Clause.swap Clause.size
  simp

theorem swap_mem_iff (c : Clause) (i j : Nat) (hi : i < c.size) (hj : j < c.size) :
    ∀ x, x ∈ (c.swap i j).mLiterals ↔ x ∈ c.mLiterals := by
  intro x
  unfold Clause.swap
  constructor
  · intro hx
    rcases List.mem_or_eq_of_mem_set hx with hx' | hx'
    · rcases List.mem_or_eq_of_mem_set hx' with hx'' | hx''
      · exact hx''
      · rw [hx'']
        exact getD_mem _ _ _ hj
    · rw [hx']
      exact getD_mem _ _ _ hi
  · intro hx
    obtain ⟨p, hp, hpe⟩ := (mem_iff_getD c.mLiterals x ⟨1⟩).mp hx
    show x ∈ (c.mLiterals.set i (c.mLiterals.getD j ⟨1⟩)).set j
        (c.mLiterals.getD i ⟨1⟩)
    have hlen : ((c.mLiterals.set i (c.mLiterals.getD j ⟨1⟩)).set j
        (c.mLiterals.getD i ⟨1⟩)).length = c.mLiterals.length := by
      simp
    by_cases hpi : p = i
    · refine (mem_iff_getD _ x ⟨1⟩).mpr ⟨j, ?_, ?_⟩
      · rw [hlen]
        exact hj
      · rw [getD_set_self _ _ _ _ (by simp only [List.length_set]; exact hj),
          ← hpi]
        exact hpe
    · by_cases hpj : p = j
      · have hij : i ≠ j := fun h => hpi (hpj.trans h.symm)
        refine (mem_iff_getD _ x ⟨1⟩).mpr ⟨i, ?_, ?_⟩
        · rw [hlen]
          exact hi
        · rw [getD_set_ne _ _ _ _ _ (fun h => hij h.symm),
            getD_set_self _ _ _ _ hi, ← hpj]
          exact hpe
      · refine (mem_iff_getD _ x ⟨1⟩).mpr ⟨p, ?_, ?_⟩
        · rw [hlen]
          exact hp
        · rw [getD_set_ne _ _ _ _ _ (fun h => hpj h.symm),
            getD_set_ne _ _ _ _ _ (fun h => hpi h.symm)]
          exact hpe

theorem swap_get_left (c : Clause) (i j : Nat) (hi : i < c.size)
    (hij : i ≠ j) : (c.swap i j).get i = c.get j := by
  unfold Clause.swap Clause.get
  show ((c.mLiterals.set i (c.mLiterals.getD j ⟨1⟩)).set j
      (c.mLiterals.getD i ⟨1⟩)).getD i ⟨1⟩ = _
  rw [getD_set_ne _ _ _ _ _ (fun h => hij h.symm), getD_set_self _ _ _ _ hi]

theorem swap_get_right (c : Clause) (i j : Nat) (hj : j < c.size) :
    (c.swap i j).get j = c.get i := by
  unfold Clause.swap Clause.get
  show ((c.mLiterals.set i (c.mLiterals.getD j ⟨1⟩)).set j
      (c.mLiterals.getD i ⟨1⟩)).getD j ⟨1⟩ = _
  rw [getD_set_self _ _ _ _ (by simp only [List.length_set]; exact hj)]

theorem swap_get_other (c : Clause) (i j m : Nat) (hmi : m ≠ i) (hmj : m ≠ j) :
    (c.swap i j).get m = c.get m := by
  unfold Clause.swap Clause.get
  show (((c.mLiterals.set i (c.get j)).set j (c.get i)).getD m ⟨1⟩) = _
  rw [getD_set_ne _ _ _ _ _ (fun h => hmj h.symm),
    getD_set_ne _ _ _ _ _ (fun h => hmi h.symm)]

theorem appendWatch_fields (s : Solver) (v : Nat) (w : Watch) :
    (s.appendWatch v w).mClauses = s.mClauses
    ∧ (s.appendWatch v w).mVariableState = s.mVariableState
    ∧ (s.appendWatch v w).mDecisions = s.mDecisions
    ∧ (s.appendWatch v w).mActivity = s.mActivity
    ∧ (s.appendWatch v w).mQueue = s.mQueue
    ∧ (s.appendWatch v w).mImplications = s.mImplications
    ∧ (s.appendWatch v w).mAssignedAtLevel = s.mAssignedAtLevel
    ∧ (s.appendWatch v w).mTrail = s.mTrail
    ∧ (s.appendWatch v w).mTrailIndices = s.mTrailIndices
    ∧ (s.appendWatch v w).mWatches
        = s.mWatches.set v (s.mWatches.getD v [] ++ [w]) :=
  ⟨rfl, rfl, rfl, rfl, rfl, rfl, rfl, rfl, rfl, rfl⟩

theorem appendWatch_getD_ne (s : Solver) (v : Nat) (w : Watch) (u : Nat)
    (h : u ≠ v) :
    (s.appendWatch v w).mWatches.getD u [] = s.mWatches.getD u [] := by
  rw [(appendWatch_fields s v w).2.2.2.2.2.2.2.2.2,
    getD_set_ne _ _ _ _ _ (fun he => h he.symm)]

theorem appendWatch_getD_self (s : Solver) (v : Nat) (w : Watch)
    (h : v < s.mWatches.length) :
    (s.appendWatch v w).mWatches.getD v [] = s.mWatches.getD v [] ++ [w] := by
  rw [(appendWatch_fields s v w).2.2.2.2.2.2.2.2.2, getD_set_self _ _ _ _ h]

theorem appendWatch_mem (s : Solver) (v : Nat) (w : Watch) (u : Nat)
    (hv : v < s.mWatches.length) (w' : Watch)
    (h : w' ∈ s.mWatches.getD u []) :
    w' ∈ (s.appendWatch v w).mWatches.getD u [] := by
  by_cases huv : u = v
  · subst huv
    rw [appendWatch_getD_self _ _ _ hv]
    exact List.mem_append_left _ h
  · rw [appendWatch_getD_ne _ _ _ _ huv]
    exact h

/-- The watch-replacement scan: specification of `scanForWatch` under
sufficient fuel. -/
theorem scanForWatch_spec (s : Solver) (c : Clause) :
    ∀ (fuel j : Nat), c.size ≤ j + fuel → j ≤ c.size →
      j ≤ s.scanForWatch c fuel j
      ∧ s.scanForWatch c fuel j ≤ c.size
      ∧ (∀ m, j ≤ m → m < s.scanForWatch c fuel j →
          s.value (c.get m) ≠ Tribool.unk)
      ∧ (s.scanForWatch c fuel j < c.size →
          s.value (c.get (s.scanForWatch c fuel j)) = Tribool.unk) := by
  intro fuel
  induction fuel with
  | zero =>
    intro j h1 h2
    have h0 : s.scanForWatch c 0 j = j := rfl
    rw [h0]
    refine ⟨Nat.le_refl j, h2, ?_, ?_⟩
    · intro m hm1 hm2
      exact absurd (Nat.lt_of_le_of_lt hm1 hm2) (Nat.lt_irrefl j)
    · intro hlt
      exact absurd hlt (by omega)
  | succ n ih =>
    intro j h1 h2
    unfold Solver.scanForWatch
    split
    · rename_i hcond
      obtain ⟨hjs, hval⟩ := hcond
      obtain ⟨ih1, ih2, ih3, ih4⟩ := ih (j + 1) (by omega) (by omega)
      refine ⟨by omega, ih2, ?_, ih4⟩
      intro m hm1 hm2
      rcases Nat.eq_or_lt_of_le hm1 with he | hlt
      · rw [← he]
        exact hval
      · exact ih3 m hlt hm2
    · rename_i hcond
      refine ⟨Nat.le_refl j, h2, ?_, ?_⟩
      · intro m hm1 hm2
        exact absurd (Nat.lt_of_le_of_lt hm1 hm2) (Nat.lt_irrefl j)
      · intro hlt
        by_cases hv : s.value (c.get j) = Tribool.unk
        · exact hv
        · exact absurd ⟨hlt, hv⟩ hcond

/-- `newWatchIdx` as computed by the propagator: it either reports no
replacement (every unwatched literal is assigned) or points at an
`Unknown` unwatched literal. -/
theorem newWatchIndex_spec (s : Solver) (c : Clause) :
    (s.newWatchIndex c = c.size →
      ∀ m, 2 ≤ m → m < c.size → s.value (c.get m) ≠ Tribool.unk)
    ∧ (s.newWatchIndex c ≠ c.size →
        2 ≤ s.newWatchIndex c ∧ s.newWatchIndex c < c.size
        ∧ s.value (c.get (s.newWatchIndex c)) = Tribool.unk) := by
  unfold Solver.newWatchIndex
  split
  · rename_i hgt
    obtain ⟨h1, h2, h3, h4⟩ := scanForWatch_spec s c c.size 2 (by omega) (by omega)
    constructor
    · intro he m hm1 hm2
      rw [he] at h3
      exact h3 m hm1 hm2
    · intro hne
      have hlt : s.scanForWatch c c.size 2 < c.size := by omega
      exact ⟨h1, hlt, h4 hlt⟩
  · rename_i hle
    constructor
    · intro _ m hm1 hm2
      omega
    · intro hne
      exact absurd rfl hne

/-- Replacing clause `ci` by a clause built from its own literals and
registering one more valid watcher entry preserves the health invariant. -/
theorem setClauseAppend_solverInv (s : Solver) (n : Nat) (ci : Nat)
    (c' : Clause) (u : Nat) (w : Watch)
    (hinv : solverInv s n) (hci : ci < s.mClauses.length)
    (hmem : ∀ x ∈ c'.mLiterals, x ∈ (s.clauseAt ci).mLiterals)
    (hun : u ≤ n) (hwc : w.clauseIdx < s.mClauses.length) :
    solverInv (({ s with mClauses := s.mClauses.set ci c' }).appendWatch u w) n := by
  obtain ⟨⟨⟨hL1, hL2, hL3, hL4, hL5, hv0, hwf, hsc, htr1, hql, hrs, hcv,
    hact, hwr, hqnd⟩, hic⟩, hstrict⟩ := hinv
  set s₂ : Solver := ({ s with mClauses := s.mClauses.set ci c' }).appendWatch u w
    with hs₂
  have hCeq : s₂.mClauses = s.mClauses.set ci c' := rfl
  have hWeq : s₂.mWatches = s.mWatches.set u (s.mWatches.getD u [] ++ [w]) := rfl
  have hClen : s₂.mClauses.length = s.mClauses.length := by
    rw [hCeq, List.length_set]
  have hulen : u < s.mWatches.length := by omega
  have hmemC : ∀ c ∈ s₂.mClauses, c ∈ s.mClauses ∨ c = c' := by
    intro c hc
    rw [hCeq] at hc
    exact List.mem_or_eq_of_mem_set hc
  refine ⟨⟨⟨hL1, ?_, hL3, hL4, hL5, hv0, hwf, hsc, htr1, hql, ?_, ?_, hact, ?_,
    hqnd⟩, hic⟩, hstrict⟩
  · rw [hWeq, List.length_set]
    exact hL2
  · intro p hp
    have hp' : p < s.mTrail.length := hp
    show s.mImplications.getD (s.mTrail.getD p (Literal.mk 1)).index (-1) ≠ -1 →
      (s.mImplications.getD (s.mTrail.getD p (Literal.mk 1)).index (-1)).toNat
          < (s.mClauses.set ci c').length
      ∧ ∀ cl ∈ ((s.mClauses.set ci c').getD
            (s.mImplications.getD (s.mTrail.getD p (Literal.mk 1)).index (-1)).toNat
            (Clause.mk [] false)).mLiterals,
          cl.index ≠ (s.mTrail.getD p (Literal.mk 1)).index →
          ∃ q, q < p ∧ (s.mTrail.getD q (Literal.mk 1)).index = cl.index
    intro hne
    obtain ⟨ha, hb⟩ := hrs p hp' hne
    refine ⟨by rw [List.length_set]; exact ha, ?_⟩
    intro cl hcl hclne
    by_cases hceq : (s.mImplications.getD
        (s.mTrail.getD p (Literal.mk 1)).index (-1)).toNat = ci
    · rw [hceq, getD_set_self _ _ _ _ hci] at hcl
      exact hb cl (by rw [hceq]; exact hmem cl hcl) hclne
    · rw [getD_set_ne _ _ _ _ _ (fun h => hceq h.symm)] at hcl
      exact hb cl hcl hclne
  · intro c hc lit hlit
    rcases hmemC c hc with h | h
    · exact hcv c h lit hlit
    · subst h
      exact hcv _ (getD_mem _ _ _ hci) lit (hmem lit hlit)
  · intro L hL w' hw'
    rw [hWeq] at hL
    show w'.clauseIdx < (s.mClauses.set ci c').length
    rw [List.length_set]
    rcases List.mem_or_eq_of_mem_set hL with h | h
    · exact hwr L h w' hw'
    · subst h
      rcases List.mem_append.mp hw' with h' | h'
      · exact hwr _ (getD_mem _ _ _ hulen) w' h'
      · rw [List.mem_singleton.mp h']
        exact hwc

theorem enqueue_varState_ne (s : Solver) (lit : Literal) (v : Nat)
    (h : v ≠ lit.index) : (s.enqueue lit).varState v = s.varState v := by
  show ((s.enqueue lit).mVariableState).getD v Tribool.unk = _
  rw [(enqueue_fields s lit).2.2.2.2.2.2.2.2.1,
    getD_set_ne _ _ _ _ _ (fun he => h he.symm)]
  rfl

theorem enqueue_varState_self (s : Solver) (lit : Literal)
    (h : lit.index < s.mVariableState.length) :
    (s.enqueue lit).varState lit.index = liftBool lit.value := by
  show ((s.enqueue lit).mVariableState).getD lit.index Tribool.unk = _
  rw [(enqueue_fields s lit).2.2.2.2.2.2.2.2.1, getD_set_self _ _ _ _ h]

theorem enqueue_value_ne (s : Solver) (lit l : Literal)
    (h : l.index ≠ lit.index) : (s.enqueue lit).value l = s.value l := by
  unfold Solver.value
  rw [enqueue_varState_ne s lit l.index h]

theorem enqueue_value_tru (s : Solver) (lit : Literal)
    (h : lit.index < s.mVariableState.length) :
    (s.enqueue lit).value lit = Tribool.tru :=
  (value_tru_iff _ _).mpr (enqueue_varState_self s lit h)

theorem enqueue_level_ne (s : Solver) (lit : Literal) (v : Nat) (dflt : Int)
    (h : v ≠ lit.index) :
    (s.enqueue lit).mAssignedAtLevel.getD v dflt
      = s.mAssignedAtLevel.getD v dflt := by
  rw [(enqueue_fields s lit).2.2.2.2.2.2.2.2.2,
    getD_set_ne _ _ _ _ _ (fun he => h he.symm)]

theorem enqueue_level_self (s : Solver) (lit : Literal) (dflt : Int)
    (h : lit.index < s.mAssignedAtLevel.length) :
    (s.enqueue lit).mAssignedAtLevel.getD lit.index dflt = s.decisionLevel := by
  rw [(enqueue_fields s lit).2.2.2.2.2.2.2.2.2, getD_set_self _ _ _ _ h]

/-- The state after the watcher loop for variable `v` finishes and the
retained watcher list (behind the already-kept prefix `acc`) is written
back. -/
def PWOut (v : Nat) (ws acc : List Watch) (s : Solver) : Solver :=
  { (Solver.processWatchers v s ws).2.1 with
    mWatches := (Solver.processWatchers v s ws).2.1.mWatches.set v
      (acc ++ (Solver.processWatchers v s ws).1) }

/-- The solver with variable `v`'s watcher list virtually replaced. -/
def midW (s : Solver) (v : Nat) (L : List Watch) : Solver :=
  { s with mWatches := s.mWatches.set v L }

/-- The solver with `v` virtually back at the head of the queue and its
watcher list replaced by the unprocessed remainder. -/
def midQ (s : Solver) (v : Nat) (ws : List Watch) : Solver :=
  { s with mWatches := s.mWatches.set v ws, mQueue := v :: s.mQueue }

/-- Per-clause health at an intermediate point of the watcher loop: the
watch registration counts see the full current list (kept prefix `acc`
plus the unprocessed remainder `ws`), while pending-propagation promises
may only refer to the unprocessed remainder. -/
def goodIn (v : Nat) (ws acc : List Watch) (s : Solver) (ci : Nat) : Prop :=
  2 ≤ (s.clauseAt ci).size →
  (watched (midW s v (acc ++ ws)) ci
    ∧ valInv (midQ s v ws) ci
    ∧ w0Inv (midQ s v ws) ci)

/-- Basic facts about a clause of size at least two in a healthy solver. -/
theorem size2_facts (s : Solver) (n : Nat) (hinv : solverInv s n) (ci : Nat)
    (hsz : 2 ≤ (s.clauseAt ci).size) :
    ci < s.mClauses.length
    ∧ (s.clauseAt ci).get 0 ∈ (s.clauseAt ci).mLiterals
    ∧ (s.clauseAt ci).get 1 ∈ (s.clauseAt ci).mLiterals
    ∧ 1 ≤ ((s.clauseAt ci).get 0).index ∧ ((s.clauseAt ci).get 0).index ≤ n
    ∧ 1 ≤ ((s.clauseAt ci).get 1).index ∧ ((s.clauseAt ci).get 1).index ≤ n := by
  have hci : ci < s.mClauses.length := by
    by_contra h
    have : s.clauseAt ci = Clause.mk [] false := by
      unfold Solver.clauseAt
      exact getD_oob _ _ _ (by omega)
    rw [this] at hsz
    exact absurd hsz (by simp [Clause.size])
  have hcmem : s.clauseAt ci ∈ s.mClauses := getD_mem _ _ _ hci
  have hm0 : (s.clauseAt ci).get 0 ∈ (s.clauseAt ci).mLiterals :=
    getD_mem _ _ _ (by unfold Clause.size at hsz; omega)
  have hm1 : (s.clauseAt ci).get 1 ∈ (s.clauseAt ci).mLiterals :=
    getD_mem _ _ _ (by unfold Clause.size at hsz; omega)
  have hcv := hinv.1.1.2.2.2.2.2.2.2.2.2.2.2.1
  exact ⟨hci, hm0, hm1, (hcv _ hcmem _ hm0).1, (hcv _ hcmem _ hm0).2,
    (hcv _ hcmem _ hm1).1, (hcv _ hcmem _ hm1).2⟩

theorem getD_watches_set (s : Solver) (v : Nat) (L : List Watch) (u : Nat)
    (hv : v < s.mWatches.length) :
    (s.mWatches.set v L).getD u [] = if u = v then L else s.mWatches.getD u [] := by
  by_cases huv : u = v
  · subst huv
    rw [if_pos rfl, getD_set_self _ _ _ _ hv]
  · rw [if_neg huv, getD_set_ne _ _ _ _ _ (fun h => huv h.symm)]

theorem midQ_pendingEntry_iff (s : Solver) (v : Nat) (ws : List Watch)
    (ci u : Nat) (hv : v < s.mWatches.length) (hvq : v ∉ s.mQueue) :
    pendingEntry (midQ s v ws) ci u
    ↔ ((u = v ∧ ∃ w' ∈ ws, w'.clauseIdx = ci)
       ∨ (u ≠ v ∧ u ∈ s.mQueue ∧ ∃ w' ∈ s.mWatches.getD u [], w'.clauseIdx = ci)) := by
  unfold pendingEntry
  have hq : (midQ s v ws).mQueue = v :: s.mQueue := rfl
  have hw : (midQ s v ws).mWatches = s.mWatches.set v ws := rfl
  rw [hq, hw]
  constructor
  · rintro ⟨hqm, he⟩
    by_cases huv : u = v
    · subst huv
      rw [getD_set_self _ _ _ _ hv] at he
      exact Or.inl ⟨rfl, he⟩
    · rw [getD_set_ne _ _ _ _ _ (fun h => huv h.symm)] at he
      rcases List.mem_cons.mp hqm with h | h
      · exact absurd h huv
      · exact Or.inr ⟨huv, h, he⟩
  · rintro (⟨huv, he⟩ | ⟨huv, hqm, he⟩)
    · subst huv
      rw [getD_set_self _ _ _ _ hv]
      exact ⟨List.mem_cons_self _ _, he⟩
    · rw [getD_set_ne _ _ _ _ _ (fun h => huv h.symm)]
      exact ⟨List.mem_cons_of_mem _ hqm, he⟩

/-- A true literal is root-level true when the decision level is zero. -/
theorem tru_rootTrue_at_level0 (s : Solver) (n : Nat) (hinv : solverInv s n)
    (l : Literal) (hl : l.index ≤ n) (htru : s.value l = Tribool.tru)
    (hd : s.decisionLevel = 0) : s.rootTrue l := by
  obtain ⟨⟨⟨hL1, hL2, hL3, hL4, hL5, hv0, hwf, hsc, htr1, hql, hrs, hcv,
    hact, hwr, hqnd⟩, hic⟩, hstrict⟩ := hinv
  obtain ⟨hlen1, hlen2, hlen3, hpair, hbound, hnd, hrange, hposlvl, hmemlvl,
    hlvlbound⟩ := hwf
  have hlt : l.index < s.mVariableState.length := by omega
  have hass : s.varState l.index ≠ Tribool.unk := by
    intro h
    rw [(value_unk_iff s l).mpr h] at htru
    exact absurd htru (by simp)
  obtain ⟨p, hp, hpe⟩ := assigned_mem_trail s hsc hnd hrange l.index hlt hass
  have h0 : s.mAssignedAtLevel.getD l.index 0 = s.levelOfPos p := by
    rw [← hpe]
    exact hposlvl p hp
  have hnn : (0 : Int) ≤ s.levelOfPos p := by
    unfold Solver.levelOfPos
    omega
  have hub := hlvlbound l.index hlt
  exact ⟨htru, by omega⟩

/-- Any assigned in-range variable carries a non-negative level. -/
theorem assigned_level_nonneg (s : Solver) (n : Nat) (hinv : solverInv s n)
    (u : Nat) (hu : u ≤ n) (hass : s.varState u ≠ Tribool.unk) :
    0 ≤ s.mAssignedAtLevel.getD u 0 := by
  obtain ⟨⟨⟨hL1, hL2, hL3, hL4, hL5, hv0, hwf, hsc, htr1, hql, hrs, hcv,
    hact, hwr, hqnd⟩, hic⟩, hstrict⟩ := hinv
  obtain ⟨hlen1, hlen2, hlen3, hpair, hbound, hnd, hrange, hposlvl, hmemlvl,
    hlvlbound⟩ := hwf
  have hlt : u < s.mVariableState.length := by omega
  obtain ⟨p, hp, hpe⟩ := assigned_mem_trail s hsc hnd hrange u hlt hass
  have h0 : s.mAssignedAtLevel.getD u 0 = s.levelOfPos p := by
    rw [← hpe]
    exact hposlvl p hp
  rw [h0]
  unfold Solver.levelOfPos
  omega

theorem acc_append_cons {α : Type} (acc : List α) (w : α) (rest : List α) :
    (acc ++ [w]) ++ rest = acc ++ w :: rest := by
  rw [List.append_assoc]
  rfl

/-- One kept step of the watcher walk with an unchanged solver state (the
processed entry's clause is satisfied by a watch, or carries no watch on
`v`): per-clause health carries over, with the processed entry moved into
the kept prefix. -/
theorem goodIn_step_kept (n v : Nat) (w : Watch) (rest acc : List Watch)
    (s : Solver) (hinv : solverInv s n)
    (hvlen : v < s.mWatches.length)
    (hvq : v ∉ s.mQueue)
    (hdlvl : s.mAssignedAtLevel.getD v 0 = s.decisionLevel)
    (hkept : (∃ i, i ≤ 1 ∧ s.value ((s.clauseAt w.clauseIdx).get i) = Tribool.tru)
      ∨ (∀ i, i ≤ 1 → ((s.clauseAt w.clauseIdx).get i).index ≠ v))
    (ci : Nat) (hg : goodIn v (w :: rest) acc s ci) :
    goodIn v rest (acc ++ [w]) s ci := by
  intro hsz
  obtain ⟨hwt, hvi, hw0⟩ := hg hsz
  obtain ⟨hci, hm0, hm1, h01, h0n, h11, h1n⟩ := size2_facts s n hinv ci hsz
  have htransfer : ∀ u : Nat,
      pendingEntry (midQ s v (w :: rest)) ci u →
      (ci = w.clauseIdx ∧ u = v) ∨ pendingEntry (midQ s v rest) ci u := by
    intro u hp
    rw [midQ_pendingEntry_iff s v (w :: rest) ci u hvlen hvq] at hp
    rcases hp with ⟨huv, w', hw', hwc⟩ | ⟨huv, hqm, he⟩
    · rcases List.mem_cons.mp hw' with he' | he'
      · subst he'
        exact Or.inl ⟨hwc.symm, huv⟩
      · refine Or.inr ?_
        rw [midQ_pendingEntry_iff s v rest ci u hvlen hvq]
        exact Or.inl ⟨huv, w', he', hwc⟩
    · refine Or.inr ?_
      rw [midQ_pendingEntry_iff s v rest ci u hvlen hvq]
      exact Or.inr ⟨huv, hqm, he⟩
  refine ⟨?_, ?_, ?_⟩
  · rw [acc_append_cons]
    exact hwt
  · intro hf0 hf1
    rcases hvi hf0 hf1 with hp | hp
    · rcases htransfer _ hp with ⟨hceq, huv⟩ | hp'
      · rw [← hceq] at hkept
        exfalso
        rcases hkept with ⟨i, hi, htru⟩ | hnv
        · interval_cases i
          · rw [show s.value ((s.clauseAt ci).get 0) = Tribool.fls from hf0] at htru
            exact absurd htru (by simp)
          · rw [show s.value ((s.clauseAt ci).get 1) = Tribool.fls from hf1] at htru
            exact absurd htru (by simp)
        · exact hnv 0 (by omega) huv
      · exact Or.inl hp'
    · rcases htransfer _ hp with ⟨hceq, huv⟩ | hp'
      · rw [← hceq] at hkept
        exfalso
        rcases hkept with ⟨i, hi, htru⟩ | hnv
        · interval_cases i
          · rw [show s.value ((s.clauseAt ci).get 0) = Tribool.fls from hf0] at htru
            exact absurd htru (by simp)
          · rw [show s.value ((s.clauseAt ci).get 1) = Tribool.fls from hf1] at htru
            exact absurd htru (by simp)
        · exact hnv 1 (by omega) huv
      · exact Or.inr hp'
  · intro i hi hfls hlvl0
    rcases hw0 i hi hfls hlvl0 with hroot | hp
    · exact Or.inl hroot
    · rcases htransfer _ hp with ⟨hceq, huv⟩ | hp'
      · rw [← hceq] at hkept
        have huv' : ((s.clauseAt ci).get i).index = v := huv
        have hd0 : s.decisionLevel = 0 := by
          have hthis : s.mAssignedAtLevel.getD ((s.clauseAt ci).get i).index 0 = 0 := hlvl0
          rw [huv'] at hthis
          rw [hthis] at hdlvl
          exact hdlvl.symm
        rcases hkept with ⟨i₀, hi₀, htru⟩ | hnv
        · refine Or.inl ⟨(s.clauseAt ci).get i₀, ?_, ?_⟩
          · interval_cases i₀
            · exact hm0
            · exact hm1
          · have hle : ((s.clauseAt ci).get i₀).index ≤ n := by
              interval_cases i₀
              · exact h0n
              · exact h1n
            exact tru_rootTrue_at_level0 s n hinv _ hle htru hd0
        · exact absurd huv' (hnv i hi)
      · exact Or.inr hp'

theorem value_ne_unk_of_assigned (s : Solver) (l : Literal)
    (h : s.varState l.index ≠ Tribool.unk) : s.value l ≠ Tribool.unk := by
  intro hu
  exact h ((value_unk_iff s l).mp hu)

/-- `watched` only reads the clause database and the watcher lists. -/
theorem watched_congr (s t : Solver) (ci : Nat)
    (hC : t.mClauses = s.mClauses) (hW : t.mWatches = s.mWatches) :
    watched t ci ↔ watched s ci := by
  unfold watched Solver.clauseAt
  rw [hC, hW]

/-- `rootTrue` only reads the variable states and the assignment levels. -/
theorem rootTrue_congr (s t : Solver) (lit : Literal)
    (hV : t.mVariableState = s.mVariableState)
    (hA : t.mAssignedAtLevel = s.mAssignedAtLevel) :
    rootTrue t lit ↔ rootTrue s lit := by
  unfold Solver.rootTrue Solver.value Solver.varState
  rw [hV, hA]

theorem assignUnitClause_fields (s : Solver) (lit : Literal) (ci : Nat) :
    (s.assignUnitClause lit ci).mClauses = s.mClauses
    ∧ (s.assignUnitClause lit ci).mWatches = s.mWatches
    ∧ (s.assignUnitClause lit ci).mDecisions = s.mDecisions
    ∧ (s.assignUnitClause lit ci).mTrailIndices = s.mTrailIndices
    ∧ (s.assignUnitClause lit ci).mImplications
        = s.mImplications.set lit.index (ci : Int)
    ∧ (s.assignUnitClause lit ci).mActivity = s.mActivity
    ∧ (s.assignUnitClause lit ci).mQueue = s.mQueue ++ [lit.index]
    ∧ (s.assignUnitClause lit ci).mTrail = s.mTrail ++ [lit]
    ∧ (s.assignUnitClause lit ci).mVariableState
        = s.mVariableState.set lit.index (liftBool lit.value)
    ∧ (s.assignUnitClause lit ci).mAssignedAtLevel
        = s.mAssignedAtLevel.set lit.index s.decisionLevel :=
  ⟨rfl, rfl, rfl, rfl, rfl, rfl, rfl, rfl, rfl, rfl⟩

/-- Values after overwriting one variable-state slot: other variables keep
their value, the new literal becomes true. -/
theorem value_congr_set (s t : Solver) (lit : Literal)
    (hvs : t.mVariableState = s.mVariableState.set lit.index (liftBool lit.value)) :
    (∀ l : Literal, l.index ≠ lit.index → t.value l = s.value l)
    ∧ (lit.index < s.mVariableState.length → t.value lit = Tribool.tru) := by
  constructor
  · intro l hne
    unfold Solver.value Solver.varState
    rw [hvs, getD_set_ne _ _ _ _ _ (fun h => hne h.symm)]
  · intro hlt
    refine (value_tru_iff t lit).mpr ?_
    show t.mVariableState.getD lit.index Tribool.unk = _
    rw [hvs, getD_set_self _ _ _ _ hlt]

/-- Moving to a state with the same watcher lists, a larger queue not
containing `v`, and per-variable at-least-as-large watcher lists preserves
an unprocessed-watcher promise, provided the promise is not for the clause
of the entry being consumed. -/
theorem pending_transfer (s t : Solver) (v : Nat) (w : Watch)
    (rest : List Watch)
    (hvlen : v < s.mWatches.length) (hvlen' : v < t.mWatches.length)
    (hvq : v ∉ s.mQueue) (hvq' : v ∉ t.mQueue)
    (hqmono : ∀ u, u ∈ s.mQueue → u ∈ t.mQueue)
    (hwmono : ∀ u, u ≠ v → ∀ w' ∈ s.mWatches.getD u [], w' ∈ t.mWatches.getD u [])
    (ci u : Nat) (hne : ci ≠ w.clauseIdx)
    (hp : pendingEntry (midQ s v (w :: rest)) ci u) :
    pendingEntry (midQ t v rest) ci u := by
  rw [midQ_pendingEntry_iff s v (w :: rest) ci u hvlen hvq] at hp
  rw [midQ_pendingEntry_iff t v rest ci u hvlen' hvq']
  rcases hp with ⟨huv, w', hw', hwc⟩ | ⟨huv, hqm, w', hw', hwc⟩
  · rcases List.mem_cons.mp hw' with he | he
    · subst he
      exact absurd hwc.symm hne
    · exact Or.inl ⟨huv, w', he, hwc⟩
  · exact Or.inr ⟨huv, hqmono u hqm, w', hwmono u huv w' hw', hwc⟩

/-- The watch-registration count produces a concrete watcher entry for any
variable other than `v` that carries a watch position of the clause. -/
theorem watched_entry_at (s : Solver) (v : Nat) (L : List Watch) (ci u : Nat)
    (hu : u ≠ v)
    (hw : watched (midW s v L) ci)
    (hside : u = ((s.clauseAt ci).get 0).index ∨ u = ((s.clauseAt ci).get 1).index) :
    ∃ w' ∈ s.mWatches.getD u [], w'.clauseIdx = ci := by
  have hcount := hw u
  have hclause : (midW s v L).clauseAt ci = s.clauseAt ci := rfl
  rw [hclause] at hcount
  have hWeq : (midW s v L).mWatches.getD u [] = s.mWatches.getD u [] := by
    show (s.mWatches.set v L).getD u [] = _
    rw [getD_set_ne _ _ _ _ _ (fun h => hu h.symm)]
  rw [hWeq] at hcount
  have hpos : 0 < [(s.clauseAt ci).get 0, (s.clauseAt ci).get 1].countP
      (fun l => decide (l.index = u)) := by
    refine List.countP_pos_iff.mpr ?_
    rcases hside with h | h
    · exact ⟨(s.clauseAt ci).get 0, List.mem_cons_self _ _, decide_eq_true h.symm⟩
    · exact ⟨(s.clauseAt ci).get 1,
        List.mem_cons_of_mem _ (List.mem_cons_self _ _), decide_eq_true h.symm⟩
  have hpos' : 0 < (s.mWatches.getD u []).countP
      (fun w' => decide (w'.clauseIdx = ci)) := by omega
  obtain ⟨w', hw', hp⟩ := List.countP_pos_iff.mp hpos'
  exact ⟨w', hw', of_decide_eq_true hp⟩

theorem set_getD_self_eq {α : Type} (l : List α) (v : Nat) (d : α)
    (hv : v < l.length) : l.set v (l.getD v d) = l := by
  apply List.ext_getElem
  · simp
  · intro i h1 h2
    by_cases hiv : i = v
    · subst hiv
      rw [List.getElem_set_self, List.getD_eq_getElem?_getD,
        List.getElem?_eq_getElem h2]
      rfl
    · rw [List.getElem_set_ne (fun h => hiv h.symm)]

/-- One unit-propagation step of the watcher walk: the watch at position
`a` is the falsified watch on `v`, the other watch `lit` (position `b`) is
unknown and gets assigned by `assignUnitClause`; per-clause health carries
over to the new state with the processed entry kept. -/
theorem goodIn_step_unit (n v : Nat) (w : Watch) (rest acc : List Watch)
    (s : Solver) (hinv : solverInv s n)
    (hvlen : v < s.mWatches.length)
    (hvq : v ∉ s.mQueue)
    (hvass : s.varState v ≠ Tribool.unk)
    (hdlvl : s.mAssignedAtLevel.getD v 0 = s.decisionLevel)
    (lit : Literal) (a b : Nat)
    (hab : (a = 0 ∧ b = 1) ∨ (a = 1 ∧ b = 0))
    (hwa : ((s.clauseAt w.clauseIdx).get a).index = v)
    (hlb : (s.clauseAt w.clauseIdx).get b = lit)
    (hunk : s.value lit = Tribool.unk)
    (hlitlen : lit.index < s.mVariableState.length)
    (ci : Nat) (hg : goodIn v (w :: rest) acc s ci) :
    goodIn v rest (acc ++ [w]) (s.assignUnitClause lit w.clauseIdx) ci := by
  set s' : Solver := s.assignUnitClause lit w.clauseIdx with hs'
  have hW : s'.mWatches = s.mWatches := rfl
  have hQ : s'.mQueue = s.mQueue ++ [lit.index] := rfl
  have hVS : s'.mVariableState
      = s.mVariableState.set lit.index (liftBool lit.value) := rfl
  have hAL : s'.mAssignedAtLevel
      = s.mAssignedAtLevel.set lit.index s.decisionLevel := rfl
  have hulunk : s.varState lit.index = Tribool.unk := (value_unk_iff s lit).mp hunk
  have hulv : lit.index ≠ v := fun h => hvass (h ▸ hulunk)
  have hvq' : v ∉ s'.mQueue := by
    rw [hQ]
    intro hmem
    rcases List.mem_append.mp hmem with h | h
    · exact hvq h
    · exact hulv (List.mem_singleton.mp h).symm
  have hvlen' : v < s'.mWatches.length := by rw [hW]; exact hvlen
  obtain ⟨hvne, hvtru'⟩ := value_congr_set s s' lit hVS
  have hvtru : s'.value lit = Tribool.tru := hvtru' hlitlen
  have hqmono : ∀ u, u ∈ s.mQueue → u ∈ s'.mQueue := by
    intro u hu
    rw [hQ]
    exact List.mem_append_left _ hu
  have hwmono : ∀ u, u ≠ v → ∀ w' ∈ s.mWatches.getD u [],
      w' ∈ s'.mWatches.getD u [] := by
    intro u _ w' h
    rw [hW]
    exact h
  have hL3 : s.mAssignedAtLevel.length = n + 1 := hinv.1.1.2.2.1
  have hL1 : s.mVariableState.length = n + 1 := hinv.1.1.1
  have hlitlvl : s'.mAssignedAtLevel.getD lit.index 0 = s.decisionLevel := by
    rw [hAL, getD_set_self _ _ _ _ (by omega)]
  have hlvl_ne : ∀ u, u ≠ lit.index →
      s'.mAssignedAtLevel.getD u 0 = s.mAssignedAtLevel.getD u 0 := by
    intro u hu
    rw [hAL, getD_set_ne _ _ _ _ _ (fun h => hu h.symm)]
  intro hsz
  have hsz₀ : 2 ≤ (s.clauseAt ci).size := hsz
  obtain ⟨hwt, hvi, hw0⟩ := hg hsz₀
  obtain ⟨hci, hm0, hm1, h01, h0n, h11, h1n⟩ := size2_facts s n hinv ci hsz₀
  refine ⟨?_, ?_, ?_⟩
  · rw [acc_append_cons]
    exact (watched_congr (midW s v (acc ++ w :: rest))
      (midW s' v (acc ++ w :: rest)) ci rfl rfl).mpr hwt
  · intro hf0 hf1
    have hf0' : s'.value ((s.clauseAt ci).get 0) = Tribool.fls := hf0
    have hf1' : s'.value ((s.clauseAt ci).get 1) = Tribool.fls := hf1
    by_cases hci₀ : ci = w.clauseIdx
    · exfalso
      rcases hab with ⟨ha, hb⟩ | ⟨ha, hb⟩
      · rw [hci₀, show (1 : Nat) = b from hb.symm, hlb, hvtru] at hf1'
        exact absurd hf1' (by simp)
      · rw [hci₀, show (0 : Nat) = b from hb.symm, hlb, hvtru] at hf0'
        exact absurd hf0' (by simp)
    · have h0cases : s.value ((s.clauseAt ci).get 0) = Tribool.fls
          ∨ ((s.clauseAt ci).get 0).index = lit.index := by
        by_cases h : ((s.clauseAt ci).get 0).index = lit.index
        · exact Or.inr h
        · exact Or.inl (by rw [← hvne _ h]; exact hf0')
      have h1cases : s.value ((s.clauseAt ci).get 1) = Tribool.fls
          ∨ ((s.clauseAt ci).get 1).index = lit.index := by
        by_cases h : ((s.clauseAt ci).get 1).index = lit.index
        · exact Or.inr h
        · exact Or.inl (by rw [← hvne _ h]; exact hf1')
      rcases h0cases with hs0 | hi0
      · rcases h1cases with hs1 | hi1
        · rcases hvi hs0 hs1 with hp | hp
          · exact Or.inl (pending_transfer s s' v w rest hvlen hvlen' hvq hvq'
              hqmono hwmono ci _ hci₀ hp)
          · exact Or.inr (pending_transfer s s' v w rest hvlen hvlen' hvq hvq'
              hqmono hwmono ci _ hci₀ hp)
        · refine Or.inr ?_
          show pendingEntry (midQ s' v rest) ci ((s.clauseAt ci).get 1).index
          rw [midQ_pendingEntry_iff s' v rest ci _ hvlen' hvq']
          refine Or.inr ⟨by rw [hi1]; exact hulv, ?_, ?_⟩
          · rw [hQ, hi1]
            exact List.mem_append_right _ (List.mem_singleton.mpr rfl)
          · obtain ⟨w', hw', hwc⟩ := watched_entry_at s v (acc ++ w :: rest) ci
              ((s.clauseAt ci).get 1).index (by rw [hi1]; exact hulv) hwt
              (Or.inr rfl)
            exact ⟨w', by rw [hW]; exact hw', hwc⟩
      · refine Or.inl ?_
        show pendingEntry (midQ s' v rest) ci ((s.clauseAt ci).get 0).index
        rw [midQ_pendingEntry_iff s' v rest ci _ hvlen' hvq']
        refine Or.inr ⟨by rw [hi0]; exact hulv, ?_, ?_⟩
        · rw [hQ, hi0]
          exact List.mem_append_right _ (List.mem_singleton.mpr rfl)
        · obtain ⟨w', hw', hwc⟩ := watched_entry_at s v (acc ++ w :: rest) ci
            ((s.clauseAt ci).get 0).index (by rw [hi0]; exact hulv) hwt
            (Or.inl rfl)
          exact ⟨w', by rw [hW]; exact hw', hwc⟩
  · intro i hi hfls hlvl0
    have hfls' : s'.value ((s.clauseAt ci).get i) = Tribool.fls := hfls
    have hlvl0' : s'.mAssignedAtLevel.getD ((s.clauseAt ci).get i).index 0 = 0 :=
      hlvl0
    by_cases hci₀ : ci = w.clauseIdx
    · by_cases hib : i = b
      · exfalso
        rw [hci₀, hib, hlb, hvtru] at hfls'
        exact absurd hfls' (by simp)
      · have hia : i = a := by
          rcases hab with ⟨ha, hb⟩ | ⟨ha, hb⟩ <;> omega
        subst hia
        have hlvlv : s'.mAssignedAtLevel.getD v 0 = s.mAssignedAtLevel.getD v 0 :=
          hlvl_ne v (fun h => hulv h.symm)
        have hd0 : s.decisionLevel = 0 := by
          rw [hci₀, hwa] at hlvl0'
          rw [hlvlv, hdlvl] at hlvl0'
          exact hlvl0'
        refine Or.inl ⟨lit, ?_, ?_⟩
        · show lit ∈ (s.clauseAt ci).mLiterals
          rw [hci₀, ← hlb]
          rcases hab with ⟨ha, hb⟩ | ⟨ha, hb⟩
          · rw [hb, ← hci₀]
            exact hm1
          · rw [hb, ← hci₀]
            exact hm0
        · show rootTrue s' lit
          exact ⟨hvtru, by rw [hlitlvl, hd0]⟩
    · by_cases hil : ((s.clauseAt ci).get i).index = lit.index
      · refine Or.inr ?_
        show pendingEntry (midQ s' v rest) ci ((s.clauseAt ci).get i).index
        rw [midQ_pendingEntry_iff s' v rest ci _ hvlen' hvq']
        refine Or.inr ⟨by rw [hil]; exact hulv, ?_, ?_⟩
        · rw [hQ, hil]
          exact List.mem_append_right _ (List.mem_singleton.mpr rfl)
        · have hside : ((s.clauseAt ci).get i).index
              = ((s.clauseAt ci).get 0).index
              ∨ ((s.clauseAt ci).get i).index = ((s.clauseAt ci).get 1).index := by
            interval_cases i
            · exact Or.inl rfl
            · exact Or.inr rfl
          obtain ⟨w', hw', hwc⟩ := watched_entry_at s v (acc ++ w :: rest) ci
            ((s.clauseAt ci).get i).index (by rw [hil]; exact hulv) hwt
            (by rcases hside with h | h
                · exact Or.inl h
                · exact Or.inr h)
          exact ⟨w', by rw [hW]; exact hw', hwc⟩
      · have hfsls : s.value ((s.clauseAt ci).get i) = Tribool.fls := by
          rw [← hvne _ hil]
          exact hfls'
        have hlvls : s.mAssignedAtLevel.getD ((s.clauseAt ci).get i).index 0
            = 0 := by
          rw [← hlvl_ne _ hil]
          exact hlvl0'
        rcases hw0 i hi hfsls hlvls with ⟨x, hx, hrx⟩ | hp
        · have hrx1 : s.value x = Tribool.tru := hrx.1
          have hrx2 : s.mAssignedAtLevel.getD x.index 0 = 0 := hrx.2
          have hxl : x.index ≠ lit.index := by
            intro h
            have hxass : s.varState x.index ≠ Tribool.unk := by
              intro hu
              rw [(value_unk_iff s x).mpr hu] at hrx1
              exact absurd hrx1 (by simp)
            exact hxass (h ▸ hulunk)
          refine Or.inl ⟨x, hx, ?_⟩
          show rootTrue s' x
          exact ⟨by rw [hvne _ hxl]; exact hrx1, by rw [hlvl_ne _ hxl]; exact hrx2⟩
        · exact Or.inr (pending_transfer s s' v w rest hvlen hvlen' hvq hvq'
            hqmono hwmono ci _ hci₀ hp)

/-- One watch-replacement step of the watcher walk: the watch at position
`a` is the falsified watch on `v`, the scan found the unknown literal at
position `k >= 2`, the clause is swapped and the watch entry moves to the
new literal's variable; per-clause health carries over with the processed
entry dropped (not kept). -/
theorem goodIn_step_swap (n v : Nat) (w : Watch) (rest acc : List Watch)
    (s : Solver) (hinv : solverInv s n)
    (hvlen : v < s.mWatches.length)
    (hvq : v ∉ s.mQueue)
    (hvass : s.varState v ≠ Tribool.unk)
    (a b k : Nat)
    (hab : (a = 0 ∧ b = 1) ∨ (a = 1 ∧ b = 0))
    (hci₀sz : 2 ≤ (s.clauseAt w.clauseIdx).size)
    (hk2 : 2 ≤ k) (hkl : k < (s.clauseAt w.clauseIdx).size)
    (hkunk : s.value ((s.clauseAt w.clauseIdx).get k) = Tribool.unk)
    (hwa : ((s.clauseAt w.clauseIdx).get a).index = v)
    (hnt : ¬(s.value ((s.clauseAt w.clauseIdx).get 0) = Tribool.tru
          ∨ s.value ((s.clauseAt w.clauseIdx).get 1) = Tribool.tru))
    (hacc : ∀ w' ∈ acc,
      (∃ i, i ≤ 1 ∧ s.value ((s.clauseAt w'.clauseIdx).get i) = Tribool.tru)
      ∨ (∀ i, i ≤ 1 → ((s.clauseAt w'.clauseIdx).get i).index ≠ v))
    (ci : Nat) (hg : goodIn v (w :: rest) acc s ci) :
    goodIn v rest acc
      (({ s with mClauses := s.mClauses.set w.clauseIdx ((s.clauseAt w.clauseIdx).swap a k) }).appendWatch
        ((s.clauseAt w.clauseIdx).get k).index
        (Watch.mk w.clauseIdx ((s.clauseAt w.clauseIdx).get k)))
      ci := by
  have ha1 : a ≤ 1 := by rcases hab with ⟨h, _⟩ | ⟨h, _⟩ <;> omega
  have hb1 : b ≤ 1 := by rcases hab with ⟨_, h⟩ | ⟨_, h⟩ <;> omega
  have hbnea : b ≠ a := by rcases hab with ⟨h1, h2⟩ | ⟨h1, h2⟩ <;> omega
  have hbnek : b ≠ k := by omega
  have hanek : a ≠ k := by omega
  obtain ⟨hci₀lt, hm0₀, hm1₀, h01₀, h0n₀, h11₀, h1n₀⟩ :=
    size2_facts s n hinv w.clauseIdx hci₀sz
  set c : Clause := s.clauseAt w.clauseIdx with hc
  set wl : Literal := c.get k with hwl
  have hwlmem : wl ∈ c.mLiterals := getD_mem _ _ _ hkl
  have hcmem : c ∈ s.mClauses := getD_mem _ _ _ hci₀lt
  have hcv := hinv.1.1.2.2.2.2.2.2.2.2.2.2.2.1
  have hu₃1 : 1 ≤ wl.index := (hcv c hcmem wl hwlmem).1
  have hu₃n : wl.index ≤ n := (hcv c hcmem wl hwlmem).2
  have hu₃unk : s.varState wl.index = Tribool.unk := (value_unk_iff s wl).mp hkunk
  have hu₃v : wl.index ≠ v := fun h => hvass (h ▸ hu₃unk)
  have hL2 : s.mWatches.length = n + 1 := hinv.1.1.2.1
  set s' : Solver :=
    ({ s with mClauses := s.mClauses.set w.clauseIdx (c.swap a k) }).appendWatch
      wl.index (Watch.mk w.clauseIdx wl) with hs'
  have hC' : s'.mClauses = s.mClauses.set w.clauseIdx (c.swap a k) := rfl
  have hW' : s'.mWatches
      = s.mWatches.set wl.index
          (s.mWatches.getD wl.index [] ++ [Watch.mk w.clauseIdx wl]) := rfl
  have hca_ne : ∀ ci', ci' ≠ w.clauseIdx → s'.clauseAt ci' = s.clauseAt ci' := by
    intro ci' hne
    show (s.mClauses.set w.clauseIdx (c.swap a k)).getD ci' (Clause.mk [] false)
      = s.mClauses.getD ci' (Clause.mk [] false)
    rw [getD_set_ne _ _ _ _ _ (fun h => hne h.symm)]
  have hca_self : s'.clauseAt w.clauseIdx = c.swap a k := by
    show (s.mClauses.set w.clauseIdx (c.swap a k)).getD w.clauseIdx
      (Clause.mk [] false) = c.swap a k
    rw [getD_set_self _ _ _ _ hci₀lt]
  have hga' : (c.swap a k).get a = wl :=
    swap_get_left c a k (by omega) hanek
  have hgb' : (c.swap a k).get b = c.get b :=
    swap_get_other c a k b hbnea hbnek
  have hpair : ((c.swap a k).get 0 = wl ∧ (c.swap a k).get 1 = c.get b
        ∧ c.get 0 = c.get a ∧ c.get 1 = c.get b)
      ∨ ((c.swap a k).get 0 = c.get b ∧ (c.swap a k).get 1 = wl
        ∧ c.get 0 = c.get b ∧ c.get 1 = c.get a) := by
    rcases hab with ⟨ha, hb⟩ | ⟨ha, hb⟩
    · subst ha
      subst hb
      exact Or.inl ⟨hga', hgb', rfl, rfl⟩
    · subst ha
      subst hb
      exact Or.inr ⟨hgb', hga', rfl, rfl⟩
  have hvlen' : v < s'.mWatches.length := by
    rw [hW', List.length_set]
    exact hvlen
  have hvq' : v ∉ s'.mQueue := hvq
  have hgu : ∀ u, u ≠ wl.index →
      s'.mWatches.getD u [] = s.mWatches.getD u [] := by
    intro u hu
    rw [hW', getD_set_ne _ _ _ _ _ (fun h => hu h.symm)]
  have hgu₃ : s'.mWatches.getD wl.index []
      = s.mWatches.getD wl.index [] ++ [Watch.mk w.clauseIdx wl] := by
    rw [hW', getD_set_self _ _ _ _ (by omega)]
  have hwmono : ∀ u, u ≠ v → ∀ w' ∈ s.mWatches.getD u [],
      w' ∈ s'.mWatches.getD u [] := by
    intro u _ w' h
    by_cases hu₃ : u = wl.index
    · subst hu₃
      rw [hgu₃]
      exact List.mem_append_left _ h
    · rw [hgu u hu₃]
      exact h
  intro hsz
  have hszs : 2 ≤ (s.clauseAt ci).size := by
    by_cases hcieq : ci = w.clauseIdx
    · rw [hcieq]
      exact hci₀sz
    · rw [← hca_ne ci hcieq]
      exact hsz
  obtain ⟨hwt, hvi, hw0⟩ := hg hszs
  have hwt' : ∀ u, [(s.clauseAt ci).get 0, (s.clauseAt ci).get 1].countP
        (fun l => decide (l.index = u))
      ≤ ((s.mWatches.set v (acc ++ w :: rest)).getD u []).countP
        (fun w' => decide (w'.clauseIdx = ci)) := hwt
  refine ⟨?_, ?_, ?_⟩
  · -- watched
    intro u
    show [(s'.clauseAt ci).get 0, (s'.clauseAt ci).get 1].countP
        (fun l => decide (l.index = u))
      ≤ ((s'.mWatches.set v (acc ++ rest)).getD u []).countP
        (fun w' => decide (w'.clauseIdx = ci))
    have hsp := hwt' u
    by_cases hcieq : ci = w.clauseIdx
    · have hclg : s'.clauseAt ci = c.swap a k := by
        rw [hcieq]
        exact hca_self
      have hclo : s.clauseAt ci = c := by rw [hcieq]
      rw [hclg]
      rw [hclo] at hsp
      by_cases huv : u = v
      · subst huv
        rw [getD_set_self _ _ _ _ hvlen']
        rw [getD_set_self _ _ _ _ hvlen] at hsp
        rcases hpair with ⟨e0, e1, f0, f1⟩ | ⟨e0, e1, f0, f1⟩ <;>
        · rw [e0, e1]
          rw [f0, f1] at hsp
          simp only [List.countP_cons, List.countP_nil, List.countP_append,
            decide_eq_true_eq] at hsp ⊢
          rw [if_neg hu₃v]
          rw [if_pos hwa, if_pos hcieq.symm] at hsp
          omega
      · rw [getD_set_ne _ _ _ _ _ (fun h => huv h.symm)]
        rw [getD_set_ne _ _ _ _ _ (fun h => huv h.symm)] at hsp
        by_cases huu₃ : u = wl.index
        · subst huu₃
          rw [hgu₃]
          rcases hpair with ⟨e0, e1, f0, f1⟩ | ⟨e0, e1, f0, f1⟩ <;>
          · rw [e0, e1]
            rw [f0, f1] at hsp
            simp only [List.countP_cons, List.countP_nil, List.countP_append,
              decide_eq_true_eq, eq_self_iff_true, if_true] at hsp ⊢
            rw [if_pos hcieq.symm]
            omega
        · rw [hgu u huu₃]
          rcases hpair with ⟨e0, e1, f0, f1⟩ | ⟨e0, e1, f0, f1⟩ <;>
          · rw [e0, e1]
            rw [f0, f1] at hsp
            simp only [List.countP_cons, List.countP_nil,
              decide_eq_true_eq] at hsp ⊢
            rw [if_neg (show ¬(wl.index = u) from fun h => huu₃ h.symm)]
            rw [if_neg (show ¬((c.get a).index = u) from
              fun h => huv ((hwa.symm.trans h).symm))] at hsp
            omega
    · have hclg : s'.clauseAt ci = s.clauseAt ci := hca_ne ci hcieq
      rw [hclg]
      by_cases huv : u = v
      · subst huv
        rw [getD_set_self _ _ _ _ hvlen']
        rw [getD_set_self _ _ _ _ hvlen] at hsp
        simp only [List.countP_cons, List.countP_nil, List.countP_append,
          decide_eq_true_eq] at hsp ⊢
        rw [if_neg (show ¬(w.clauseIdx = ci) from fun h => hcieq h.symm)] at hsp
        omega
      · rw [getD_set_ne _ _ _ _ _ (fun h => huv h.symm)]
        rw [getD_set_ne _ _ _ _ _ (fun h => huv h.symm)] at hsp
        by_cases huu₃ : u = wl.index
        · subst huu₃
          rw [hgu₃]
          simp only [List.countP_cons, List.countP_nil, List.countP_append,
            decide_eq_true_eq] at hsp ⊢
          rw [if_neg (show ¬(w.clauseIdx = ci) from fun h => hcieq h.symm)]
          omega
        · rw [hgu u huu₃]
          exact hsp
  · -- valInv
    intro hf0 hf1
    by_cases hcieq : ci = w.clauseIdx
    · exfalso
      have hgcg : (midQ s' v rest).clauseAt ci = c.swap a k := by
        rw [show (midQ s' v rest).clauseAt ci = s'.clauseAt ci from rfl, hcieq]
        exact hca_self
      rcases hpair with ⟨e0, _, _, _⟩ | ⟨_, e1, _, _⟩
      · have hf0' : (midQ s' v rest).value
            (((midQ s' v rest).clauseAt ci).get 0) = Tribool.fls := hf0
        rw [hgcg, e0] at hf0'
        have hws : s.value wl = Tribool.fls := hf0'
        exact absurd (hkunk.symm.trans hws) (by simp)
      · have hf1' : (midQ s' v rest).value
            (((midQ s' v rest).clauseAt ci).get 1) = Tribool.fls := hf1
        rw [hgcg, e1] at hf1'
        have hws : s.value wl = Tribool.fls := hf1'
        exact absurd (hkunk.symm.trans hws) (by simp)
    · have hgcg : (midQ s' v rest).clauseAt ci = s.clauseAt ci := by
        rw [show (midQ s' v rest).clauseAt ci = s'.clauseAt ci from rfl,
          hca_ne ci hcieq]
      rw [hgcg] at hf0 hf1 ⊢
      have hf0s : s.value ((s.clauseAt ci).get 0) = Tribool.fls := hf0
      have hf1s : s.value ((s.clauseAt ci).get 1) = Tribool.fls := hf1
      rcases hvi hf0s hf1s with hp | hp
      · exact Or.inl (pending_transfer s s' v w rest hvlen hvlen' hvq hvq'
          (fun u h => h) hwmono ci _ hcieq hp)
      · exact Or.inr (pending_transfer s s' v w rest hvlen hvlen' hvq hvq'
          (fun u h => h) hwmono ci _ hcieq hp)
  · -- w0Inv
    intro i hi hfls hlvl0
    by_cases hcieq : ci = w.clauseIdx
    · have hgcg : (midQ s' v rest).clauseAt ci = c.swap a k := by
        rw [show (midQ s' v rest).clauseAt ci = s'.clauseAt ci from rfl, hcieq]
        exact hca_self
      have hmc : (midQ s v (w :: rest)).clauseAt ci = c := by
        rw [show (midQ s v (w :: rest)).clauseAt ci = s.clauseAt ci from rfl,
          hcieq]
      have hclo : s.clauseAt ci = c := by rw [hcieq]
      have hbody : s.value (c.get b) = Tribool.fls →
          s.mAssignedAtLevel.getD (c.get b).index 0 = 0 →
          (∃ x ∈ (c.swap a k).mLiterals, rootTrue (midQ s' v rest) x)
          ∨ pendingEntry (midQ s' v rest) ci (c.get b).index := by
        intro hflss hlvl0s
        have hw0b := hw0 b hb1
          (by rw [hmc]; exact hflss)
          (by rw [hmc]; exact hlvl0s)
        rcases hw0b with ⟨x, hx, hrx⟩ | hp
        · rw [hmc] at hx
          exact Or.inl ⟨x,
            (swap_mem_iff c a k (by omega) hkl x).mpr hx, hrx.1, hrx.2⟩
        · rw [hmc] at hp
          by_cases hugv : (c.get b).index = v
          · have hcnt : 2 ≤ (acc ++ w :: rest).countP
                (fun w' => decide (w'.clauseIdx = ci)) := by
              have hsp := hwt' v
              rw [hclo, getD_set_self _ _ _ _ hvlen] at hsp
              refine le_trans ?_ hsp
              rcases hpair with ⟨_, _, f0, f1⟩ | ⟨_, _, f0, f1⟩ <;>
              · rw [f0, f1]
                simp only [List.countP_cons, List.countP_nil,
                  decide_eq_true_eq]
                rw [if_pos hwa, if_pos hugv]
            have hacc0 : acc.countP
                (fun w' => decide (w'.clauseIdx = ci)) = 0 := by
              by_contra hne0
              have hpos : 0 < acc.countP
                  (fun w' => decide (w'.clauseIdx = ci)) := by omega
              obtain ⟨w', hw', hpw⟩ := List.countP_pos_iff.mp hpos
              have hwid : w'.clauseIdx = w.clauseIdx :=
                (of_decide_eq_true hpw).trans hcieq
              rcases hacc w' hw' with ⟨j, hj, htru⟩ | hnone
              · rw [hwid] at htru
                interval_cases j
                · exact hnt (Or.inl htru)
                · exact hnt (Or.inr htru)
              · have hna := hnone a ha1
                rw [hwid] at hna
                exact hna hwa
            have hrpos : 0 < rest.countP
                (fun w' => decide (w'.clauseIdx = ci)) := by
              rw [List.countP_append, List.countP_cons, hacc0,
                if_pos (show (fun w' => decide (w'.clauseIdx = ci)) w = true
                  from decide_eq_true hcieq.symm)] at hcnt
              omega
            obtain ⟨wr, hwr, hpwr⟩ := List.countP_pos_iff.mp hrpos
            refine Or.inr ?_
            rw [midQ_pendingEntry_iff s' v rest ci _ hvlen' hvq']
            exact Or.inl ⟨hugv, wr, hwr, of_decide_eq_true hpwr⟩
          · refine Or.inr ?_
            rw [midQ_pendingEntry_iff s v (w :: rest) ci _ hvlen hvq] at hp
            rw [midQ_pendingEntry_iff s' v rest ci _ hvlen' hvq']
            rcases hp with ⟨huv, _⟩ | ⟨huv, hqm, w', hw', hwc⟩
            · exact absurd huv hugv
            · exact Or.inr ⟨huv, hqm, w', hwmono _ huv w' hw', hwc⟩
      rw [hgcg] at hfls hlvl0 ⊢
      rcases hpair with ⟨e0, e1, _, _⟩ | ⟨e0, e1, _, _⟩
      · interval_cases i
        · exfalso
          rw [e0] at hfls
          have hws : s.value wl = Tribool.fls := hfls
          exact absurd (hkunk.symm.trans hws) (by simp)
        · rw [e1] at hfls hlvl0 ⊢
          exact hbody hfls hlvl0
      · interval_cases i
        · rw [e0] at hfls hlvl0 ⊢
          exact hbody hfls hlvl0
        · exfalso
          rw [e1] at hfls
          have hws : s.value wl = Tribool.fls := hfls
          exact absurd (hkunk.symm.trans hws) (by simp)
    · have hgcg : (midQ s' v rest).clauseAt ci = s.clauseAt ci := by
        rw [show (midQ s' v rest).clauseAt ci = s'.clauseAt ci from rfl,
          hca_ne ci hcieq]
      rw [hgcg] at hfls hlvl0 ⊢
      have hflss : s.value ((s.clauseAt ci).get i) = Tribool.fls := hfls
      have hlvl0s : s.mAssignedAtLevel.getD ((s.clauseAt ci).get i).index 0
          = 0 := hlvl0
      rcases hw0 i hi hflss hlvl0s with ⟨x, hx, hrx⟩ | hp
      · exact Or.inl ⟨x, hx, hrx.1, hrx.2⟩
      · exact Or.inr (pending_transfer s s' v w rest hvlen hvlen' hvq hvq'
          (fun u h => h) hwmono ci _ hcieq hp)
/-- Replacing one watcher list by entries with valid clause indices
preserves the health invariant. -/
theorem solverInv_set_watches (s : Solver) (n v : Nat) (L : List Watch)
    (hinv : solverInv s n)
    (hrange : ∀ w' ∈ L, w'.clauseIdx < s.mClauses.length) :
    solverInv { s with mWatches := s.mWatches.set v L } n := by
  obtain ⟨⟨⟨hL1, hL2, hL3, hL4, hL5, hv0, hwf, hsc, htr1, hql, hrs, hcv,
    hact, hwr, hqnd⟩, hic⟩, hstrict⟩ := hinv
  refine ⟨⟨⟨hL1, ?_, hL3, hL4, hL5, hv0, hwf, hsc, htr1, hql, hrs, hcv,
    hact, ?_, hqnd⟩, hic⟩, hstrict⟩
  · show (s.mWatches.set v L).length = n + 1
    rw [List.length_set]
    exact hL2
  · intro Lw hLw w' hw'
    rcases List.mem_or_eq_of_mem_set hLw with h | h
    · exact hwr Lw h w' hw'
    · subst h
      exact hrange w' hw'

/-- Clearing the propagation queue preserves the health invariant. -/
theorem solverInv_clear_queue (s : Solver) (n : Nat) (hinv : solverInv s n) :
    solverInv { s with mQueue := [] } n := by
  obtain ⟨⟨⟨hL1, hL2, hL3, hL4, hL5, hv0, hwf, hsc, htr1, hql, hrs, hcv,
    hact, hwr, hqnd⟩, hic⟩, hstrict⟩ := hinv
  refine ⟨⟨⟨hL1, hL2, hL3, hL4, hL5, hv0, hwf, hsc, htr1, ?_, hrs, hcv,
    hact, hwr, ?_⟩, hic⟩, hstrict⟩
  · intro u hu
    exact absurd hu (List.not_mem_nil u)
  · exact List.nodup_nil

/-- Every registered watcher entry points at a clause of size at least two
(established by `watchClause`, which skips smaller clauses). -/
def watchNorm (s : Solver) : Prop :=
  ∀ L ∈ s.mWatches, ∀ w' ∈ L, 2 ≤ (s.clauseAt w'.clauseIdx).size

theorem processWatchers_nil (v : Nat) (s : Solver) :
    Solver.processWatchers v s [] = ([], s, none) := rfl

theorem processWatchers_cons_sat (v : Nat) (s : Solver) (w : Watch)
    (rest : List Watch)
    (h : s.value ((s.clauseAt w.clauseIdx).get 0) = Tribool.tru
       ∨ s.value ((s.clauseAt w.clauseIdx).get 1) = Tribool.tru) :
    Solver.processWatchers v s (w :: rest)
      = (w :: (Solver.processWatchers v s rest).1,
         (Solver.processWatchers v s rest).2.1,
         (Solver.processWatchers v s rest).2.2) := by
  have h' : s.value ((s.mClauses.getD w.clauseIdx (Clause.mk [] false)).get 0)
        = Tribool.tru
      ∨ s.value ((s.mClauses.getD w.clauseIdx (Clause.mk [] false)).get 1)
        = Tribool.tru := h
  simp only [Solver.processWatchers]
  rw [if_pos h']

theorem processWatchers_cons_skip (v : Nat) (s : Solver) (w : Watch)
    (rest : List Watch)
    (hnt : ¬(s.value ((s.clauseAt w.clauseIdx).get 0) = Tribool.tru
       ∨ s.value ((s.clauseAt w.clauseIdx).get 1) = Tribool.tru))
    (hc1 : ¬(v = ((s.clauseAt w.clauseIdx).get 0).index
       ∧ s.value ((s.clauseAt w.clauseIdx).get 0) = Tribool.fls))
    (hc2 : ¬(v = ((s.clauseAt w.clauseIdx).get 1).index
       ∧ s.value ((s.clauseAt w.clauseIdx).get 1) = Tribool.fls)) :
    Solver.processWatchers v s (w :: rest)
      = (w :: (Solver.processWatchers v s rest).1,
         (Solver.processWatchers v s rest).2.1,
         (Solver.processWatchers v s rest).2.2) := by
  have hnt' : ¬(s.value ((s.mClauses.getD w.clauseIdx (Clause.mk [] false)).get 0)
        = Tribool.tru
      ∨ s.value ((s.mClauses.getD w.clauseIdx (Clause.mk [] false)).get 1)
        = Tribool.tru) := hnt
  have hc1' : ¬(v = ((s.mClauses.getD w.clauseIdx (Clause.mk [] false)).get 0).index
      ∧ s.value ((s.mClauses.getD w.clauseIdx (Clause.mk [] false)).get 0)
        = Tribool.fls) := hc1
  have hc2' : ¬(v = ((s.mClauses.getD w.clauseIdx (Clause.mk [] false)).get 1).index
      ∧ s.value ((s.mClauses.getD w.clauseIdx (Clause.mk [] false)).get 1)
        = Tribool.fls) := hc2
  simp only [Solver.processWatchers]
  rw [if_neg hnt', if_neg hc1', if_neg hc2']

theorem processWatchers_cons_unit0 (v : Nat) (s : Solver) (w : Watch)
    (rest : List Watch)
    (hnt : ¬(s.value ((s.clauseAt w.clauseIdx).get 0) = Tribool.tru
       ∨ s.value ((s.clauseAt w.clauseIdx).get 1) = Tribool.tru))
    (hc1 : v = ((s.clauseAt w.clauseIdx).get 0).index
       ∧ s.value ((s.clauseAt w.clauseIdx).get 0) = Tribool.fls)
    (hnw : s.newWatchIndex (s.clauseAt w.clauseIdx)
       = (s.clauseAt w.clauseIdx).size)
    (hunk : s.value ((s.clauseAt w.clauseIdx).get 1) = Tribool.unk) :
    Solver.processWatchers v s (w :: rest)
      = (w :: (Solver.processWatchers v
            (s.assignUnitClause ((s.clauseAt w.clauseIdx).get 1) w.clauseIdx)
            rest).1,
         (Solver.processWatchers v
            (s.assignUnitClause ((s.clauseAt w.clauseIdx).get 1) w.clauseIdx)
            rest).2.1,
         (Solver.processWatchers v
            (s.assignUnitClause ((s.clauseAt w.clauseIdx).get 1) w.clauseIdx)
            rest).2.2) := by
  have hnt' : ¬(s.value ((s.mClauses.getD w.clauseIdx (Clause.mk [] false)).get 0)
        = Tribool.tru
      ∨ s.value ((s.mClauses.getD w.clauseIdx (Clause.mk [] false)).get 1)
        = Tribool.tru) := hnt
  have hc1' : v = ((s.mClauses.getD w.clauseIdx (Clause.mk [] false)).get 0).index
      ∧ s.value ((s.mClauses.getD w.clauseIdx (Clause.mk [] false)).get 0)
        = Tribool.fls := hc1
  have hnw' : s.newWatchIndex (s.mClauses.getD w.clauseIdx (Clause.mk [] false))
      = (s.mClauses.getD w.clauseIdx (Clause.mk [] false)).size := hnw
  have hunk' : s.value ((s.mClauses.getD w.clauseIdx (Clause.mk [] false)).get 1)
      = Tribool.unk := hunk
  simp only [Solver.processWatchers]
  rw [if_neg hnt', if_pos hc1', if_pos hnw', if_pos hunk']
  rfl

theorem processWatchers_cons_conflict0 (v : Nat) (s : Solver) (w : Watch)
    (rest : List Watch)
    (hnt : ¬(s.value ((s.clauseAt w.clauseIdx).get 0) = Tribool.tru
       ∨ s.value ((s.clauseAt w.clauseIdx).get 1) = Tribool.tru))
    (hc1 : v = ((s.clauseAt w.clauseIdx).get 0).index
       ∧ s.value ((s.clauseAt w.clauseIdx).get 0) = Tribool.fls)
    (hnw : s.newWatchIndex (s.clauseAt w.clauseIdx)
       = (s.clauseAt w.clauseIdx).size)
    (hnunk : s.value ((s.clauseAt w.clauseIdx).get 1) ≠ Tribool.unk) :
    Solver.processWatchers v s (w :: rest)
      = (w :: rest, { s with mQueue := [] }, some w.clauseIdx) := by
  have hnt' : ¬(s.value ((s.mClauses.getD w.clauseIdx (Clause.mk [] false)).get 0)
        = Tribool.tru
      ∨ s.value ((s.mClauses.getD w.clauseIdx (Clause.mk [] false)).get 1)
        = Tribool.tru) := hnt
  have hc1' : v = ((s.mClauses.getD w.clauseIdx (Clause.mk [] false)).get 0).index
      ∧ s.value ((s.mClauses.getD w.clauseIdx (Clause.mk [] false)).get 0)
        = Tribool.fls := hc1
  have hnw' : s.newWatchIndex (s.mClauses.getD w.clauseIdx (Clause.mk [] false))
      = (s.mClauses.getD w.clauseIdx (Clause.mk [] false)).size := hnw
  have hnunk' : ¬(s.value ((s.mClauses.getD w.clauseIdx (Clause.mk [] false)).get 1)
      = Tribool.unk) := hnunk
  simp only [Solver.processWatchers]
  rw [if_neg hnt', if_pos hc1', if_pos hnw', if_neg hnunk']

theorem processWatchers_cons_swap0 (v : Nat) (s : Solver) (w : Watch)
    (rest : List Watch)
    (hnt : ¬(s.value ((s.clauseAt w.clauseIdx).get 0) = Tribool.tru
       ∨ s.value ((s.clauseAt w.clauseIdx).get 1) = Tribool.tru))
    (hc1 : v = ((s.clauseAt w.clauseIdx).get 0).index
       ∧ s.value ((s.clauseAt w.clauseIdx).get 0) = Tribool.fls)
    (hnw : s.newWatchIndex (s.clauseAt w.clauseIdx)
       ≠ (s.clauseAt w.clauseIdx).size) :
    Solver.processWatchers v s (w :: rest)
      = Solver.processWatchers v
          (({ s with mClauses := s.mClauses.set w.clauseIdx ((s.clauseAt w.clauseIdx).swap 0 (s.newWatchIndex (s.clauseAt w.clauseIdx))) }).appendWatch
            ((s.clauseAt w.clauseIdx).get (s.newWatchIndex (s.clauseAt w.clauseIdx))).index
            (Watch.mk w.clauseIdx
              ((s.clauseAt w.clauseIdx).get (s.newWatchIndex (s.clauseAt w.clauseIdx)))))
          rest := by
  have hnt' : ¬(s.value ((s.mClauses.getD w.clauseIdx (Clause.mk [] false)).get 0)
        = Tribool.tru
      ∨ s.value ((s.mClauses.getD w.clauseIdx (Clause.mk [] false)).get 1)
        = Tribool.tru) := hnt
  have hc1' : v = ((s.mClauses.getD w.clauseIdx (Clause.mk [] false)).get 0).index
      ∧ s.value ((s.mClauses.getD w.clauseIdx (Clause.mk [] false)).get 0)
        = Tribool.fls := hc1
  have hnw' : ¬(s.newWatchIndex (s.mClauses.getD w.clauseIdx (Clause.mk [] false))
      = (s.mClauses.getD w.clauseIdx (Clause.mk [] false)).size) := hnw
  simp only [Solver.processWatchers]
  rw [if_neg hnt', if_pos hc1', if_neg hnw']
  rfl

theorem processWatchers_cons_unit1 (v : Nat) (s : Solver) (w : Watch)
    (rest : List Watch)
    (hnt : ¬(s.value ((s.clauseAt w.clauseIdx).get 0) = Tribool.tru
       ∨ s.value ((s.clauseAt w.clauseIdx).get 1) = Tribool.tru))
    (hc1 : ¬(v = ((s.clauseAt w.clauseIdx).get 0).index
       ∧ s.value ((s.clauseAt w.clauseIdx).get 0) = Tribool.fls))
    (hc2 : v = ((s.clauseAt w.clauseIdx).get 1).index
       ∧ s.value ((s.clauseAt w.clauseIdx).get 1) = Tribool.fls)
    (hnw : s.newWatchIndex (s.clauseAt w.clauseIdx)
       = (s.clauseAt w.clauseIdx).size)
    (hunk : s.value ((s.clauseAt w.clauseIdx).get 0) = Tribool.unk) :
    Solver.processWatchers v s (w :: rest)
      = (w :: (Solver.processWatchers v
            (s.assignUnitClause ((s.clauseAt w.clauseIdx).get 0) w.clauseIdx)
            rest).1,
         (Solver.processWatchers v
            (s.assignUnitClause ((s.clauseAt w.clauseIdx).get 0) w.clauseIdx)
            rest).2.1,
         (Solver.processWatchers v
            (s.assignUnitClause ((s.clauseAt w.clauseIdx).get 0) w.clauseIdx)
            rest).2.2) := by
  have hnt' : ¬(s.value ((s.mClauses.getD w.clauseIdx (Clause.mk [] false)).get 0)
        = Tribool.tru
      ∨ s.value ((s.mClauses.getD w.clauseIdx (Clause.mk [] false)).get 1)
        = Tribool.tru) := hnt
  have hc1' : ¬(v = ((s.mClauses.getD w.clauseIdx (Clause.mk [] false)).get 0).index
      ∧ s.value ((s.mClauses.getD w.clauseIdx (Clause.mk [] false)).get 0)
        = Tribool.fls) := hc1
  have hc2' : v = ((s.mClauses.getD w.clauseIdx (Clause.mk [] false)).get 1).index
      ∧ s.value ((s.mClauses.getD w.clauseIdx (Clause.mk [] false)).get 1)
        = Tribool.fls := hc2
  have hnw' : s.newWatchIndex (s.mClauses.getD w.clauseIdx (Clause.mk [] false))
      = (s.mClauses.getD w.clauseIdx (Clause.mk [] false)).size := hnw
  have hunk' : s.value ((s.mClauses.getD w.clauseIdx (Clause.mk [] false)).get 0)
      = Tribool.unk := hunk
  simp only [Solver.processWatchers]
  rw [if_neg hnt', if_neg hc1', if_pos hc2', if_pos hnw', if_pos hunk']
  rfl

theorem processWatchers_cons_conflict1 (v : Nat) (s : Solver) (w : Watch)
    (rest : List Watch)
    (hnt : ¬(s.value ((s.clauseAt w.clauseIdx).get 0) = Tribool.tru
       ∨ s.value ((s.clauseAt w.clauseIdx).get 1) = Tribool.tru))
    (hc1 : ¬(v = ((s.clauseAt w.clauseIdx).get 0).index
       ∧ s.value ((s.clauseAt w.clauseIdx).get 0) = Tribool.fls))
    (hc2 : v = ((s.clauseAt w.clauseIdx).get 1).index
       ∧ s.value ((s.clauseAt w.clauseIdx).get 1) = Tribool.fls)
    (hnw : s.newWatchIndex (s.clauseAt w.clauseIdx)
       = (s.clauseAt w.clauseIdx).size)
    (hnunk : s.value ((s.clauseAt w.clauseIdx).get 0) ≠ Tribool.unk) :
    Solver.processWatchers v s (w :: rest)
      = (w :: rest, { s with mQueue := [] }, some w.clauseIdx) := by
  have hnt' : ¬(s.value ((s.mClauses.getD w.clauseIdx (Clause.mk [] false)).get 0)
        = Tribool.tru
      ∨ s.value ((s.mClauses.getD w.clauseIdx (Clause.mk [] false)).get 1)
        = Tribool.tru) := hnt
  have hc1' : ¬(v = ((s.mClauses.getD w.clauseIdx (Clause.mk [] false)).get 0).index
      ∧ s.value ((s.mClauses.getD w.clauseIdx (Clause.mk [] false)).get 0)
        = Tribool.fls) := hc1
  have hc2' : v = ((s.mClauses.getD w.clauseIdx (Clause.mk [] false)).get 1).index
      ∧ s.value ((s.mClauses.getD w.clauseIdx (Clause.mk [] false)).get 1)
        = Tribool.fls := hc2
  have hnw' : s.newWatchIndex (s.mClauses.getD w.clauseIdx (Clause.mk [] false))
      = (s.mClauses.getD w.clauseIdx (Clause.mk [] false)).size := hnw
  have hnunk' : ¬(s.value ((s.mClauses.getD w.clauseIdx (Clause.mk [] false)).get 0)
      = Tribool.unk) := hnunk
  simp only [Solver.processWatchers]
  rw [if_neg hnt', if_neg hc1', if_pos hc2', if_pos hnw', if_neg hnunk']

theorem processWatchers_cons_swap1 (v : Nat) (s : Solver) (w : Watch)
    (rest : List Watch)
    (hnt : ¬(s.value ((s.clauseAt w.clauseIdx).get 0) = Tribool.tru
       ∨ s.value ((s.clauseAt w.clauseIdx).get 1) = Tribool.tru))
    (hc1 : ¬(v = ((s.clauseAt w.clauseIdx).get 0).index
       ∧ s.value ((s.clauseAt w.clauseIdx).get 0) = Tribool.fls))
    (hc2 : v = ((s.clauseAt w.clauseIdx).get 1).index
       ∧ s.value ((s.clauseAt w.clauseIdx).get 1) = Tribool.fls)
    (hnw : s.newWatchIndex (s.clauseAt w.clauseIdx)
       ≠ (s.clauseAt w.clauseIdx).size) :
    Solver.processWatchers v s (w :: rest)
      = Solver.processWatchers v
          (({ s with mClauses := s.mClauses.set w.clauseIdx ((s.clauseAt w.clauseIdx).swap 1 (s.newWatchIndex (s.clauseAt w.clauseIdx))) }).appendWatch
            ((s.clauseAt w.clauseIdx).get (s.newWatchIndex (s.clauseAt w.clauseIdx))).index
            (Watch.mk w.clauseIdx
              ((s.clauseAt w.clauseIdx).get (s.newWatchIndex (s.clauseAt w.clauseIdx)))))
          rest := by
  have hnt' : ¬(s.value ((s.mClauses.getD w.clauseIdx (Clause.mk [] false)).get 0)
        = Tribool.tru
      ∨ s.value ((s.mClauses.getD w.clauseIdx (Clause.mk [] false)).get 1)
        = Tribool.tru) := hnt
  have hc1' : ¬(v = ((s.mClauses.getD w.clauseIdx (Clause.mk [] false)).get 0).index
      ∧ s.value ((s.mClauses.getD w.clauseIdx (Clause.mk [] false)).get 0)
        = Tribool.fls) := hc1
  have hc2' : v = ((s.mClauses.getD w.clauseIdx (Clause.mk [] false)).get 1).index
      ∧ s.value ((s.mClauses.getD w.clauseIdx (Clause.mk [] false)).get 1)
        = Tribool.fls := hc2
  have hnw' : ¬(s.newWatchIndex (s.mClauses.getD w.clauseIdx (Clause.mk [] false))
      = (s.mClauses.getD w.clauseIdx (Clause.mk [] false)).size) := hnw
  simp only [Solver.processWatchers]
  rw [if_neg hnt', if_neg hc1', if_pos hc2', if_neg hnw']
  rfl

/-- The conclusions of the watcher-walk correctness argument, stated for
the final written-back state `PWOut v ws acc s`: the health invariant
holds, the pass leaves the search bookkeeping and clause shapes intact,
and per-clause health (respectively, the conflict-exit facts) holds for
every clause that was healthy going in. -/
def PWConcl (n v : Nat) (ws acc : List Watch) (s : Solver) : Prop :=
  solverInv (PWOut v ws acc s) n
  ∧ (PWOut v ws acc s).mClauses.length = s.mClauses.length
  ∧ (PWOut v ws acc s).mDecisions = s.mDecisions
  ∧ (PWOut v ws acc s).mTrailIndices = s.mTrailIndices
  ∧ (∀ ci, ((PWOut v ws acc s).clauseAt ci).size = (s.clauseAt ci).size)
  ∧ (∀ ci x, x ∈ ((PWOut v ws acc s).clauseAt ci).mLiterals
      ↔ x ∈ (s.clauseAt ci).mLiterals)
  ∧ (∀ ci, (s.clauseAt ci).size < 2
      → (PWOut v ws acc s).clauseAt ci = s.clauseAt ci)
  ∧ (∀ u, s.varState u ≠ Tribool.unk →
      (PWOut v ws acc s).varState u = s.varState u
      ∧ (PWOut v ws acc s).mAssignedAtLevel.getD u 0
          = s.mAssignedAtLevel.getD u 0)
  ∧ (watchNorm s → (∀ w' ∈ ws, 2 ≤ (s.clauseAt w'.clauseIdx).size)
      → (∀ w' ∈ acc, 2 ≤ (s.clauseAt w'.clauseIdx).size)
      → watchNorm (PWOut v ws acc s))
  ∧ (match (Solver.processWatchers v s ws).2.2 with
     | none => ∀ ci, goodIn v ws acc s ci → 2 ≤ (s.clauseAt ci).size
         → goodClause (PWOut v ws acc s) ci
     | some c₀ =>
         (PWOut v ws acc s).mQueue = []
         ∧ conflictClauseSane (PWOut v ws acc s) c₀
         ∧ ∀ ci, goodIn v ws acc s ci → 2 ≤ (s.clauseAt ci).size →
             (watched (PWOut v ws acc s) ci
             ∧ ((PWOut v ws acc s).value
                  (((PWOut v ws acc s).clauseAt ci).get 0) = Tribool.fls →
                (PWOut v ws acc s).value
                  (((PWOut v ws acc s).clauseAt ci).get 1) = Tribool.fls →
                ∃ i, i ≤ 1
                  ∧ (PWOut v ws acc s).varState
                      (((PWOut v ws acc s).clauseAt ci).get i).index
                      ≠ Tribool.unk
                  ∧ (PWOut v ws acc s).mAssignedAtLevel.getD
                      (((PWOut v ws acc s).clauseAt ci).get i).index 0
                      = (PWOut v ws acc s).decisionLevel)
             ∧ (1 ≤ (PWOut v ws acc s).decisionLevel →
                ∀ i, i ≤ 1 →
                (PWOut v ws acc s).value
                  (((PWOut v ws acc s).clauseAt ci).get i) = Tribool.fls →
                (PWOut v ws acc s).mAssignedAtLevel.getD
                  (((PWOut v ws acc s).clauseAt ci).get i).index 0 = 0 →
                ∃ lit ∈ ((PWOut v ws acc s).clauseAt ci).mLiterals,
                  rootTrue (PWOut v ws acc s) lit)))

theorem PWOut_cons_kept (v : Nat) (rest : List Watch) (w : Watch)
    (acc : List Watch) (s s₁ : Solver)
    (heq : Solver.processWatchers v s (w :: rest)
      = (w :: (Solver.processWatchers v s₁ rest).1,
         (Solver.processWatchers v s₁ rest).2.1,
         (Solver.processWatchers v s₁ rest).2.2)) :
    PWOut v (w :: rest) acc s = PWOut v rest (acc ++ [w]) s₁ := by
  unfold PWOut
  rw [heq, acc_append_cons]

theorem PWOut_cons_swap (v : Nat) (rest : List Watch) (w : Watch)
    (acc : List Watch) (s s₁ : Solver)
    (heq : Solver.processWatchers v s (w :: rest)
      = Solver.processWatchers v s₁ rest) :
    PWOut v (w :: rest) acc s = PWOut v rest acc s₁ := by
  unfold PWOut
  rw [heq]

/-- Composition of one processed watcher entry with the conclusions for
the remainder of the walk: the step's state change preserves the clause
shapes and the assigned part of the valuation, the written-back results
coincide, and per-clause health transfers across the step. -/
theorem PWConcl_step (n v : Nat) (w : Watch) (rest acc acc' : List Watch)
    (s s₁ : Solver)
    (heq : PWOut v (w :: rest) acc s = PWOut v rest acc' s₁)
    (hrmatch : (Solver.processWatchers v s (w :: rest)).2.2
      = (Solver.processWatchers v s₁ rest).2.2)
    (hcl : s₁.mClauses.length = s.mClauses.length)
    (hdec : s₁.mDecisions = s.mDecisions)
    (hti : s₁.mTrailIndices = s.mTrailIndices)
    (hsize : ∀ ci, (s₁.clauseAt ci).size = (s.clauseAt ci).size)
    (hmem : ∀ ci x, x ∈ (s₁.clauseAt ci).mLiterals
      ↔ x ∈ (s.clauseAt ci).mLiterals)
    (hsmall : ∀ ci, (s.clauseAt ci).size < 2 → s₁.clauseAt ci = s.clauseAt ci)
    (hvsf : ∀ u, s.varState u ≠ Tribool.unk →
      s₁.varState u = s.varState u
      ∧ s₁.mAssignedAtLevel.getD u 0 = s.mAssignedAtLevel.getD u 0)
    (hwn₁ : watchNorm s → watchNorm s₁)
    (haccsub : ∀ w' ∈ acc', w' ∈ acc ∨ w' ∈ w :: rest)
    (htrans : ∀ ci, goodIn v (w :: rest) acc s ci → goodIn v rest acc' s₁ ci)
    (hconcl : PWConcl n v rest acc' s₁) :
    PWConcl n v (w :: rest) acc s := by
  obtain ⟨h1, h2, h3, h4, h5, h6, h7, h8, h9, h10⟩ := hconcl
  unfold PWConcl
  rw [heq, hrmatch]
  refine ⟨h1, h2.trans hcl, h3.trans hdec, h4.trans hti,
    fun ci => (h5 ci).trans (hsize ci),
    fun ci x => (h6 ci x).trans (hmem ci x),
    ?_, ?_, ?_, ?_⟩
  · intro ci hlt
    refine (h7 ci ?_).trans (hsmall ci hlt)
    rw [hsize ci]
    exact hlt
  · intro u hu
    have hf := hvsf u hu
    have hu₁ : s₁.varState u ≠ Tribool.unk := by
      rw [hf.1]
      exact hu
    have hg := h8 u hu₁
    exact ⟨hg.1.trans hf.1, hg.2.trans hf.2⟩
  · intro hwn hws hacc
    refine h9 (hwn₁ hwn) ?_ ?_
    · intro w' hw'
      rw [hsize]
      exact hws w' (List.mem_cons_of_mem _ hw')
    · intro w' hw'
      rw [hsize]
      rcases haccsub w' hw' with h | h
      · exact hacc w' h
      · exact hws w' h
  · rcases hY : (Solver.processWatchers v s₁ rest).2.2 with _ | c₀
    · rw [hY] at h10
      intro ci hg hsz
      refine h10 ci (htrans ci hg) ?_
      rw [hsize ci]
      exact hsz
    · rw [hY] at h10
      obtain ⟨hq10, hcs10, hcl10⟩ := h10
      refine ⟨hq10, hcs10, ?_⟩
      intro ci hg hsz
      refine hcl10 ci (htrans ci hg) ?_
      rw [hsize ci]
      exact hsz

/-- The watcher walk on an empty list: the kept prefix is written back and
every per-clause health fact survives verbatim. -/
theorem PWConcl_nil (n v : Nat) (acc : List Watch) (s : Solver)
    (hinv : solverInv s n) (hvn : v ≤ n) (hvq : v ∉ s.mQueue)
    (haccr : ∀ w' ∈ acc, w'.clauseIdx < s.mClauses.length) :
    PWConcl n v [] acc s := by
  have hL2 : s.mWatches.length = n + 1 := hinv.1.1.2.1
  have hvlen : v < s.mWatches.length := by omega
  unfold PWConcl
  refine ⟨?_, rfl, rfl, rfl, fun ci => rfl, fun ci x => Iff.rfl,
    fun ci _ => rfl, fun u _ => ⟨rfl, rfl⟩, ?_, ?_⟩
  · exact solverInv_set_watches s n v (acc ++ []) hinv
      (by
        intro w' hw'
        rw [List.append_nil] at hw'
        exact haccr w' hw')
  · intro hwn hws hacc
    intro L hL w' hw'
    have hL' : L ∈ s.mWatches.set v (acc ++ []) := hL
    rcases List.mem_or_eq_of_mem_set hL' with h | h
    · exact hwn L h w' hw'
    · subst h
      rw [List.append_nil] at hw'
      exact hacc w' hw'
  · show ∀ ci, goodIn v [] acc s ci → 2 ≤ (s.clauseAt ci).size
        → goodClause (PWOut v [] acc s) ci
    intro ci hg hsz
    obtain ⟨hwt, hvi, hw0⟩ := hg hsz
    have hpend : ∀ u : Nat, pendingEntry (midQ s v []) ci u
        → pendingEntry (PWOut v [] acc s) ci u := by
      intro u hp
      rw [midQ_pendingEntry_iff s v [] ci u hvlen hvq] at hp
      rcases hp with ⟨_, w', hw', _⟩ | ⟨huv, hq, w', hw', hwc⟩
      · exact absurd hw' (List.not_mem_nil w')
      · refine ⟨hq, w', ?_, hwc⟩
        show w' ∈ (s.mWatches.set v (acc ++ [])).getD u []
        rw [getD_set_ne _ _ _ _ _ (fun h => huv h.symm)]
        exact hw'
    refine ⟨hwt, ?_, ?_⟩
    · intro hf0 hf1
      rcases hvi hf0 hf1 with hp | hp
      · exact Or.inl (hpend _ hp)
      · exact Or.inr (hpend _ hp)
    · intro i hi hfls hlvl0
      rcases hw0 i hi hfls hlvl0 with ⟨x, hx, hrx⟩ | hp
      · exact Or.inl ⟨x, hx, hrx.1, hrx.2⟩
      · exact Or.inr (hpend _ hp)

/-- The conflict exit of the watcher walk: the queue is cleared, the full
current list is written back, the conflict clause is sane, and every
healthy clause keeps its registration count, holds a current-level watch
whenever both watches are false, and a root-true literal behind any
root-level false watch. -/
theorem PWConcl_conflict (n v : Nat) (w : Watch) (rest acc : List Watch)
    (s : Solver)
    (hinv : solverInv s n) (hvn : v ≤ n)
    (hvass : s.varState v ≠ Tribool.unk)
    (hdlvl : s.mAssignedAtLevel.getD v 0 = s.decisionLevel)
    (hvq : v ∉ s.mQueue)
    (hciw : w.clauseIdx < s.mClauses.length)
    (hsz2w : 2 ≤ (s.clauseAt w.clauseIdx).size)
    (haccr : ∀ w' ∈ acc, w'.clauseIdx < s.mClauses.length)
    (hwsr : ∀ w' ∈ w :: rest, w'.clauseIdx < s.mClauses.length)
    (a b : Nat) (hab : (a = 0 ∧ b = 1) ∨ (a = 1 ∧ b = 0))
    (hwa : ((s.clauseAt w.clauseIdx).get a).index = v)
    (hfa : s.value ((s.clauseAt w.clauseIdx).get a) = Tribool.fls)
    (hnb : s.value ((s.clauseAt w.clauseIdx).get b) ≠ Tribool.unk)
    (hnw : s.newWatchIndex (s.clauseAt w.clauseIdx)
      = (s.clauseAt w.clauseIdx).size)
    (heqP : Solver.processWatchers v s (w :: rest)
      = (w :: rest, { s with mQueue := [] }, some w.clauseIdx)) :
    PWConcl n v (w :: rest) acc s := by
  have hpre := hinv.1.1
  obtain ⟨hL1, hL2, hL3, hL4, hL5, hv0, hwf, hsc, htr1, hql, hrs, hcv,
    hact, hwr, hqnd⟩ := hpre
  have hvlen : v < s.mWatches.length := by omega
  obtain ⟨-, hm0w, hm1w, h01w, h0nw, h11w, h1nw⟩ :=
    size2_facts s n hinv w.clauseIdx hsz2w
  have hout : PWOut v (w :: rest) acc s
      = { s with
          mQueue := []
          mWatches := s.mWatches.set v (acc ++ w :: rest) } := by
    unfold PWOut
    rw [heqP]
  have hqassigned : ∀ u ∈ s.mQueue, s.varState u ≠ Tribool.unk := by
    intro u hu hunku
    have hult : u < s.mVariableState.length := by
      have := (hql u hu).1
      omega
    have h1 := ((hsc.1 u hult).mp hunku).1
    have h2 := (hql u hu).2
    have h3 : (0 : Int) ≤ s.decisionLevel := by
      unfold Solver.decisionLevel
      omega
    omega
  have hallassigned : ∀ lit ∈ (s.clauseAt w.clauseIdx).mLiterals,
      s.varState lit.index ≠ Tribool.unk := by
    intro lit hlit
    obtain ⟨p, hp, hpe⟩ :=
      (mem_iff_getD (s.clauseAt w.clauseIdx).mLiterals lit ⟨1⟩).mp hlit
    have hvne : s.value lit ≠ Tribool.unk := by
      by_cases hp2 : 2 ≤ p
      · have := (newWatchIndex_spec s (s.clauseAt w.clauseIdx)).1 hnw p hp2 hp
        rw [show (s.clauseAt w.clauseIdx).get p = lit from hpe] at this
        exact this
      · have hpab : p = a ∨ p = b := by
          rcases hab with ⟨h1, h2⟩ | ⟨h1, h2⟩ <;> omega
        rcases hpab with h | h
        · subst h
          rw [show (s.clauseAt w.clauseIdx).get p = lit from hpe] at hfa
          rw [hfa]
          simp
        · subst h
          rw [show (s.clauseAt w.clauseIdx).get p = lit from hpe] at hnb
          exact hnb
    intro hu
    exact hvne ((value_unk_iff s lit).mpr hu)
  unfold PWConcl
  rw [hout]
  have hqout : ({ s with
      mQueue := []
      mWatches := s.mWatches.set v (acc ++ w :: rest) } : Solver).mQueue
      = [] := rfl
  refine ⟨?_, rfl, rfl, rfl, fun ci => rfl, fun ci x => Iff.rfl,
    fun ci _ => rfl, fun u _ => ⟨rfl, rfl⟩, ?_, ?_⟩
  · exact solverInv_set_watches { s with mQueue := [] } n v (acc ++ w :: rest)
      (solverInv_clear_queue s n hinv)
      (by
        intro w' hw'
        rcases List.mem_append.mp hw' with h | h
        · exact haccr w' h
        · exact hwsr w' h)
  · intro hwn hws hacc
    intro L hL w' hw'
    have hL' : L ∈ s.mWatches.set v (acc ++ w :: rest) := hL
    rcases List.mem_or_eq_of_mem_set hL' with h | h
    · exact hwn L h w' hw'
    · subst h
      rcases List.mem_append.mp hw' with h | h
      · exact hacc w' h
      · exact hws w' h
  · rw [heqP]
    show ([] : List Nat) = []
      ∧ conflictClauseSane _ w.clauseIdx
      ∧ _
    refine ⟨rfl, ?_, ?_⟩
    · refine ⟨hciw, ?_, ?_⟩
      · intro lit hlit
        have hass := hallassigned lit hlit
        have hbound := hcv _ (getD_mem _ _ _ hciw) lit hlit
        refine ⟨?_, ?_⟩
        · show lit.index < s.mVariableState.length
          omega
        show s.mAssignedAtLevel.getD lit.index 0 ≠ -1
        have := assigned_level_nonneg s n hinv lit.index hbound.2 hass
        omega
      · refine ⟨(s.clauseAt w.clauseIdx).get a, ?_, ?_⟩
        · rcases hab with ⟨h1, _⟩ | ⟨h1, _⟩
          · subst h1
            exact hm0w
          · subst h1
            exact hm1w
        · show s.mAssignedAtLevel.getD ((s.clauseAt w.clauseIdx).get a).index 0
            = s.decisionLevel
          rw [hwa]
          exact hdlvl
    · intro ci hg hsz
      obtain ⟨hwt, hvi, hw0⟩ := hg hsz
      have hpendfact : ∀ u : Nat, pendingEntry (midQ s v (w :: rest)) ci u →
          u ≤ n ∧ s.varState u ≠ Tribool.unk
          ∧ s.mAssignedAtLevel.getD u 0 = s.decisionLevel := by
        intro u hp
        rw [midQ_pendingEntry_iff s v (w :: rest) ci u hvlen hvq] at hp
        rcases hp with ⟨huv, -⟩ | ⟨-, hq, -⟩
        · subst huv
          exact ⟨hvn, hvass, hdlvl⟩
        · exact ⟨(hql u hq).1, hqassigned u hq, (hql u hq).2⟩
      refine ⟨hwt, ?_, ?_⟩
      · intro hf0 hf1
        rcases hvi hf0 hf1 with hp | hp
        · obtain ⟨hun, hass, hlvl⟩ := hpendfact _ hp
          exact ⟨0, by omega, hass, hlvl⟩
        · obtain ⟨hun, hass, hlvl⟩ := hpendfact _ hp
          exact ⟨1, by omega, hass, hlvl⟩
      · intro hd i hi hfls hlvl0
        rcases hw0 i hi hfls hlvl0 with ⟨x, hx, hrx⟩ | hp
        · exact ⟨x, hx, hrx.1, hrx.2⟩
        · obtain ⟨hun, hass, hlvl⟩ := hpendfact _ hp
          exfalso
          have hz : s.mAssignedAtLevel.getD
              (((midQ s v (w :: rest)).clauseAt ci).get i).index 0 = 0 := hlvl0
          rw [hz] at hlvl
          have hd' : (1 : Int) ≤ s.decisionLevel := hd
          omega

/-- One kept entry (satisfied clause or no watch on `v`): conclusions for
the remainder lift to the whole list. -/
theorem PWConcl_keep_aux (n v : Nat) (hvn : v ≤ n) (w : Watch)
    (rest acc : List Watch) (s : Solver)
    (hinv : solverInv s n)
    (hvass : s.varState v ≠ Tribool.unk)
    (hdlvl : s.mAssignedAtLevel.getD v 0 = s.decisionLevel)
    (hvq : v ∉ s.mQueue)
    (hwsr : ∀ w' ∈ w :: rest, w'.clauseIdx < s.mClauses.length)
    (hwss : ∀ w' ∈ w :: rest, 2 ≤ (s.clauseAt w'.clauseIdx).size)
    (haccr : ∀ w' ∈ acc, w'.clauseIdx < s.mClauses.length)
    (haccs : ∀ w' ∈ acc, 2 ≤ (s.clauseAt w'.clauseIdx).size)
    (hacc : ∀ w' ∈ acc,
      (∃ i, i ≤ 1 ∧ s.value ((s.clauseAt w'.clauseIdx).get i) = Tribool.tru)
      ∨ (∀ i, i ≤ 1 → ((s.clauseAt w'.clauseIdx).get i).index ≠ v))
    (hkept : (∃ i, i ≤ 1 ∧ s.value ((s.clauseAt w.clauseIdx).get i) = Tribool.tru)
      ∨ (∀ i, i ≤ 1 → ((s.clauseAt w.clauseIdx).get i).index ≠ v))
    (heqP : Solver.processWatchers v s (w :: rest)
      = (w :: (Solver.processWatchers v s rest).1,
         (Solver.processWatchers v s rest).2.1,
         (Solver.processWatchers v s rest).2.2))
    (ih : ∀ (acc' : List Watch) (s' : Solver),
      solverInv s' n →
      s'.varState v ≠ Tribool.unk →
      s'.mAssignedAtLevel.getD v 0 = s'.decisionLevel →
      v ∉ s'.mQueue →
      (∀ w' ∈ rest, w'.clauseIdx < s'.mClauses.length) →
      (∀ w' ∈ rest, 2 ≤ (s'.clauseAt w'.clauseIdx).size) →
      (∀ w' ∈ acc', w'.clauseIdx < s'.mClauses.length) →
      (∀ w' ∈ acc', 2 ≤ (s'.clauseAt w'.clauseIdx).size) →
      (∀ w' ∈ acc',
        (∃ i, i ≤ 1 ∧ s'.value ((s'.clauseAt w'.clauseIdx).get i) = Tribool.tru)
        ∨ (∀ i, i ≤ 1 → ((s'.clauseAt w'.clauseIdx).get i).index ≠ v)) →
      PWConcl n v rest acc' s') :
    PWConcl n v (w :: rest) acc s := by
  have hL2 : s.mWatches.length = n + 1 := hinv.1.1.2.1
  have hvlen : v < s.mWatches.length := by omega
  have hciw : w.clauseIdx < s.mClauses.length := hwsr w (List.mem_cons_self _ _)
  have hsz2w : 2 ≤ (s.clauseAt w.clauseIdx).size := hwss w (List.mem_cons_self _ _)
  have hrestr : ∀ w' ∈ rest, w'.clauseIdx < s.mClauses.length :=
    fun w' h => hwsr w' (List.mem_cons_of_mem _ h)
  have hrests : ∀ w' ∈ rest, 2 ≤ (s.clauseAt w'.clauseIdx).size :=
    fun w' h => hwss w' (List.mem_cons_of_mem _ h)
  have haccr' : ∀ w' ∈ acc ++ [w], w'.clauseIdx < s.mClauses.length := by
    intro w' h
    rcases List.mem_append.mp h with h | h
    · exact haccr w' h
    · rw [List.mem_singleton.mp h]
      exact hciw
  have haccs' : ∀ w' ∈ acc ++ [w], 2 ≤ (s.clauseAt w'.clauseIdx).size := by
    intro w' h
    rcases List.mem_append.mp h with h | h
    · exact haccs w' h
    · rw [List.mem_singleton.mp h]
      exact hsz2w
  have haccsub : ∀ w' ∈ acc ++ [w], w' ∈ acc ∨ w' ∈ w :: rest := by
    intro w' h
    rcases List.mem_append.mp h with h | h
    · exact Or.inl h
    · exact Or.inr (by rw [List.mem_singleton.mp h]; exact List.mem_cons_self _ _)
  have hacc₁ : ∀ w' ∈ acc ++ [w],
      (∃ i, i ≤ 1 ∧ s.value ((s.clauseAt w'.clauseIdx).get i) = Tribool.tru)
      ∨ (∀ i, i ≤ 1 → ((s.clauseAt w'.clauseIdx).get i).index ≠ v) := by
    intro w' h
    rcases List.mem_append.mp h with h | h
    · exact hacc w' h
    · rw [List.mem_singleton.mp h]
      exact hkept
  exact PWConcl_step n v w rest acc (acc ++ [w]) s s
    (PWOut_cons_kept v rest w acc s s heqP)
    (by rw [heqP]) rfl rfl rfl (fun ci => rfl) (fun ci x => Iff.rfl)
    (fun ci _ => rfl) (fun u _ => ⟨rfl, rfl⟩) (fun h => h) haccsub
    (fun ci hg => goodIn_step_kept n v w rest acc s hinv hvlen hvq hdlvl
      hkept ci hg)
    (ih (acc ++ [w]) s hinv hvass hdlvl hvq hrestr hrests haccr' haccs' hacc₁)

/-- One unit-propagation entry: conclusions for the remainder, run from the
state with the forced assignment, lift to the whole list. -/
theorem PWConcl_unit_aux (n v : Nat) (hvn : v ≤ n) (w : Watch)
    (rest acc : List Watch) (s : Solver)
    (hinv : solverInv s n)
    (hvass : s.varState v ≠ Tribool.unk)
    (hdlvl : s.mAssignedAtLevel.getD v 0 = s.decisionLevel)
    (hvq : v ∉ s.mQueue)
    (hwsr : ∀ w' ∈ w :: rest, w'.clauseIdx < s.mClauses.length)
    (hwss : ∀ w' ∈ w :: rest, 2 ≤ (s.clauseAt w'.clauseIdx).size)
    (haccr : ∀ w' ∈ acc, w'.clauseIdx < s.mClauses.length)
    (haccs : ∀ w' ∈ acc, 2 ≤ (s.clauseAt w'.clauseIdx).size)
    (hacc : ∀ w' ∈ acc,
      (∃ i, i ≤ 1 ∧ s.value ((s.clauseAt w'.clauseIdx).get i) = Tribool.tru)
      ∨ (∀ i, i ≤ 1 → ((s.clauseAt w'.clauseIdx).get i).index ≠ v))
    (a b : Nat) (hab : (a = 0 ∧ b = 1) ∨ (a = 1 ∧ b = 0))
    (hwa : ((s.clauseAt w.clauseIdx).get a).index = v)
    (hfa : s.value ((s.clauseAt w.clauseIdx).get a) = Tribool.fls)
    (hunk : s.value ((s.clauseAt w.clauseIdx).get b) = Tribool.unk)
    (hnw : s.newWatchIndex (s.clauseAt w.clauseIdx)
      = (s.clauseAt w.clauseIdx).size)
    (heqP : Solver.processWatchers v s (w :: rest)
      = (w :: (Solver.processWatchers v
            (s.assignUnitClause ((s.clauseAt w.clauseIdx).get b) w.clauseIdx)
            rest).1,
         (Solver.processWatchers v
            (s.assignUnitClause ((s.clauseAt w.clauseIdx).get b) w.clauseIdx)
            rest).2.1,
         (Solver.processWatchers v
            (s.assignUnitClause ((s.clauseAt w.clauseIdx).get b) w.clauseIdx)
            rest).2.2))
    (ih : ∀ (acc' : List Watch) (s' : Solver),
      solverInv s' n →
      s'.varState v ≠ Tribool.unk →
      s'.mAssignedAtLevel.getD v 0 = s'.decisionLevel →
      v ∉ s'.mQueue →
      (∀ w' ∈ rest, w'.clauseIdx < s'.mClauses.length) →
      (∀ w' ∈ rest, 2 ≤ (s'.clauseAt w'.clauseIdx).size) →
      (∀ w' ∈ acc', w'.clauseIdx < s'.mClauses.length) →
      (∀ w' ∈ acc', 2 ≤ (s'.clauseAt w'.clauseIdx).size) →
      (∀ w' ∈ acc',
        (∃ i, i ≤ 1 ∧ s'.value ((s'.clauseAt w'.clauseIdx).get i) = Tribool.tru)
        ∨ (∀ i, i ≤ 1 → ((s'.clauseAt w'.clauseIdx).get i).index ≠ v)) →
      PWConcl n v rest acc' s') :
    PWConcl n v (w :: rest) acc s := by
  have hpre := hinv.1.1
  obtain ⟨hL1, hL2, hL3, hL4, hL5, hv0, hwf, hsc, htr1, hql, hrs, hcv,
    hact, hwr, hqnd⟩ := hpre
  have hvlen : v < s.mWatches.length := by omega
  have hciw : w.clauseIdx < s.mClauses.length := hwsr w (List.mem_cons_self _ _)
  have hsz2w : 2 ≤ (s.clauseAt w.clauseIdx).size := hwss w (List.mem_cons_self _ _)
  have ha1 : a ≤ 1 := by rcases hab with ⟨h, _⟩ | ⟨h, _⟩ <;> omega
  have hb1 : b ≤ 1 := by rcases hab with ⟨_, h⟩ | ⟨_, h⟩ <;> omega
  obtain ⟨-, hm0w, hm1w, h01w, h0nw, h11w, h1nw⟩ :=
    size2_facts s n hinv w.clauseIdx hsz2w
  have hbmem : (s.clauseAt w.clauseIdx).get b
      ∈ (s.clauseAt w.clauseIdx).mLiterals := by
    rcases hab with ⟨-, h⟩ | ⟨-, h⟩
    · subst h
      exact hm1w
    · subst h
      exact hm0w
  have hbb := hcv _ (getD_mem _ _ _ hciw) _ hbmem
  have hulunk : s.varState ((s.clauseAt w.clauseIdx).get b).index
      = Tribool.unk := (value_unk_iff _ _).mp hunk
  have hulv : ((s.clauseAt w.clauseIdx).get b).index ≠ v :=
    fun h => hvass (h ▸ hulunk)
  have hrestr : ∀ w' ∈ rest, w'.clauseIdx < s.mClauses.length :=
    fun w' h => hwsr w' (List.mem_cons_of_mem _ h)
  have hrests : ∀ w' ∈ rest, 2 ≤ (s.clauseAt w'.clauseIdx).size :=
    fun w' h => hwss w' (List.mem_cons_of_mem _ h)
  have haccr' : ∀ w' ∈ acc ++ [w], w'.clauseIdx < s.mClauses.length := by
    intro w' h
    rcases List.mem_append.mp h with h | h
    · exact haccr w' h
    · rw [List.mem_singleton.mp h]
      exact hciw
  have haccs' : ∀ w' ∈ acc ++ [w], 2 ≤ (s.clauseAt w'.clauseIdx).size := by
    intro w' h
    rcases List.mem_append.mp h with h | h
    · exact haccs w' h
    · rw [List.mem_singleton.mp h]
      exact hsz2w
  have haccsub : ∀ w' ∈ acc ++ [w], w' ∈ acc ∨ w' ∈ w :: rest := by
    intro w' h
    rcases List.mem_append.mp h with h | h
    · exact Or.inl h
    · exact Or.inr (by rw [List.mem_singleton.mp h]; exact List.mem_cons_self _ _)
  have hreason : ∀ cl ∈ (s.mClauses.getD w.clauseIdx
        (Clause.mk [] false)).mLiterals,
      cl.index ≠ ((s.clauseAt w.clauseIdx).get b).index →
      ∃ q, q < s.mTrail.length
        ∧ (s.mTrail.getD q (Literal.mk 1)).index = cl.index := by
    intro cl hcl hne
    obtain ⟨p, hp, hpe⟩ := (mem_iff_getD _ cl ⟨1⟩).mp hcl
    have hclb := hcv _ (getD_mem _ _ _ hciw) cl hcl
    have hasscl : s.varState cl.index ≠ Tribool.unk := by
      by_cases hp2 : 2 ≤ p
      · have hvne := (newWatchIndex_spec s (s.clauseAt w.clauseIdx)).1
          hnw p hp2 hp
        rw [show (s.clauseAt w.clauseIdx).get p = cl from hpe] at hvne
        intro hu
        exact hvne ((value_unk_iff _ _).mpr hu)
      · have hpab : p = a ∨ p = b := by
          rcases hab with ⟨h1, h2⟩ | ⟨h1, h2⟩ <;> omega
        rcases hpab with h | h
        · subst h
          have hfls : s.value cl = Tribool.fls := by
            rw [← hpe]
            exact hfa
          intro hu
          rw [(value_unk_iff s cl).mpr hu] at hfls
          exact absurd hfls (by simp)
        · subst h
          exact absurd (congrArg Literal.index hpe.symm) hne
    exact assigned_mem_trail s hsc hwf.2.2.2.2.2.1 hwf.2.2.2.2.2.2.1
      cl.index (by omega) hasscl
  have hinv₁ := assignUnitClause_solverInv s n
    ((s.clauseAt w.clauseIdx).get b) w.clauseIdx hinv hulunk hbb.1 hbb.2
    hciw hreason
  have hvass₁ : (s.assignUnitClause ((s.clauseAt w.clauseIdx).get b)
      w.clauseIdx).varState v ≠ Tribool.unk := by
    show ((s.assignUnitClause ((s.clauseAt w.clauseIdx).get b)
        w.clauseIdx).mVariableState).getD v Tribool.unk ≠ Tribool.unk
    rw [(assignUnitClause_fields s _ _).2.2.2.2.2.2.2.2.1,
      getD_set_ne _ _ _ _ _ hulv]
    exact hvass
  have hdlvl₁ : (s.assignUnitClause ((s.clauseAt w.clauseIdx).get b)
        w.clauseIdx).mAssignedAtLevel.getD v 0
      = (s.assignUnitClause ((s.clauseAt w.clauseIdx).get b)
        w.clauseIdx).decisionLevel := by
    rw [(assignUnitClause_fields s _ _).2.2.2.2.2.2.2.2.2,
      getD_set_ne _ _ _ _ _ hulv]
    exact hdlvl
  have hvq₁ : v ∉ (s.assignUnitClause ((s.clauseAt w.clauseIdx).get b)
      w.clauseIdx).mQueue := by
    rw [(assignUnitClause_fields s _ _).2.2.2.2.2.2.1]
    intro h
    rcases List.mem_append.mp h with h | h
    · exact hvq h
    · exact hulv (List.mem_singleton.mp h).symm
  have hvfacts := value_congr_set s
    (s.assignUnitClause ((s.clauseAt w.clauseIdx).get b) w.clauseIdx)
    ((s.clauseAt w.clauseIdx).get b)
    (assignUnitClause_fields s _ _).2.2.2.2.2.2.2.2.1
  have hacc₁ : ∀ w' ∈ acc ++ [w],
      (∃ i, i ≤ 1 ∧ (s.assignUnitClause ((s.clauseAt w.clauseIdx).get b)
          w.clauseIdx).value
          (((s.assignUnitClause ((s.clauseAt w.clauseIdx).get b)
            w.clauseIdx).clauseAt w'.clauseIdx).get i) = Tribool.tru)
      ∨ (∀ i, i ≤ 1 → (((s.assignUnitClause ((s.clauseAt w.clauseIdx).get b)
          w.clauseIdx).clauseAt w'.clauseIdx).get i).index ≠ v) := by
    intro w' h
    rcases List.mem_append.mp h with h | h
    · rcases hacc w' h with ⟨j, hj, htru⟩ | hnone
      · refine Or.inl ⟨j, hj, ?_⟩
        have hxne : ((s.clauseAt w'.clauseIdx).get j).index
            ≠ ((s.clauseAt w.clauseIdx).get b).index := by
          intro he
          have hass : s.varState ((s.clauseAt w'.clauseIdx).get j).index
              ≠ Tribool.unk := by
            intro hu
            rw [(value_unk_iff _ _).mpr hu] at htru
            exact absurd htru (by simp)
          exact hass (he ▸ hulunk)
        show (s.assignUnitClause ((s.clauseAt w.clauseIdx).get b)
            w.clauseIdx).value ((s.clauseAt w'.clauseIdx).get j) = Tribool.tru
        rw [hvfacts.1 _ hxne]
        exact htru
      · exact Or.inr (fun i hi => hnone i hi)
    · rw [List.mem_singleton.mp h]
      refine Or.inl ⟨b, hb1, ?_⟩
      show (s.assignUnitClause ((s.clauseAt w.clauseIdx).get b)
          w.clauseIdx).value ((s.clauseAt w.clauseIdx).get b) = Tribool.tru
      exact hvfacts.2 (by omega)
  have hvsf₁ : ∀ u, s.varState u ≠ Tribool.unk →
      (s.assignUnitClause ((s.clauseAt w.clauseIdx).get b)
        w.clauseIdx).varState u = s.varState u
      ∧ (s.assignUnitClause ((s.clauseAt w.clauseIdx).get b)
        w.clauseIdx).mAssignedAtLevel.getD u 0
          = s.mAssignedAtLevel.getD u 0 := by
    intro u hu
    have hne : ((s.clauseAt w.clauseIdx).get b).index ≠ u :=
      fun h => hu (h ▸ hulunk)
    constructor
    · show ((s.assignUnitClause ((s.clauseAt w.clauseIdx).get b)
          w.clauseIdx).mVariableState).getD u Tribool.unk = s.varState u
      rw [(assignUnitClause_fields s _ _).2.2.2.2.2.2.2.2.1,
        getD_set_ne _ _ _ _ _ hne]
      rfl
    · rw [(assignUnitClause_fields s _ _).2.2.2.2.2.2.2.2.2,
        getD_set_ne _ _ _ _ _ hne]
  exact PWConcl_step n v w rest acc (acc ++ [w]) s
    (s.assignUnitClause ((s.clauseAt w.clauseIdx).get b) w.clauseIdx)
    (PWOut_cons_kept v rest w acc s
      (s.assignUnitClause ((s.clauseAt w.clauseIdx).get b) w.clauseIdx) heqP)
    (by rw [heqP]) rfl rfl rfl (fun ci => rfl) (fun ci x => Iff.rfl)
    (fun ci _ => rfl) hvsf₁ (fun h => h) haccsub
    (fun ci hg => goodIn_step_unit n v w rest acc s hinv hvlen hvq hvass hdlvl
      ((s.clauseAt w.clauseIdx).get b) a b hab hwa rfl hunk (by omega) ci hg)
    (ih (acc ++ [w])
      (s.assignUnitClause ((s.clauseAt w.clauseIdx).get b) w.clauseIdx)
      hinv₁ hvass₁ hdlvl₁ hvq₁ hrestr hrests haccr' haccs' hacc₁)

/-- One watch-replacement entry: conclusions for the remainder, run from
the swapped state, lift to the whole list. -/
theorem PWConcl_swap_aux (n v : Nat) (hvn : v ≤ n) (w : Watch)
    (rest acc : List Watch) (s : Solver)
    (hinv : solverInv s n)
    (hvass : s.varState v ≠ Tribool.unk)
    (hdlvl : s.mAssignedAtLevel.getD v 0 = s.decisionLevel)
    (hvq : v ∉ s.mQueue)
    (hwsr : ∀ w' ∈ w :: rest, w'.clauseIdx < s.mClauses.length)
    (hwss : ∀ w' ∈ w :: rest, 2 ≤ (s.clauseAt w'.clauseIdx).size)
    (haccr : ∀ w' ∈ acc, w'.clauseIdx < s.mClauses.length)
    (haccs : ∀ w' ∈ acc, 2 ≤ (s.clauseAt w'.clauseIdx).size)
    (hacc : ∀ w' ∈ acc,
      (∃ i, i ≤ 1 ∧ s.value ((s.clauseAt w'.clauseIdx).get i) = Tribool.tru)
      ∨ (∀ i, i ≤ 1 → ((s.clauseAt w'.clauseIdx).get i).index ≠ v))
    (a b : Nat) (hab : (a = 0 ∧ b = 1) ∨ (a = 1 ∧ b = 0))
    (hwa : ((s.clauseAt w.clauseIdx).get a).index = v)
    (hnt : ¬(s.value ((s.clauseAt w.clauseIdx).get 0) = Tribool.tru
          ∨ s.value ((s.clauseAt w.clauseIdx).get 1) = Tribool.tru))
    (hnw : s.newWatchIndex (s.clauseAt w.clauseIdx)
      ≠ (s.clauseAt w.clauseIdx).size)
    (heqP : Solver.processWatchers v s (w :: rest)
      = Solver.processWatchers v
          (({ s with mClauses := s.mClauses.set w.clauseIdx ((s.clauseAt w.clauseIdx).swap a (s.newWatchIndex (s.clauseAt w.clauseIdx))) }).appendWatch
            ((s.clauseAt w.clauseIdx).get
              (s.newWatchIndex (s.clauseAt w.clauseIdx))).index
            (Watch.mk w.clauseIdx
              ((s.clauseAt w.clauseIdx).get
                (s.newWatchIndex (s.clauseAt w.clauseIdx)))))
          rest)
    (ih : ∀ (acc' : List Watch) (s' : Solver),
      solverInv s' n →
      s'.varState v ≠ Tribool.unk →
      s'.mAssignedAtLevel.getD v 0 = s'.decisionLevel →
      v ∉ s'.mQueue →
      (∀ w' ∈ rest, w'.clauseIdx < s'.mClauses.length) →
      (∀ w' ∈ rest, 2 ≤ (s'.clauseAt w'.clauseIdx).size) →
      (∀ w' ∈ acc', w'.clauseIdx < s'.mClauses.length) →
      (∀ w' ∈ acc', 2 ≤ (s'.clauseAt w'.clauseIdx).size) →
      (∀ w' ∈ acc',
        (∃ i, i ≤ 1 ∧ s'.value ((s'.clauseAt w'.clauseIdx).get i) = Tribool.tru)
        ∨ (∀ i, i ≤ 1 → ((s'.clauseAt w'.clauseIdx).get i).index ≠ v)) →
      PWConcl n v rest acc' s') :
    PWConcl n v (w :: rest) acc s := by
  have hL1 : s.mVariableState.length = n + 1 := hinv.1.1.1
  have hL2 : s.mWatches.length = n + 1 := hinv.1.1.2.1
  have hcv := hinv.1.1.2.2.2.2.2.2.2.2.2.2.2.1
  have hvlen : v < s.mWatches.length := by omega
  have hciw : w.clauseIdx < s.mClauses.length := hwsr w (List.mem_cons_self _ _)
  have hsz2w : 2 ≤ (s.clauseAt w.clauseIdx).size := hwss w (List.mem_cons_self _ _)
  have ha1 : a ≤ 1 := by rcases hab with ⟨h, _⟩ | ⟨h, _⟩ <;> omega
  obtain ⟨hk2, hklt, hkunk⟩ :=
    (newWatchIndex_spec s (s.clauseAt w.clauseIdx)).2 hnw
  have hwlmem : (s.clauseAt w.clauseIdx).get
      (s.newWatchIndex (s.clauseAt w.clauseIdx))
      ∈ (s.clauseAt w.clauseIdx).mLiterals := getD_mem _ _ _ hklt
  have hu₃b := hcv _ (getD_mem _ _ _ hciw) _ hwlmem
  have hu₃lt : ((s.clauseAt w.clauseIdx).get
      (s.newWatchIndex (s.clauseAt w.clauseIdx))).index
      < s.mWatches.length := by omega
  set s₁ : Solver :=
    ({ s with mClauses := s.mClauses.set w.clauseIdx ((s.clauseAt w.clauseIdx).swap a (s.newWatchIndex (s.clauseAt w.clauseIdx))) }).appendWatch
      ((s.clauseAt w.clauseIdx).get
        (s.newWatchIndex (s.clauseAt w.clauseIdx))).index
      (Watch.mk w.clauseIdx
        ((s.clauseAt w.clauseIdx).get
          (s.newWatchIndex (s.clauseAt w.clauseIdx)))) with hs₁
  have hCs₁ : s₁.mClauses = s.mClauses.set w.clauseIdx
      ((s.clauseAt w.clauseIdx).swap a
        (s.newWatchIndex (s.clauseAt w.clauseIdx))) := rfl
  have hinv₁ : solverInv s₁ n := by
    refine setClauseAppend_solverInv s n w.clauseIdx _ _ _ hinv hciw ?_
      hu₃b.2 hciw
    intro x hx
    exact (swap_mem_iff (s.clauseAt w.clauseIdx) a
      (s.newWatchIndex (s.clauseAt w.clauseIdx)) (by omega) hklt x).mp hx
  have hcl₁ : s₁.mClauses.length = s.mClauses.length := by
    rw [hCs₁, List.length_set]
  have hsize₁ : ∀ ci, (s₁.clauseAt ci).size = (s.clauseAt ci).size := by
    intro ci
    by_cases h : ci = w.clauseIdx
    · subst h
      show ((s.mClauses.set w.clauseIdx _).getD w.clauseIdx
        (Clause.mk [] false)).size = _
      rw [getD_set_self _ _ _ _ hciw, swap_size]
    · show ((s.mClauses.set w.clauseIdx _).getD ci (Clause.mk [] false)).size = _
      rw [getD_set_ne _ _ _ _ _ (fun he => h he.symm)]
      rfl
  have hmem₁ : ∀ ci x, x ∈ (s₁.clauseAt ci).mLiterals
      ↔ x ∈ (s.clauseAt ci).mLiterals := by
    intro ci x
    by_cases h : ci = w.clauseIdx
    · subst h
      show x ∈ ((s.mClauses.set w.clauseIdx _).getD w.clauseIdx
        (Clause.mk [] false)).mLiterals ↔ _
      rw [getD_set_self _ _ _ _ hciw]
      exact swap_mem_iff (s.clauseAt w.clauseIdx) a
        (s.newWatchIndex (s.clauseAt w.clauseIdx)) (by omega) hklt x
    · show x ∈ ((s.mClauses.set w.clauseIdx _).getD ci
        (Clause.mk [] false)).mLiterals ↔ _
      rw [getD_set_ne _ _ _ _ _ (fun he => h he.symm)]
      exact Iff.rfl
  have hsmall₁ : ∀ ci, (s.clauseAt ci).size < 2
      → s₁.clauseAt ci = s.clauseAt ci := by
    intro ci hlt
    have h : ci ≠ w.clauseIdx := by
      intro he
      rw [he] at hlt
      omega
    show (s.mClauses.set w.clauseIdx _).getD ci (Clause.mk [] false) = _
    rw [getD_set_ne _ _ _ _ _ (fun he => h he.symm)]
    rfl
  have hwn₁ : watchNorm s → watchNorm s₁ := by
    intro hwn L hL w' hw'
    rw [hsize₁]
    have hL' : L ∈ s.mWatches.set
        ((s.clauseAt w.clauseIdx).get
          (s.newWatchIndex (s.clauseAt w.clauseIdx))).index
        (s.mWatches.getD ((s.clauseAt w.clauseIdx).get
          (s.newWatchIndex (s.clauseAt w.clauseIdx))).index []
          ++ [Watch.mk w.clauseIdx ((s.clauseAt w.clauseIdx).get
            (s.newWatchIndex (s.clauseAt w.clauseIdx)))]) := hL
    rcases List.mem_or_eq_of_mem_set hL' with h | h
    · exact hwn L h w' hw'
    · subst h
      rcases List.mem_append.mp hw' with h | h
      · exact hwn _ (getD_mem _ _ _ hu₃lt) w' h
      · rw [List.mem_singleton.mp h]
        exact hsz2w
  have hrestr₁ : ∀ w' ∈ rest, w'.clauseIdx < s₁.mClauses.length := by
    intro w' h
    rw [hcl₁]
    exact hwsr w' (List.mem_cons_of_mem _ h)
  have hrests₁ : ∀ w' ∈ rest, 2 ≤ (s₁.clauseAt w'.clauseIdx).size := by
    intro w' h
    rw [hsize₁]
    exact hwss w' (List.mem_cons_of_mem _ h)
  have haccr₁ : ∀ w' ∈ acc, w'.clauseIdx < s₁.mClauses.length := by
    intro w' h
    rw [hcl₁]
    exact haccr w' h
  have haccs₁ : ∀ w' ∈ acc, 2 ≤ (s₁.clauseAt w'.clauseIdx).size := by
    intro w' h
    rw [hsize₁]
    exact haccs w' h
  have hacc₁ : ∀ w' ∈ acc,
      (∃ i, i ≤ 1 ∧ s₁.value ((s₁.clauseAt w'.clauseIdx).get i) = Tribool.tru)
      ∨ (∀ i, i ≤ 1 → ((s₁.clauseAt w'.clauseIdx).get i).index ≠ v) := by
    intro w' h
    by_cases hci : w'.clauseIdx = w.clauseIdx
    · rcases hacc w' h with ⟨j, hj, htru⟩ | hnone
      · rw [hci] at htru
        have hj01 : j = 0 ∨ j = 1 := by omega
        rcases hj01 with hj0 | hj0
        · subst hj0
          exact absurd (Or.inl htru) hnt
        · subst hj0
          exact absurd (Or.inr htru) hnt
      · have hna := hnone a ha1
        rw [hci] at hna
        exact absurd hwa hna
    · have hcg : s₁.clauseAt w'.clauseIdx = s.clauseAt w'.clauseIdx := by
        show (s.mClauses.set w.clauseIdx _).getD w'.clauseIdx
          (Clause.mk [] false) = _
        rw [getD_set_ne _ _ _ _ _ (fun he => hci he.symm)]
        rfl
      rcases hacc w' h with ⟨j, hj, htru⟩ | hnone
      · refine Or.inl ⟨j, hj, ?_⟩
        rw [hcg]
        exact htru
      · refine Or.inr ?_
        intro i hi
        rw [hcg]
        exact hnone i hi
  exact PWConcl_step n v w rest acc acc s s₁
    (PWOut_cons_swap v rest w acc s s₁ heqP)
    (by rw [heqP]) hcl₁ rfl rfl hsize₁ hmem₁ hsmall₁
    (fun u _ => ⟨rfl, rfl⟩) hwn₁ (fun w' h => Or.inl h)
    (fun ci hg => goodIn_step_swap n v w rest acc s hinv hvlen hvq hvass
      a b (s.newWatchIndex (s.clauseAt w.clauseIdx)) hab hsz2w hk2 hklt hkunk
      hwa hnt hacc ci hg)
    (ih acc s₁ hinv₁ hvass hdlvl hvq hrestr₁ hrests₁ haccr₁ haccs₁ hacc₁)

/-- Correctness of the watcher-list walk of `Solver::propagate` for one
dequeued assigned variable `v`: the walk preserves the health invariant and
clause shapes, and transfers per-clause health (or produces the conflict
facts) for every clause healthy at entry. -/
theorem processWatchers_spec (n v : Nat) (hvn : v ≤ n) :
    ∀ (ws acc : List Watch) (s : Solver),
    solverInv s n →
    s.varState v ≠ Tribool.unk →
    s.mAssignedAtLevel.getD v 0 = s.decisionLevel →
    v ∉ s.mQueue →
    (∀ w' ∈ ws, w'.clauseIdx < s.mClauses.length) →
    (∀ w' ∈ ws, 2 ≤ (s.clauseAt w'.clauseIdx).size) →
    (∀ w' ∈ acc, w'.clauseIdx < s.mClauses.length) →
    (∀ w' ∈ acc, 2 ≤ (s.clauseAt w'.clauseIdx).size) →
    (∀ w' ∈ acc,
      (∃ i, i ≤ 1 ∧ s.value ((s.clauseAt w'.clauseIdx).get i) = Tribool.tru)
      ∨ (∀ i, i ≤ 1 → ((s.clauseAt w'.clauseIdx).get i).index ≠ v)) →
    PWConcl n v ws acc s := by
  intro ws
  induction ws with
  | nil =>
    intro acc s hinv hvass hdlvl hvq _ _ haccr _ _
    exact PWConcl_nil n v acc s hinv hvn hvq haccr
  | cons w rest ih =>
    intro acc s hinv hvass hdlvl hvq hwsr hwss haccr haccs hacc
    have hciw : w.clauseIdx < s.mClauses.length := hwsr w (List.mem_cons_self _ _)
    have hsz2w : 2 ≤ (s.clauseAt w.clauseIdx).size := hwss w (List.mem_cons_self _ _)
    by_cases hsat : s.value ((s.clauseAt w.clauseIdx).get 0) = Tribool.tru
        ∨ s.value ((s.clauseAt w.clauseIdx).get 1) = Tribool.tru
    · refine PWConcl_keep_aux n v hvn w rest acc s hinv hvass hdlvl hvq
        hwsr hwss haccr haccs hacc ?_
        (processWatchers_cons_sat v s w rest hsat) ih
      rcases hsat with h | h
      · exact Or.inl ⟨0, by omega, h⟩
      · exact Or.inl ⟨1, by omega, h⟩
    · by_cases hcond1 : v = ((s.clauseAt w.clauseIdx).get 0).index
          ∧ s.value ((s.clauseAt w.clauseIdx).get 0) = Tribool.fls
      · by_cases hnw : s.newWatchIndex (s.clauseAt w.clauseIdx)
            = (s.clauseAt w.clauseIdx).size
        · by_cases hunk : s.value ((s.clauseAt w.clauseIdx).get 1) = Tribool.unk
          · exact PWConcl_unit_aux n v hvn w rest acc s hinv hvass hdlvl hvq
              hwsr hwss haccr haccs hacc 0 1 (Or.inl ⟨rfl, rfl⟩)
              hcond1.1.symm hcond1.2 hunk hnw
              (processWatchers_cons_unit0 v s w rest hsat hcond1 hnw hunk) ih
          · exact PWConcl_conflict n v w rest acc s hinv hvn hvass hdlvl hvq
              hciw hsz2w haccr hwsr 0 1 (Or.inl ⟨rfl, rfl⟩) hcond1.1.symm
              hcond1.2 hunk hnw
              (processWatchers_cons_conflict0 v s w rest hsat hcond1 hnw hunk)
        · exact PWConcl_swap_aux n v hvn w rest acc s hinv hvass hdlvl hvq
            hwsr hwss haccr haccs hacc 0 1 (Or.inl ⟨rfl, rfl⟩)
            hcond1.1.symm hsat hnw
            (processWatchers_cons_swap0 v s w rest hsat hcond1 hnw) ih
      · by_cases hcond2 : v = ((s.clauseAt w.clauseIdx).get 1).index
            ∧ s.value ((s.clauseAt w.clauseIdx).get 1) = Tribool.fls
        · by_cases hnw : s.newWatchIndex (s.clauseAt w.clauseIdx)
              = (s.clauseAt w.clauseIdx).size
          · by_cases hunk : s.value ((s.clauseAt w.clauseIdx).get 0)
                = Tribool.unk
            · exact PWConcl_unit_aux n v hvn w rest acc s hinv hvass hdlvl hvq
                hwsr hwss haccr haccs hacc 1 0 (Or.inr ⟨rfl, rfl⟩)
                hcond2.1.symm hcond2.2 hunk hnw
                (processWatchers_cons_unit1 v s w rest hsat hcond1 hcond2
                  hnw hunk) ih
            · exact PWConcl_conflict n v w rest acc s hinv hvn hvass hdlvl hvq
                hciw hsz2w haccr hwsr 1 0 (Or.inr ⟨rfl, rfl⟩) hcond2.1.symm
                hcond2.2 hunk hnw
                (processWatchers_cons_conflict1 v s w rest hsat hcond1 hcond2
                  hnw hunk)
          · exact PWConcl_swap_aux n v hvn w rest acc s hinv hvass hdlvl hvq
              hwsr hwss haccr haccs hacc 1 0 (Or.inr ⟨rfl, rfl⟩)
              hcond2.1.symm hsat hnw
              (processWatchers_cons_swap1 v s w rest hsat hcond1 hcond2 hnw) ih
        · refine PWConcl_keep_aux n v hvn w rest acc s hinv hvass hdlvl hvq
            hwsr hwss haccr haccs hacc ?_
            (processWatchers_cons_skip v s w rest hsat hcond1 hcond2) ih
          refine Or.inr ?_
          intro i hi hiv
          have hine : s.value ((s.clauseAt w.clauseIdx).get i) ≠ Tribool.unk := by
            apply value_ne_unk_of_assigned
            rw [hiv]
            exact hvass
          have hintr : s.value ((s.clauseAt w.clauseIdx).get i) ≠ Tribool.tru := by
            intro h
            interval_cases i
            · exact hsat (Or.inl h)
            · exact hsat (Or.inr h)
          have hifls : s.value ((s.clauseAt w.clauseIdx).get i) = Tribool.fls := by
            rcases hv : s.value ((s.clauseAt w.clauseIdx).get i) with _ | _ | _
            · rfl
            · exact absurd hv hintr
            · exact absurd hv hine
          interval_cases i
          · exact hcond1 ⟨hiv.symm, hifls⟩
          · exact hcond2 ⟨hiv.symm, hifls⟩

/-- Popping the head of the propagation queue preserves the health
invariant. -/
theorem solverInv_pop_queue (s : Solver) (n : Nat) (v : Nat)
    (qrest : List Nat) (hq : s.mQueue = v :: qrest) (hinv : solverInv s n) :
    solverInv { s with mQueue := qrest } n := by
  obtain ⟨⟨⟨hL1, hL2, hL3, hL4, hL5, hv0, hwf, hsc, htr1, hql, hrs, hcv,
    hact, hwr, hqnd⟩, hic⟩, hstrict⟩ := hinv
  refine ⟨⟨⟨hL1, hL2, hL3, hL4, hL5, hv0, hwf, hsc, htr1, ?_, hrs, hcv,
    hact, hwr, ?_⟩, hic⟩, hstrict⟩
  · intro u hu
    refine hql u ?_
    rw [hq]
    exact List.mem_cons_of_mem _ hu
  · rw [hq] at hqnd
    exact hqnd.of_cons

/-- One queue pop of `Solver::propagate`, written through `PWOut`. -/
theorem propagateLoop_succ (s : Solver) (fuel : Nat) (v : Nat)
    (qrest : List Nat) (hq : s.mQueue = v :: qrest) :
    s.propagateLoop (fuel + 1)
      = (match (Solver.processWatchers v { s with mQueue := qrest }
          (({ s with mQueue := qrest } : Solver).mWatches.getD v [])).2.2 with
         | some c => some
             (PWOut v (({ s with mQueue := qrest } : Solver).mWatches.getD v [])
               [] { s with mQueue := qrest }, some c)
         | none => Solver.propagateLoop
             (PWOut v (({ s with mQueue := qrest } : Solver).mWatches.getD v [])
               [] { s with mQueue := qrest }) fuel) := by
  simp only [Solver.propagateLoop]
  rw [hq]
  rfl

/-- A clause healthy in the full state is healthy at the start of its
variable's watcher walk (the queue head restored, the untouched list re-set
over itself). -/
theorem goodClause_to_goodIn (s : Solver) (v : Nat) (qrest : List Nat)
    (hq : s.mQueue = v :: qrest) (hvlen : v < s.mWatches.length)
    (ci : Nat) (hgc : goodClause s ci) :
    goodIn v (s.mWatches.getD v []) [] { s with mQueue := qrest } ci := by
  intro _
  obtain ⟨hwt, hvi, hw0⟩ := hgc
  have hWset : s.mWatches.set v (s.mWatches.getD v []) = s.mWatches :=
    set_getD_self_eq _ _ _ hvlen
  have hpend : ∀ u : Nat, pendingEntry s ci u →
      pendingEntry (midQ { s with mQueue := qrest } v (s.mWatches.getD v []))
        ci u := by
    intro u hp
    obtain ⟨hqm, w', hw', hwc⟩ := hp
    refine ⟨?_, w', ?_, hwc⟩
    · show u ∈ v :: qrest
      rw [← hq]
      exact hqm
    · show w' ∈ (s.mWatches.set v ([] ++ s.mWatches.getD v [])).getD u []
      rw [show s.mWatches.set v ([] ++ s.mWatches.getD v []) = s.mWatches
        from hWset]
      exact hw'
  refine ⟨?_, ?_, ?_⟩
  · refine (watched_congr s
      (midW { s with mQueue := qrest } v ([] ++ s.mWatches.getD v [])) ci
      rfl ?_).mpr hwt
    show s.mWatches.set v ([] ++ s.mWatches.getD v []) = s.mWatches
    exact hWset
  · intro hf0 hf1
    rcases hvi hf0 hf1 with hp | hp
    · exact Or.inl (hpend _ hp)
    · exact Or.inr (hpend _ hp)
  · intro i hi hfls hlvl0
    rcases hw0 i hi hfls hlvl0 with ⟨x, hx, hrx⟩ | hp
    · exact Or.inl ⟨x, hx, hrx.1, hrx.2⟩
    · exact Or.inr (hpend _ hp)

/-- Correctness of `Solver::propagate`: under the health invariant the loop
preserves it, leaves the search bookkeeping and clause shapes intact,
empties the queue, and either keeps every healthy clause healthy (no
conflict) or reports a sane conflict clause while retaining the
registration counts, a current-level watch on every doubly-false clause,
and root-true backing behind any root-level false watch. -/
theorem propagateLoop_spec (n : Nat) :
    ∀ (fuel : Nat) (s : Solver),
    solverInv s n → watchNorm s →
    ∀ (s' : Solver) (r : Option Nat),
    s.propagateLoop fuel = some (s', r) →
    solverInv s' n ∧ watchNorm s'
    ∧ s'.mClauses.length = s.mClauses.length
    ∧ s'.mDecisions = s.mDecisions
    ∧ s'.mTrailIndices = s.mTrailIndices
    ∧ (∀ ci, (s'.clauseAt ci).size = (s.clauseAt ci).size)
    ∧ (∀ ci x, x ∈ (s'.clauseAt ci).mLiterals ↔ x ∈ (s.clauseAt ci).mLiterals)
    ∧ (∀ ci, (s.clauseAt ci).size < 2 → s'.clauseAt ci = s.clauseAt ci)
    ∧ (∀ u, s.varState u ≠ Tribool.unk →
        s'.varState u = s.varState u
        ∧ s'.mAssignedAtLevel.getD u 0 = s.mAssignedAtLevel.getD u 0)
    ∧ s'.mQueue = []
    ∧ (match r with
       | none => ∀ ci, 2 ≤ (s.clauseAt ci).size → goodClause s ci
           → goodClause s' ci
       | some c₀ =>
           conflictClauseSane s' c₀
           ∧ (∀ ci, 2 ≤ (s.clauseAt ci).size → goodClause s ci →
               watched s' ci
               ∧ (s'.value ((s'.clauseAt ci).get 0) = Tribool.fls →
                  s'.value ((s'.clauseAt ci).get 1) = Tribool.fls →
                  ∃ i, i ≤ 1
                    ∧ s'.varState ((s'.clauseAt ci).get i).index ≠ Tribool.unk
                    ∧ s'.mAssignedAtLevel.getD ((s'.clauseAt ci).get i).index 0
                        = s'.decisionLevel)
               ∧ (1 ≤ s'.decisionLevel → ∀ i, i ≤ 1 →
                  s'.value ((s'.clauseAt ci).get i) = Tribool.fls →
                  s'.mAssignedAtLevel.getD ((s'.clauseAt ci).get i).index 0 = 0 →
                  ∃ lit ∈ (s'.clauseAt ci).mLiterals, rootTrue s' lit))) := by
  intro fuel
  induction fuel with
  | zero =>
    intro s hinv hwn s' r hres
    unfold Solver.propagateLoop at hres
    by_cases hq : s.mQueue = []
    · rw [if_pos hq] at hres
      have hinj := Option.some.inj hres
      have hs' : s' = s := (congrArg Prod.fst hinj).symm
      have hr : r = none := (congrArg Prod.snd hinj).symm
      subst hs'
      subst hr
      exact ⟨hinv, hwn, rfl, rfl, rfl, fun ci => rfl, fun ci x => Iff.rfl,
        fun ci _ => rfl, fun u _ => ⟨rfl, rfl⟩, hq, fun ci _ h => h⟩
    · rw [if_neg hq] at hres
      exact absurd hres (by simp)
  | succ fuel ih =>
    intro s hinv hwn s' r hres
    rcases hq : s.mQueue with _ | ⟨v, qrest⟩
    · have heq : s.propagateLoop (fuel + 1) = some (s, none) := by
        simp only [Solver.propagateLoop]
        rw [hq]
      rw [heq] at hres
      have hinj := Option.some.inj hres
      have hs' : s' = s := (congrArg Prod.fst hinj).symm
      have hr : r = none := (congrArg Prod.snd hinj).symm
      subst hs'
      subst hr
      exact ⟨hinv, hwn, rfl, rfl, rfl, fun ci => rfl, fun ci x => Iff.rfl,
        fun ci _ => rfl, fun u _ => ⟨rfl, rfl⟩, hq, fun ci _ h => h⟩
    · rw [propagateLoop_succ s fuel v qrest hq] at hres
      have hql := hinv.1.1.2.2.2.2.2.2.2.2.2.1
      have hvmem : v ∈ s.mQueue := by
        rw [hq]
        exact List.mem_cons_self _ _
      have hvn : v ≤ n := (hql v hvmem).1
      have hdlv : s.mAssignedAtLevel.getD v 0 = s.decisionLevel :=
        (hql v hvmem).2
      have hvass : s.varState v ≠ Tribool.unk := by
        intro hu
        have hvlt : v < s.mVariableState.length := by
          have := hinv.1.1.1
          omega
        have h1 := ((hinv.1.1.2.2.2.2.2.2.2.1).1 v hvlt).mp hu
        have h2 := hdlv
        have h3 : (0 : Int) ≤ s.decisionLevel := by
          unfold Solver.decisionLevel
          omega
        rw [h1.1] at h2
        omega
      have hL2 : s.mWatches.length = n + 1 := hinv.1.1.2.1
      have hvlen : v < s.mWatches.length := by omega
      have hinv₁ : solverInv { s with mQueue := qrest } n :=
        solverInv_pop_queue s n v qrest hq hinv
      have hvq₁ : v ∉ ({ s with mQueue := qrest } : Solver).mQueue := by
        have hnd := hinv.1.1.2.2.2.2.2.2.2.2.2.2.2.2.2.2
        rw [hq] at hnd
        exact (List.nodup_cons.mp hnd).1
      have hwsr₁ : ∀ w' ∈ ({ s with mQueue := qrest } : Solver).mWatches.getD
          v [], w'.clauseIdx
          < ({ s with mQueue := qrest } : Solver).mClauses.length := by
        intro w' hw'
        exact hinv.1.1.2.2.2.2.2.2.2.2.2.2.2.2.2.1 _ (getD_mem _ _ _ hvlen) w' hw'
      have hwss₁ : ∀ w' ∈ ({ s with mQueue := qrest } : Solver).mWatches.getD
          v [], 2 ≤ (({ s with mQueue := qrest } : Solver).clauseAt
            w'.clauseIdx).size := by
        intro w' hw'
        exact hwn _ (getD_mem _ _ _ hvlen) w' hw'
      have hconcl := processWatchers_spec n v hvn
        (({ s with mQueue := qrest } : Solver).mWatches.getD v []) []
        { s with mQueue := qrest } hinv₁ hvass hdlv hvq₁ hwsr₁ hwss₁
        (fun w' h => absurd h (List.not_mem_nil w'))
        (fun w' h => absurd h (List.not_mem_nil w'))
        (fun w' h => absurd h (List.not_mem_nil w'))
      unfold PWConcl at hconcl
      obtain ⟨hI2, hcl2, hdec2, hti2, hsize2, hmem2, hsmall2, hvsf2, hwnc2,
        hmatch2⟩ := hconcl
      have hwn2 : watchNorm (PWOut v
          (({ s with mQueue := qrest } : Solver).mWatches.getD v []) []
          { s with mQueue := qrest }) :=
        hwnc2 hwn hwss₁ (fun w' h => absurd h (List.not_mem_nil w'))
      have hgood2 : ∀ ci, 2 ≤ (s.clauseAt ci).size → goodClause s ci →
          goodIn v (({ s with mQueue := qrest } : Solver).mWatches.getD v [])
            [] { s with mQueue := qrest } ci := by
        intro ci _ hgc
        exact goodClause_to_goodIn s v qrest hq hvlen ci hgc
      rcases hr2 : (Solver.processWatchers v { s with mQueue := qrest }
          (({ s with mQueue := qrest } : Solver).mWatches.getD v [])).2.2
          with _ | c₀
      · rw [hr2] at hres hmatch2
        have hres' : Solver.propagateLoop (PWOut v
            (({ s with mQueue := qrest } : Solver).mWatches.getD v []) []
            { s with mQueue := qrest }) fuel = some (s', r) := hres
        have hmatch2' : ∀ ci, goodIn v
            (({ s with mQueue := qrest } : Solver).mWatches.getD v []) []
            { s with mQueue := qrest } ci
            → 2 ≤ (({ s with mQueue := qrest } : Solver).clauseAt ci).size
            → goodClause (PWOut v
              (({ s with mQueue := qrest } : Solver).mWatches.getD v []) []
              { s with mQueue := qrest }) ci := hmatch2
        obtain ⟨jI, jwn, jcl, jdec, jti, jsize, jmem, jsmall, jvsf, jq,
          jmatch⟩ := ih _ hI2 hwn2 s' r hres'
        refine ⟨jI, jwn, jcl.trans hcl2, jdec.trans hdec2, jti.trans hti2,
          fun ci => (jsize ci).trans (hsize2 ci),
          fun ci x => (jmem ci x).trans (hmem2 ci x), ?_, ?_, jq, ?_⟩
        · intro ci hlt
          refine (jsmall ci ?_).trans (hsmall2 ci hlt)
          rw [hsize2 ci]
          exact hlt
        · intro u hu
          have hf := hvsf2 u hu
          have hu2 : (PWOut v
              (({ s with mQueue := qrest } : Solver).mWatches.getD v []) []
              { s with mQueue := qrest }).varState u ≠ Tribool.unk := by
            rw [hf.1]
            exact hu
          have hg := jvsf u hu2
          exact ⟨hg.1.trans hf.1, hg.2.trans hf.2⟩
        · rcases r with _ | c₁
          · intro ci hsz hgc
            refine jmatch ci ?_ (hmatch2' ci (hgood2 ci hsz hgc) hsz)
            rw [hsize2 ci]
            exact hsz
          · obtain ⟨jcs, jcls⟩ := jmatch
            refine ⟨jcs, ?_⟩
            intro ci hsz hgc
            refine jcls ci ?_ (hmatch2' ci (hgood2 ci hsz hgc) hsz)
            rw [hsize2 ci]
            exact hsz
      · rw [hr2] at hres hmatch2
        have hres' : some (PWOut v
            (({ s with mQueue := qrest } : Solver).mWatches.getD v []) []
            { s with mQueue := qrest }, some c₀) = some (s', r) := hres
        have hinj := Option.some.inj hres'
        have hs' : s' = PWOut v
            (({ s with mQueue := qrest } : Solver).mWatches.getD v []) []
            { s with mQueue := qrest } := (congrArg Prod.fst hinj).symm
        have hr : r = some c₀ := (congrArg Prod.snd hinj).symm
        subst hs'
        subst hr
        have hmatch2' : (PWOut v
              (({ s with mQueue := qrest } : Solver).mWatches.getD v []) []
              { s with mQueue := qrest }).mQueue = []
            ∧ conflictClauseSane (PWOut v
              (({ s with mQueue := qrest } : Solver).mWatches.getD v []) []
              { s with mQueue := qrest }) c₀
            ∧ _ := hmatch2
        obtain ⟨hq2, hcs2, hcls2⟩ := hmatch2'
        refine ⟨hI2, hwn2, hcl2, hdec2, hti2, hsize2, hmem2, hsmall2, hvsf2,
          hq2, hcs2, ?_⟩
        intro ci hsz hgc
        exact hcls2 ci (hgood2 ci hsz hgc) hsz

theorem undo_foldl_fields : ∀ (ls : List Literal) (t : Solver),
    (ls.foldl (fun st l => st.undoAssignment l.index) t).mClauses = t.mClauses
    ∧ (ls.foldl (fun st l => st.undoAssignment l.index) t).mWatches = t.mWatches
    ∧ (ls.foldl (fun st l => st.undoAssignment l.index) t).mQueue = t.mQueue
    ∧ (ls.foldl (fun st l => st.undoAssignment l.index) t).mActivity = t.mActivity
    ∧ (ls.foldl (fun st l => st.undoAssignment l.index) t).mTrail = t.mTrail
    ∧ (ls.foldl (fun st l => st.undoAssignment l.index) t).mTrailIndices
        = t.mTrailIndices
    ∧ (ls.foldl (fun st l => st.undoAssignment l.index) t).mDecisions
        = t.mDecisions
    ∧ (ls.foldl (fun st l => st.undoAssignment l.index) t).mVariableState.length
        = t.mVariableState.length
    ∧ (ls.foldl (fun st l => st.undoAssignment l.index) t).mAssignedAtLevel.length
        = t.mAssignedAtLevel.length
    ∧ (ls.foldl (fun st l => st.undoAssignment l.index) t).mImplications.length
        = t.mImplications.length := by
  intro ls
  induction ls with
  | nil => intro t; exact ⟨rfl, rfl, rfl, rfl, rfl, rfl, rfl, rfl, rfl, rfl⟩
  | cons l rest ih =>
    intro t
    have hstep : (l :: rest).foldl (fun st l' => st.undoAssignment l'.index) t
        = rest.foldl (fun st l' => st.undoAssignment l'.index)
          (t.undoAssignment l.index) := rfl
    rw [hstep]
    obtain ⟨h1, h2, h3, h4, h5, h6, h7, h8, h9, h10⟩ := ih (t.undoAssignment l.index)
    refine ⟨h1, h2, h3, h4, h5, h6, h7, ?_, ?_, ?_⟩
    · rw [h8]
      show (t.mVariableState.set l.index Tribool.unk).length = _
      rw [List.length_set]
    · rw [h9]
      show (t.mAssignedAtLevel.set l.index UnknownIndex).length = _
      rw [List.length_set]
    · rw [h10]
      show (t.mImplications.set l.index UnknownIndex).length = _
      rw [List.length_set]

theorem popDecision_fields (s : Solver) :
    s.popDecision.mClauses = s.mClauses
    ∧ s.popDecision.mWatches = s.mWatches
    ∧ s.popDecision.mQueue = s.mQueue
    ∧ s.popDecision.mActivity = s.mActivity
    ∧ s.popDecision.mTrail = s.mTrail.take (s.mTrailIndices.getLastD 0)
    ∧ s.popDecision.mTrailIndices = s.mTrailIndices.dropLast
    ∧ s.popDecision.mDecisions = s.mDecisions.dropLast
    ∧ s.popDecision.mVariableState.length = s.mVariableState.length
    ∧ s.popDecision.mAssignedAtLevel.length = s.mAssignedAtLevel.length
    ∧ s.popDecision.mImplications.length = s.mImplications.length := by
  obtain ⟨h1, h2, h3, h4, h5, h6, h7, h8, h9, h10⟩ :=
    undo_foldl_fields (s.mTrail.drop (s.mTrailIndices.getLastD 0))
      { s with mTrailIndices := s.mTrailIndices.dropLast }
  exact ⟨h1, h2, h3, h4,
    congrArg (List.take (s.mTrailIndices.getLastD 0)) h5, h6,
    congrArg List.dropLast h7, h8, h9, h10⟩

/-- `popDecision` on a healthy state with an empty queue and at least one
decision preserves the full health invariant and lowers the decision level
by one. -/
theorem popDecision_solverInv (s : Solver) (n : Nat)
    (hinv : solverInv s n) (hq : s.mQueue = [])
    (hd : 1 ≤ s.decisionLevel) :
    solverInv s.popDecision n
    ∧ s.popDecision.decisionLevel = s.decisionLevel - 1 := by
  obtain ⟨hpre, hic⟩ := hinv.1
  have hstrict := hinv.2
  obtain ⟨hL1, hL2, hL3, hL4, hL5, hv0, hwf, hsc, htr1, hql, hrs, hcv,
    hact, hwr, hqnd⟩ := hpre
  obtain ⟨hwf', hdl', hlenvs, hvars'⟩ := popDecision_spec s hwf hd
  have hnd' := hwf'.2.2.2.2.2.1
  have hrange' := hwf'.2.2.2.2.2.2.1
  have hposlvl' := hwf'.2.2.2.2.2.2.2.1
  obtain ⟨hlen1, hlen2, hlen3, hpair, hbound, hnd, hrange, hposlvl, hmemlvl,
    hlvlbound⟩ := hwf
  obtain ⟨hF1, hF2, hF3, hF4, hF5, hF6, hF7, hF8, hF9, hF10⟩ :=
    popDecision_fields s
  have hdlen : 1 ≤ s.mDecisions.length := by
    unfold Solver.decisionLevel at hd
    omega
  have hmne : s.mTrailIndices ≠ [] := by
    intro h
    rw [h] at hlen3
    simp at hlen3
    omega
  obtain ⟨A, k₀, hmarks⟩ : ∃ A k₀, s.mTrailIndices = A ++ [k₀] := by
    rcases List.eq_nil_or_concat s.mTrailIndices with h | ⟨A, b, h⟩
    · exact absurd h hmne
    · exact ⟨A, b, by rw [h, List.concat_eq_append]⟩
  have hk : s.mTrailIndices.getLastD 0 = k₀ := by
    rw [hmarks]
    exact List.getLastD_concat ..
  have hkle : k₀ ≤ s.mTrail.length := by
    refine hbound k₀ ?_
    rw [hmarks]
    exact List.mem_append_right _ (List.mem_singleton.mpr rfl)
  have hAlt : ∀ m ∈ A, m < k₀ := by
    have hp2 := hpair
    rw [hmarks, List.pairwise_append] at hp2
    exact fun m hm => hp2.2.2 m hm k₀ (List.mem_singleton.mpr rfl)
  have hlom := fun p => levelOfPos_last_mark s A k₀ hmarks hpair hlen3 p
  have hT : s.popDecision.mTrail = s.mTrail.take k₀ := by rw [hF5, hk]
  have hTlen : s.popDecision.mTrail.length = k₀ := by
    rw [hT, List.length_take]
    omega
  have hunk_lvl : ∀ v, v < s.mVariableState.length →
      s.popDecision.varState v = Tribool.unk →
      s.popDecision.mAssignedAtLevel.getD v 0 = -1 := by
    intro v hv hu
    by_cases hlevd : s.mAssignedAtLevel.getD v 0 = s.decisionLevel
    · exact ((hvars' v hv).1 hlevd).2.1
    · obtain ⟨c1, c2, c3⟩ := (hvars' v hv).2 hlevd
      rw [c2]
      rw [c1] at hu
      exact ((hsc.1 v hv).mp hu).1
  have hass_trail : ∀ v, v < s.mVariableState.length →
      s.popDecision.varState v ≠ Tribool.unk →
      ∃ p, p < k₀ ∧ (s.mTrail.getD p (Literal.mk 1)).index = v := by
    intro v hv hass
    by_cases hlevd : s.mAssignedAtLevel.getD v 0 = s.decisionLevel
    · exact absurd ((hvars' v hv).1 hlevd).1 hass
    · obtain ⟨c1, c2, c3⟩ := (hvars' v hv).2 hlevd
      have hassv : s.varState v ≠ Tribool.unk := by
        rw [← c1]
        exact hass
      obtain ⟨p, hp, hpe⟩ := assigned_mem_trail s hsc hnd hrange v hv hassv
      have hpk : p < k₀ := by
        by_contra hik
        have h1 := hposlvl p hp
        rw [hpe] at h1
        have h2 := (hlom p).1 (by omega)
        omega
      exact ⟨p, hpk, hpe⟩
  have hTeq : ∀ p, p < k₀ → s.popDecision.mTrail.getD p (Literal.mk 1)
      = s.mTrail.getD p (Literal.mk 1) := by
    intro p hpk
    rw [hT]
    exact getD_take _ _ _ _ hpk
  have hlevnn : ∀ p, (0 : Int) ≤ s.popDecision.levelOfPos p := by
    intro p
    unfold Solver.levelOfPos
    omega
  have hsc' : stateConsistent s.popDecision := by
    refine ⟨?_, ?_, ?_⟩
    · intro v hv
      have hv2 : v < s.mVariableState.length := by
        rw [← hlenvs]
        exact hv
      constructor
      · intro hu
        refine ⟨hunk_lvl v hv2 hu, ?_⟩
        intro l hl he
        obtain ⟨p, hp, hpe⟩ :=
          (mem_iff_getD s.popDecision.mTrail l (Literal.mk 1)).mp hl
        have h1 := hposlvl' p hp
        rw [hpe, he] at h1
        have h2 := hlevnn p
        have h3 := hunk_lvl v hv2 hu
        omega
      · rintro ⟨hlv, hoff⟩
        by_contra hass
        obtain ⟨p, hpk, hpe⟩ := hass_trail v hv2 hass
        have hmem : s.mTrail.getD p (Literal.mk 1) ∈ s.popDecision.mTrail := by
          rw [← hTeq p hpk]
          exact getD_mem _ _ _ (by rw [hTlen]; exact hpk)
        exact hoff _ hmem hpe
    · intro l hl
      obtain ⟨p, hp, hpe⟩ :=
        (mem_iff_getD s.popDecision.mTrail l (Literal.mk 1)).mp hl
      have h1 := hposlvl' p hp
      rw [hpe] at h1
      have h2 := hlevnn p
      have hlidx : l.index < s.popDecision.mVariableState.length :=
        hrange' l hl
      have hbd : l.index < s.popDecision.mAssignedAtLevel.length := by
        rw [hF9, ← hF8, hL3, ← hL1] at *
        omega
      rw [getD_irrel s.popDecision.mAssignedAtLevel l.index (-1) 0 hbd]
      omega
    · have hle1 : s.popDecision.mTrail.length
          ≤ s.popDecision.mVariableState.countP
            (fun tb => decide (tb ≠ Tribool.unk)) := by
        have hsubR : ∀ i ∈ s.popDecision.mTrail.map Literal.index,
            i < s.popDecision.mVariableState.length := by
          intro i hi
          obtain ⟨l, hl, hlv⟩ := List.mem_map.mp hi
          exact hlv ▸ hrange' l hl
        have hPR : ∀ i ∈ s.popDecision.mTrail.map Literal.index,
            (fun tb => decide (tb ≠ Tribool.unk))
              (s.popDecision.mVariableState.getD i Tribool.unk) = true := by
          intro i hi
          obtain ⟨l, hl, hlv⟩ := List.mem_map.mp hi
          obtain ⟨p, hp, hpe⟩ :=
            (mem_iff_getD s.popDecision.mTrail l (Literal.mk 1)).mp hl
          have h1 := hposlvl' p hp
          rw [hpe, hlv] at h1
          have h2 := hlevnn p
          simp only [decide_eq_true_eq]
          intro hcon
          have hiv : i < s.mVariableState.length := by
            rw [← hlenvs]
            exact hlv ▸ hrange' l hl
          have h3 := hunk_lvl i hiv hcon
          omega
        have hstep := length_le_countP_of_positions
          s.popDecision.mVariableState (fun tb => decide (tb ≠ Tribool.unk))
          Tribool.unk (s.popDecision.mTrail.map Literal.index) hnd' hsubR hPR
        rw [List.length_map] at hstep
        exact hstep
      have hle2 : s.popDecision.mVariableState.countP
            (fun tb => decide (tb ≠ Tribool.unk))
          ≤ s.popDecision.mTrail.length := by
        rw [countP_eq_countP_range s.popDecision.mVariableState
          (fun tb => decide (tb ≠ Tribool.unk)) Tribool.unk]
        rw [List.countP_eq_length_filter]
        have hndf : ((List.range s.popDecision.mVariableState.length).filter
            (fun i => decide
              (s.popDecision.mVariableState.getD i Tribool.unk
                ≠ Tribool.unk))).Nodup :=
          List.Nodup.filter _ (List.nodup_range _)
        have hsubset : ((List.range s.popDecision.mVariableState.length).filter
            (fun i => decide
              (s.popDecision.mVariableState.getD i Tribool.unk ≠ Tribool.unk)))
            ⊆ s.popDecision.mTrail.map Literal.index := by
          intro v hvf
          have hvr := List.mem_filter.mp hvf
          have hv2 : v < s.popDecision.mVariableState.length :=
            List.mem_range.mp hvr.1
          have hass : s.popDecision.varState v ≠ Tribool.unk :=
            of_decide_eq_true hvr.2
          have hv3 : v < s.mVariableState.length := by
            rw [← hlenvs]
            exact hv2
          obtain ⟨p, hpk, hpe⟩ := hass_trail v hv3 hass
          refine List.mem_map.mpr
            ⟨s.popDecision.mTrail.getD p (Literal.mk 1), ?_, ?_⟩
          · exact getD_mem _ _ _ (by rw [hTlen]; exact hpk)
          · rw [hTeq p hpk]
            exact hpe
        have hsp := List.subperm_of_subset hndf hsubset
        have hlen := hsp.length_le
        rw [List.length_map] at hlen
        exact hlen
      omega
  have hrs' : reasonsSane s.popDecision := by
    intro p hp himp
    have hpk : p < k₀ := by
      rw [hTlen] at hp
      exact hp
    rw [hTeq p hpk] at himp ⊢
    have hpd : p < s.mTrail.length := by omega
    have hvlt : (s.mTrail.getD p (Literal.mk 1)).index < s.mVariableState.length :=
      hrange _ (getD_mem _ _ _ hpd)
    have hlvlne : s.mAssignedAtLevel.getD (s.mTrail.getD p (Literal.mk 1)).index 0
        ≠ s.decisionLevel := by
      rw [hposlvl p hpd]
      have h2 := (hlom p).2 hpk
      omega
    have c3 := ((hvars' _ hvlt).2 hlvlne).2.2
    rw [c3] at himp ⊢
    rw [hF1]
    obtain ⟨ha, hb⟩ := hrs p hpd himp
    refine ⟨ha, ?_⟩
    intro cl hcl hclne
    obtain ⟨q, hq2, hqe⟩ := hb cl hcl hclne
    refine ⟨q, hq2, ?_⟩
    rw [hTeq q (by omega)]
    exact hqe
  have hic' : ∀ v, s.popDecision.varState v = Tribool.unk →
      s.popDecision.mImplications.getD v (-1) = -1 := by
    intro v hu
    by_cases hv : v < s.mVariableState.length
    · by_cases hlevd : s.mAssignedAtLevel.getD v 0 = s.decisionLevel
      · exact ((hvars' v hv).1 hlevd).2.2
      · obtain ⟨c1, c2, c3⟩ := (hvars' v hv).2 hlevd
        rw [c3]
        rw [c1] at hu
        exact hic v hu
    · refine getD_oob _ _ _ ?_
      rw [hF10, hL4, ← hL1]
      omega
  have hstrict' : ∀ k ∈ s.popDecision.mTrailIndices,
      k < s.popDecision.mTrail.length := by
    intro k hk
    rw [hF6, hmarks, List.dropLast_concat] at hk
    rw [hTlen]
    exact hAlt k hk
  have hv0' : s.popDecision.varState 0 = Tribool.unk := by
    have h0lt : 0 < s.mVariableState.length := by omega
    have hlev0 : s.mAssignedAtLevel.getD 0 0 = -1 := ((hsc.1 0 h0lt).mp hv0).1
    have hne : s.mAssignedAtLevel.getD 0 0 ≠ s.decisionLevel := by omega
    rw [((hvars' 0 h0lt).2 hne).1]
    exact hv0
  have htr1' : ∀ l ∈ s.popDecision.mTrail, 1 ≤ l.index := by
    intro l hl
    rw [hT] at hl
    exact htr1 l (List.take_subset _ _ hl)
  have hql' : ∀ u ∈ s.popDecision.mQueue, u ≤ n
      ∧ s.popDecision.mAssignedAtLevel.getD u 0 = s.popDecision.decisionLevel := by
    intro u hu
    rw [hF3, hq] at hu
    exact absurd hu (List.not_mem_nil u)
  have hqnd' : s.popDecision.mQueue.Nodup := by
    rw [hF3, hq]
    exact List.nodup_nil
  have hcv' : ∀ c ∈ s.popDecision.mClauses, ∀ lit ∈ c.mLiterals,
      1 ≤ lit.index ∧ lit.index ≤ n := by
    rw [hF1]
    exact hcv
  have hact' : ∀ v, v ≤ n → 0 < s.popDecision.mActivity.getD v 0 := by
    rw [hF4]
    exact hact
  have hwr' : ∀ L ∈ s.popDecision.mWatches, ∀ w ∈ L,
      w.clauseIdx < s.popDecision.mClauses.length := by
    rw [hF2, hF1]
    exact hwr
  refine ⟨⟨⟨⟨?_, ?_, ?_, ?_, ?_, hv0', hwf', hsc', htr1', hql', hrs', hcv',
    hact', hwr', hqnd'⟩, hic'⟩, hstrict'⟩, hdl'⟩
  · rw [hF8]
    exact hL1
  · rw [hF2]
    exact hL2
  · rw [hF9]
    exact hL3
  · rw [hF10]
    exact hL4
  · rw [hF4]
    exact hL5

/-- Iterating `popDecision` preserves the health invariant, lowers the
decision level by the number of pops, and leaves the clause database,
watch lists, activities and (empty) queue unchanged. -/
theorem popDecisionTimes_solverInv (n : Nat) :
    ∀ (m : Nat) (s : Solver), solverInv s n → s.mQueue = [] →
      (m : Int) ≤ s.decisionLevel →
      solverInv (s.popDecisionTimes m) n
      ∧ (s.popDecisionTimes m).decisionLevel = s.decisionLevel - (m : Int)
      ∧ (s.popDecisionTimes m).mClauses = s.mClauses
      ∧ (s.popDecisionTimes m).mWatches = s.mWatches
      ∧ (s.popDecisionTimes m).mActivity = s.mActivity
      ∧ (s.popDecisionTimes m).mQueue = [] := by
  intro m
  induction m with
  | zero =>
    intro s hinv hq hm
    exact ⟨hinv, by show s.decisionLevel = s.decisionLevel - ((0 : Nat) : Int); simp,
      rfl, rfl, rfl, hq⟩
  | succ m ih =>
    intro s hinv hq hm
    have hmc : (m : Int) + 1 ≤ s.decisionLevel := by
      push_cast at hm
      omega
    have hd1 : 1 ≤ s.decisionLevel := by omega
    obtain ⟨hinv', hdl'⟩ := popDecision_solverInv s n hinv hq hd1
    obtain ⟨hF1, hF2, hF3, hF4, _, _, _, _, _, _⟩ := popDecision_fields s
    have hq' : s.popDecision.mQueue = [] := by
      rw [hF3]
      exact hq
    have hstep : s.popDecisionTimes (m + 1)
        = (s.popDecision).popDecisionTimes m := rfl
    rw [hstep]
    have hm' : (m : Int) ≤ s.popDecision.decisionLevel := by
      rw [hdl']
      omega
    obtain ⟨i1, i2, i3, i4, i5, i6⟩ := ih s.popDecision hinv' hq' hm'
    refine ⟨i1, ?_, i3.trans hF1, i4.trans hF2, i5.trans hF4, i6⟩
    rw [i2, hdl']
    push_cast
    omega

/-- `popDecisionUntil` to a level `0 ≤ L ≤ decisionLevel` on a healthy
state with an empty queue yields a healthy state at level `L` with the
clause database, watch lists, activities and empty queue unchanged. -/
theorem popDecisionUntil_solverInv (s : Solver) (n : Nat) (L : Int)
    (hinv : solverInv s n) (hq : s.mQueue = [])
    (hL0 : 0 ≤ L) (hLd : L ≤ s.decisionLevel) :
    solverInv (s.popDecisionUntil L) n
    ∧ (s.popDecisionUntil L).decisionLevel = L
    ∧ (s.popDecisionUntil L).mClauses = s.mClauses
    ∧ (s.popDecisionUntil L).mWatches = s.mWatches
    ∧ (s.popDecisionUntil L).mActivity = s.mActivity
    ∧ (s.popDecisionUntil L).mQueue = [] := by
  have hm : (((s.decisionLevel - L).toNat : Nat) : Int) ≤ s.decisionLevel := by
    omega
  obtain ⟨i1, i2, i3, i4, i5, i6⟩ :=
    popDecisionTimes_solverInv n (s.decisionLevel - L).toNat s hinv hq hm
  refine ⟨i1, ?_, i3, i4, i5, i6⟩
  show (s.popDecisionTimes (s.decisionLevel - L).toNat).decisionLevel = L
  rw [i2]
  omega

/-- Enqueuing a previously-unassigned variable preserves the per-clause
two-watched-literal health of every clause: the new queue entry itself
backs any watch that the assignment falsifies. -/
theorem goodClause_enqueue_general (s t : Solver) (u : Nat) (x : Tribool)
    (L : Int)
    (hC : t.mClauses = s.mClauses)
    (hW : t.mWatches = s.mWatches)
    (hQ : t.mQueue = s.mQueue ++ [u])
    (hV : t.mVariableState = s.mVariableState.set u x)
    (hA : t.mAssignedAtLevel = s.mAssignedAtLevel.set u L)
    (hunk : s.varState u = Tribool.unk)
    (ci : Nat) (hgc : goodClause s ci) : goodClause t ci := by
  have hca : ∀ k, t.clauseAt k = s.clauseAt k := by
    intro k
    unfold Solver.clauseAt
    rw [hC]
  have hvne : ∀ l : Literal, l.index ≠ u → t.value l = s.value l := by
    intro l hne
    unfold Solver.value Solver.varState
    rw [hV, getD_set_ne _ _ _ _ _ (fun h => hne h.symm)]
  have hlne : ∀ v : Nat, v ≠ u →
      t.mAssignedAtLevel.getD v 0 = s.mAssignedAtLevel.getD v 0 := by
    intro v hne
    rw [hA, getD_set_ne _ _ _ _ _ (fun h => hne h.symm)]
  have hpend : ∀ w, pendingEntry s ci w → pendingEntry t ci w := by
    rintro w ⟨hwq, hww⟩
    refine ⟨?_, ?_⟩
    · rw [hQ]
      exact List.mem_append_left _ hwq
    · rw [hW]
      exact hww
  have hpendu : (∃ w ∈ s.mWatches.getD u [], w.clauseIdx = ci) →
      pendingEntry t ci u := by
    intro hww
    refine ⟨?_, ?_⟩
    · rw [hQ]
      exact List.mem_append_right _ (List.mem_singleton.mpr rfl)
    · rw [hW]
      exact hww
  have hentry : ∀ i, i ≤ 1 → ((s.clauseAt ci).get i).index = u →
      ∃ w ∈ s.mWatches.getD u [], w.clauseIdx = ci := by
    intro i hi hiu
    have hcount := hgc.1 u
    have hpos : 0 < [(s.clauseAt ci).get 0, (s.clauseAt ci).get 1].countP
        (fun l => decide (l.index = u)) := by
      refine List.countP_pos_iff.mpr ?_
      rcases (by omega : i = 0 ∨ i = 1) with h | h
      · subst h
        exact ⟨_, List.mem_cons_self _ _, by simp [hiu]⟩
      · subst h
        exact ⟨_, List.mem_cons_of_mem _ (List.mem_cons_self _ _), by simp [hiu]⟩
    have hpos2 : 0 < (s.mWatches.getD u []).countP
        (fun w => decide (w.clauseIdx = ci)) := by omega
    obtain ⟨w, hwmem, hwp⟩ := List.countP_pos_iff.mp hpos2
    exact ⟨w, hwmem, of_decide_eq_true hwp⟩
  refine ⟨(watched_congr s t ci hC hW).mpr hgc.1, ?_, ?_⟩
  · intro h0 h1
    rw [hca ci] at h0 h1 ⊢
    by_cases hg0 : ((s.clauseAt ci).get 0).index = u
    · left
      rw [hg0]
      exact hpendu (hentry 0 (by omega) hg0)
    · by_cases hg1 : ((s.clauseAt ci).get 1).index = u
      · right
        rw [hg1]
        exact hpendu (hentry 1 (by omega) hg1)
      · rw [hvne _ hg0] at h0
        rw [hvne _ hg1] at h1
        rcases hgc.2.1 h0 h1 with hp | hp
        · exact Or.inl (hpend _ hp)
        · exact Or.inr (hpend _ hp)
  · intro i hi hf hlv
    rw [hca ci] at hf hlv ⊢
    by_cases hgi : ((s.clauseAt ci).get i).index = u
    · right
      rw [hgi]
      exact hpendu (hentry i hi hgi)
    · rw [hvne _ hgi] at hf
      rw [hlne _ hgi] at hlv
      rcases hgc.2.2 i hi hf hlv with ⟨lit, hlmem, hlrt⟩ | hp
      · left
        refine ⟨lit, hlmem, ?_⟩
        have hlitne : lit.index ≠ u := by
          intro he
          have : s.varState lit.index ≠ Tribool.unk := by
            intro hun
            have := hlrt.1
            unfold Solver.value at this
            rw [hun] at this
            simp at this
          rw [he] at this
          exact this hunk
        refine ⟨?_, ?_⟩
        · rw [hvne _ hlitne]
          exact hlrt.1
        · rw [hlne _ hlitne]
          exact hlrt.2
      · exact Or.inr (hpend _ hp)

theorem getD_concat_self {α : Type} (l : List α) (x : α) (d : α) :
    (l ++ [x]).getD l.length d = x := by
  rw [List.getD_eq_getElem?_getD, List.getElem?_append_right (Nat.le_refl _)]
  simp

/-- `stateConsistent` only reads the variable states, assignment levels and
the trail. -/
theorem stateConsistent_congr (s t : Solver)
    (hV : t.mVariableState = s.mVariableState)
    (hA : t.mAssignedAtLevel = s.mAssignedAtLevel)
    (hT : t.mTrail = s.mTrail) :
    stateConsistent t ↔ stateConsistent s := by
  unfold stateConsistent Solver.varState
  rw [hV, hA, hT]

/-- `wellFormedTrail` only reads the bookkeeping vectors. -/
theorem wellFormedTrail_congr (s t : Solver)
    (hV : t.mVariableState = s.mVariableState)
    (hA : t.mAssignedAtLevel = s.mAssignedAtLevel)
    (hI : t.mImplications = s.mImplications)
    (hT : t.mTrail = s.mTrail)
    (hTI : t.mTrailIndices = s.mTrailIndices)
    (hD : t.mDecisions = s.mDecisions) :
    wellFormedTrail t ↔ wellFormedTrail s := by
  unfold wellFormedTrail Solver.levelOfPos Solver.decisionLevel
  rw [hV, hA, hI, hT, hTI, hD]

/-- `watchNorm` only reads the clause database and the watcher lists. -/
theorem watchNorm_congr (s t : Solver)
    (hC : t.mClauses = s.mClauses)
    (hW : t.mWatches = s.mWatches) :
    watchNorm t ↔ watchNorm s := by
  unfold watchNorm Solver.clauseAt
  rw [hC, hW]

theorem foldl_max_init (f : Literal → Int) :
    ∀ (ls : List Literal) (a : Int),
      a ≤ ls.foldl (fun acc lit => max acc (f lit)) a := by
  intro ls
  induction ls with
  | nil => intro a; exact le_refl a
  | cons l rest ih =>
    intro a
    exact le_trans (le_max_left a (f l)) (ih (max a (f l)))

theorem foldl_max_mem_le (f : Literal → Int) :
    ∀ (ls : List Literal) (a : Int) (x : Literal), x ∈ ls →
      f x ≤ ls.foldl (fun acc lit => max acc (f lit)) a := by
  intro ls
  induction ls with
  | nil => intro a x hx; exact absurd hx (List.not_mem_nil x)
  | cons l rest ih =>
    intro a x hx
    rcases List.mem_cons.mp hx with h | h
    · subst h
      exact le_trans (le_max_right a (f x)) (foldl_max_init f rest _)
    · exact ih _ x h

theorem foldl_max_lt (f : Literal → Int) (D : Int) :
    ∀ (ls : List Literal) (a : Int), a < D → (∀ x ∈ ls, f x < D) →
      ls.foldl (fun acc lit => max acc (f lit)) a < D := by
  intro ls
  induction ls with
  | nil => intro a ha _; exact ha
  | cons l rest ih =>
    intro a ha hf
    refine ih _ (max_lt ha (hf l (List.mem_cons_self _ _))) ?_
    intro x hx
    exact hf x (List.mem_cons_of_mem _ hx)

theorem bumpActivities_length (nc : List Literal) :
    ∀ a : List ℚ, (Solver.bumpActivities nc a).length = a.length := by
  induction nc with
  | nil => intro a; rfl
  | cons l rest ih =>
    intro a
    show (Solver.bumpActivities rest _).length = _
    rw [ih, List.length_set]

theorem bumpActivities_ge (nc : List Literal) :
    ∀ (a : List ℚ) (v : Nat),
      a.getD v 0 ≤ (Solver.bumpActivities nc a).getD v 0 := by
  induction nc with
  | nil => intro a v; exact le_refl _
  | cons l rest ih =>
    intro a v
    have hstep : a.getD v 0 ≤ (a.set l.index (a.getD l.index 0 + 1)).getD v 0 := by
      by_cases hl : l.index < a.length
      · by_cases hv : v = l.index
        · subst hv
          rw [getD_set_self _ _ _ _ hl]
          linarith
        · rw [getD_set_ne _ _ _ _ _ (fun h => hv h.symm)]
      · rw [List.set_eq_of_length_le (by omega)]
    exact le_trans hstep (ih _ v)

/-- `appendWatch` extends each watcher list by entries equal to the new
watch (the target list gets it, every other list is unchanged). -/
theorem appendWatch_getD_ext (s : Solver) (v : Nat) (w : Watch) (u : Nat) :
    ∃ ext, (s.appendWatch v w).mWatches.getD u []
        = s.mWatches.getD u [] ++ ext
      ∧ ∀ w' ∈ ext, w' = w := by
  by_cases h : u = v
  · subst h
    by_cases hlt : u < s.mWatches.length
    · refine ⟨[w], ?_, ?_⟩
      · show (s.mWatches.set u _).getD u [] = _
        rw [getD_set_self _ _ _ _ hlt]
      · intro w' hw'
        rcases List.mem_singleton.mp hw' with h
        exact h
    · refine ⟨[], ?_, ?_⟩
      · show (s.mWatches.set u _).getD u [] = s.mWatches.getD u [] ++ []
        rw [List.append_nil, List.set_eq_of_length_le (by omega)]
      · intro w' hw'
        exact absurd hw' (List.not_mem_nil w')
  · refine ⟨[], ?_, ?_⟩
    · show (s.mWatches.set v _).getD u [] = s.mWatches.getD u [] ++ []
      rw [List.append_nil, getD_set_ne _ _ _ _ _ (fun he => h he.symm)]
    · intro w' hw'
      exact absurd hw' (List.not_mem_nil w')

/-- The activity-bump fold of `analyzeConflict` leaves every field except
the activity vector unchanged. -/
theorem bump_foldl_fields : ∀ (ls : List Literal) (t : Solver),
    (ls.foldl (fun st lit => { st with mActivity := st.mActivity.set lit.index (st.mActivity.getD lit.index 0 + 1) }) t).mClauses = t.mClauses
    ∧ (ls.foldl (fun st lit => { st with mActivity := st.mActivity.set lit.index (st.mActivity.getD lit.index 0 + 1) }) t).mWatches = t.mWatches
    ∧ (ls.foldl (fun st lit => { st with mActivity := st.mActivity.set lit.index (st.mActivity.getD lit.index 0 + 1) }) t).mVariableState
        = t.mVariableState
    ∧ (ls.foldl (fun st lit => { st with mActivity := st.mActivity.set lit.index (st.mActivity.getD lit.index 0 + 1) }) t).mAssignedAtLevel
        = t.mAssignedAtLevel
    ∧ (ls.foldl (fun st lit => { st with mActivity := st.mActivity.set lit.index (st.mActivity.getD lit.index 0 + 1) }) t).mImplications
        = t.mImplications
    ∧ (ls.foldl (fun st lit => { st with mActivity := st.mActivity.set lit.index (st.mActivity.getD lit.index 0 + 1) }) t).mTrail = t.mTrail
    ∧ (ls.foldl (fun st lit => { st with mActivity := st.mActivity.set lit.index (st.mActivity.getD lit.index 0 + 1) }) t).mTrailIndices
        = t.mTrailIndices
    ∧ (ls.foldl (fun st lit => { st with mActivity := st.mActivity.set lit.index (st.mActivity.getD lit.index 0 + 1) }) t).mDecisions = t.mDecisions
    ∧ (ls.foldl (fun st lit => { st with mActivity := st.mActivity.set lit.index (st.mActivity.getD lit.index 0 + 1) }) t).mQueue = t.mQueue := by
  intro ls
  induction ls with
  | nil => intro t; exact ⟨rfl, rfl, rfl, rfl, rfl, rfl, rfl, rfl, rfl⟩
  | cons l rest ih =>
    intro t
    exact ih _

theorem appendWatch_mWatches_length (s : Solver) (v : Nat) (w : Watch) :
    (s.appendWatch v w).mWatches.length = s.mWatches.length := by
  show (s.mWatches.set v (s.mWatches.getD v [] ++ [w])).length = _
  rw [List.length_set]

/-- `watchClause` only appends watcher entries for the given clause index;
every other field is untouched. -/
theorem watchClause_fields (s : Solver) (k : Nat) :
    (s.watchClause k).mClauses = s.mClauses
    ∧ (s.watchClause k).mVariableState = s.mVariableState
    ∧ (s.watchClause k).mAssignedAtLevel = s.mAssignedAtLevel
    ∧ (s.watchClause k).mImplications = s.mImplications
    ∧ (s.watchClause k).mTrail = s.mTrail
    ∧ (s.watchClause k).mTrailIndices = s.mTrailIndices
    ∧ (s.watchClause k).mDecisions = s.mDecisions
    ∧ (s.watchClause k).mQueue = s.mQueue
    ∧ (s.watchClause k).mActivity = s.mActivity
    ∧ (s.watchClause k).mWatches.length = s.mWatches.length
    ∧ (∀ u, ∃ ext, (s.watchClause k).mWatches.getD u []
        = s.mWatches.getD u [] ++ ext
      ∧ ∀ w' ∈ ext, w'.clauseIdx = k) := by
  simp only [Solver.watchClause]
  by_cases h : (s.mClauses.getD k (Clause.mk [] false)).size < 2
  · rw [if_pos h]
    exact ⟨rfl, rfl, rfl, rfl, rfl, rfl, rfl, rfl, rfl, rfl,
      fun u => ⟨[], by rw [List.append_nil],
        fun w' hw' => absurd hw' (List.not_mem_nil w')⟩⟩
  · rw [if_neg h]
    refine ⟨rfl, rfl, rfl, rfl, rfl, rfl, rfl, rfl, rfl, ?_, ?_⟩
    · rw [appendWatch_mWatches_length, appendWatch_mWatches_length]
    · intro u
      obtain ⟨e1, he1, hw1⟩ := appendWatch_getD_ext
        (s.appendWatch ((s.mClauses.getD k (Clause.mk [] false)).get 0).index
          (Watch.mk k ((s.mClauses.getD k (Clause.mk [] false)).get 0)))
        ((s.mClauses.getD k (Clause.mk [] false)).get 1).index
        (Watch.mk k ((s.mClauses.getD k (Clause.mk [] false)).get 1)) u
      obtain ⟨e0, he0, hw0⟩ := appendWatch_getD_ext s
        ((s.mClauses.getD k (Clause.mk [] false)).get 0).index
        (Watch.mk k ((s.mClauses.getD k (Clause.mk [] false)).get 0)) u
      refine ⟨e0 ++ e1, ?_, ?_⟩
      · rw [he1, he0, List.append_assoc]
      · intro w' hw'
        rcases List.mem_append.mp hw' with hm | hm
        · rw [hw0 w' hm]
        · rw [hw1 w' hm]

/-- The clause-append step of `analyzeConflict`, named for readability. -/
def addClause (s : Solver) (c : Clause) : Solver :=
  { s with mClauses := s.mClauses ++ [c] }

theorem concat_decomp {α : Type} (l : List α) (d : α) (h : l ≠ []) :
    l.dropLast ++ [l.getLastD d] = l := by
  rcases List.eq_nil_or_concat l with h0 | ⟨A, x, h0⟩
  · exact absurd h0 h
  · subst h0
    rw [List.concat_eq_append, List.dropLast_concat, List.getLastD_concat]

/-- The main 1-UIP correctness argument, shared between the conflict-analysis
claims and the search-loop development: a successful run of
`firstUniqueImplicationPointCut` at decision level at least 1 returns a
non-empty asserting clause whose final literal is the unique current-level
literal, with the backtrack level equal to the maximum level of the other
literals. -/
theorem fuip_spec_main (s : Solver) (ci fuel : Nat)
    (bt : Int) (nc : List Literal)
    (hwf : wellFormedTrail s)
    (hd : 1 ≤ s.decisionLevel)
    (hcs : conflictClauseSane s ci)
    (hrs : reasonsSane s)
    (hres : s.firstUniqueImplicationPointCut fuel ci = some (bt, nc)) :
    nc ≠ []
    ∧ nc.countP (fun lit =>
        decide (s.mAssignedAtLevel.getD lit.index 0 = s.decisionLevel)) = 1
    ∧ s.mAssignedAtLevel.getD (nc.getLastD (Literal.mk 1)).index 0 = s.decisionLevel
    ∧ (∀ lit ∈ nc.dropLast, 0 < s.mAssignedAtLevel.getD lit.index 0
        ∧ s.mAssignedAtLevel.getD lit.index 0 < s.decisionLevel)
    ∧ bt = maxLevelOf s nc.dropLast
    ∧ (nc.length = 1 → bt = 0) := by
  obtain ⟨hlen1, hlen2, hlen3, hpair, hbound, hnd, hrange, hposlvl, hmemlvl,
    hlvlbound⟩ := hwf
  have hmne : s.mTrailIndices ≠ [] := by
    intro h
    rw [h] at hlen3
    unfold Solver.decisionLevel at hd
    simp at hlen3
    omega
  obtain ⟨A, k, hmarks⟩ : ∃ A k, s.mTrailIndices = A ++ [k] := by
    rcases List.eq_nil_or_concat s.mTrailIndices with h | ⟨A, b, h⟩
    · exact absurd h hmne
    · exact ⟨A, b, by rw [h, List.concat_eq_append]⟩
  have hwf' : wellFormedTrail s :=
    ⟨hlen1, hlen2, hlen3, hpair, hbound, hnd, hrange, hposlvl, hmemlvl, hlvlbound⟩
  have hmem2pos : ∀ v, v < s.mVariableState.length →
      s.mAssignedAtLevel.getD v 0 ≠ -1 →
      ∃ p, p < s.mTrail.length ∧ (s.mTrail.getD p (Literal.mk 1)).index = v := by
    intro v hv hlv
    obtain ⟨l, hl, hlidx⟩ := hmemlvl v hv hlv
    obtain ⟨p, hp, hpe⟩ := List.mem_iff_getElem.mp hl
    refine ⟨p, hp, ?_⟩
    rw [List.getD_eq_getElem?_getD, List.getElem?_eq_getElem hp]
    show (s.mTrail[p]).index = v
    rw [hpe, hlidx]
  unfold Solver.firstUniqueImplicationPointCut at hres
  dsimp only at hres
  obtain ⟨hc1, hc2, hc3⟩ := hcs
  have hmain := fuipLoop_spec s A k hwf' hmarks hrs fuel _ _ bt nc
    ⟨by rw [List.length_replicate],
     by show (s.mTrail.length : Int) - 1 < (s.mTrail.length : Int); omega,
     ?_,
     fun lit h => absurd h (List.not_mem_nil lit),
     rfl⟩ ?_ ?_ ?_ hres
  · refine ⟨hmain.1, hmain.2.2.2.1, hmain.2.2.1, hmain.2.1, hmain.2.2.2.2, ?_⟩
    intro hlen
    obtain ⟨x, hx⟩ := List.length_eq_one.mp hlen
    rw [hmain.2.2.2.2, hx]
    rfl
  · show (0 : Int) = seenCount s k (List.replicate s.mVariableState.length false)
        ((s.mTrail.length : Int) - 1)
    unfold seenCount
    have h0 : (List.range s.mTrail.length).countP (fun p =>
        decide (k ≤ p) && decide ((p : Int) ≤ (s.mTrail.length : Int) - 1)
        && (List.replicate s.mVariableState.length false).getD
            (s.mTrail.getD p (Literal.mk 1)).index false) = 0 := by
      refine List.countP_eq_zero.mpr ?_
      intro q hq
      rw [getD_replicate_false, Bool.and_false]
      simp
    rw [h0]
    rfl
  · intro lit hlit
    obtain ⟨cl, hclmem, hcleq⟩ := List.mem_map.mp hlit
    rw [← hcleq, ofIndexValue_index]
    exact (hc2 cl hclmem).1
  · intro lit hlit
    obtain ⟨cl, hclmem, hcleq⟩ := List.mem_map.mp hlit
    obtain ⟨p, hp, hpidx⟩ :=
      hmem2pos cl.index (hc2 cl hclmem).1 (hc2 cl hclmem).2
    refine ⟨p, hp, by dsimp only; omega, ?_⟩
    rw [hpidx, ← hcleq, ofIndexValue_index]
  · obtain ⟨cl, hclmem, hcllev⟩ := hc3
    have hlvne : s.mAssignedAtLevel.getD cl.index 0 ≠ -1 := by
      rw [hcllev]
      unfold Solver.decisionLevel at hd ⊢
      omega
    obtain ⟨p, hp, hpidx⟩ := hmem2pos cl.index (hc2 cl hclmem).1 hlvne
    have hkp : k ≤ p := by
      by_contra h
      have h1 := hposlvl p hp
      rw [hpidx] at h1
      have h2 := (levelOfPos_last_mark s A k hmarks hpair hlen3 p).2 (by omega)
      omega
    refine ⟨p, hp, hkp, by dsimp only; omega, Or.inr ?_⟩
    refine ⟨Literal.ofIndexValue cl.index
        (decide (s.varState cl.index = Tribool.tru)), ?_, ?_⟩
    · exact List.mem_map_of_mem _ hclmem
    · rw [ofIndexValue_index, hpidx]

/-- `analyzeConflict` on a healthy state with a sane conflict clause:
the health invariant and watch normalisation are preserved, the learned
clause is appended (every other clause and all assignment bookkeeping are
untouched, watcher lists only gain entries for the learned clause), and
the 1-UIP facts hold: the backtrack level lies strictly below the current
level, the final learned literal sits at the current level, all other
learned literals sit at levels in `(0, bt]`, and all learned variables are
in range. -/
theorem analyzeConflict_spec (s : Solver) (n : Nat) (fuel ci : Nat)
    (bt : Int) (s₂ : Solver)
    (hinv : solverInv s n) (hwn : watchNorm s)
    (hd : 1 ≤ s.decisionLevel)
    (hcs : conflictClauseSane s ci)
    (hres : s.analyzeConflict fuel ci = some (bt, s₂)) :
    ∃ nc,
      solverInv s₂ n
      ∧ watchNorm s₂
      ∧ s₂.mClauses = s.mClauses ++ [Clause.mk nc true]
      ∧ s₂.mVariableState = s.mVariableState
      ∧ s₂.mAssignedAtLevel = s.mAssignedAtLevel
      ∧ s₂.mImplications = s.mImplications
      ∧ s₂.mQueue = s.mQueue
      ∧ s₂.mTrail = s.mTrail
      ∧ s₂.mTrailIndices = s.mTrailIndices
      ∧ s₂.mDecisions = s.mDecisions
      ∧ (∀ u, ∃ ext, s₂.mWatches.getD u [] = s.mWatches.getD u [] ++ ext
          ∧ ∀ w' ∈ ext, w'.clauseIdx = s.mClauses.length ∧ 2 ≤ nc.length)
      ∧ nc ≠ []
      ∧ 0 ≤ bt ∧ bt < s.decisionLevel
      ∧ s.mAssignedAtLevel.getD (nc.getLastD (Literal.mk 1)).index 0
          = s.decisionLevel
      ∧ (∀ lit ∈ nc.dropLast,
          0 < s.mAssignedAtLevel.getD lit.index 0
          ∧ s.mAssignedAtLevel.getD lit.index 0 ≤ bt)
      ∧ (∀ lit ∈ nc, 1 ≤ lit.index ∧ lit.index ≤ n) := by
  have hresO := hres
  unfold Solver.analyzeConflict at hres
  rcases hfc : s.firstUniqueImplicationPointCut fuel ci with _ | ⟨bt', nc⟩
  · rw [hfc] at hres
    exact absurd hres (by simp)
  refine ⟨nc, ?_⟩
  rw [hfc] at hres
  dsimp only at hres
  have hinj := Option.some.inj hres
  have hbt : bt' = bt := congrArg Prod.fst hinj
  subst hbt
  have hs2 := congrArg Prod.snd hinj
  dsimp only at hs2
  obtain ⟨⟨hpre, hic⟩, hstrict⟩ := hinv
  obtain ⟨hL1, hL2, hL3, hL4, hL5, hv0, hwf, hsc, htr1, hql, hrs, hcv,
    hact, hwr, hqnd⟩ := hpre
  obtain ⟨hne, hcount, hlastlvl, hdrop, hbtmax, hunit⟩ :=
    fuip_spec_main s ci fuel bt' nc hwf hd hcs hrs hfc
  have hbt0 : (0 : Int) ≤ bt' := by
    rw [hbtmax]
    exact foldl_max_init _ nc.dropLast 0
  have hbtlt : bt' < s.decisionLevel := by
    rw [hbtmax]
    exact foldl_max_lt _ s.decisionLevel nc.dropLast 0 (by omega)
      (fun x hx => (hdrop x hx).2)
  have hdrople : ∀ lit ∈ nc.dropLast,
      0 < s.mAssignedAtLevel.getD lit.index 0
      ∧ s.mAssignedAtLevel.getD lit.index 0 ≤ bt' := by
    intro lit hlit
    refine ⟨(hdrop lit hlit).1, ?_⟩
    rw [hbtmax]
    exact foldl_max_mem_le _ nc.dropLast 0 lit hlit
  have hposlevel : ∀ lit ∈ nc, 0 < s.mAssignedAtLevel.getD lit.index 0 := by
    intro lit hlit
    rw [← concat_decomp nc (Literal.mk 1) hne] at hlit
    rcases List.mem_append.mp hlit with hm | hm
    · exact (hdrop lit hm).1
    · have hx := List.mem_singleton.mp hm
      rw [hx, hlastlvl]
      omega
  have hvarbounds : ∀ lit ∈ nc, 1 ≤ lit.index ∧ lit.index ≤ n := by
    intro lit hlit
    have hpos := hposlevel lit hlit
    constructor
    · by_contra hlt
      have hidx0 : lit.index = 0 := by omega
      have h0lt : 0 < s.mVariableState.length := by omega
      have hlev0 : s.mAssignedAtLevel.getD 0 0 = -1 :=
        ((hsc.1 0 h0lt).mp hv0).1
      rw [hidx0, hlev0] at hpos
      omega
    · by_contra hgt
      have hoob : s.mAssignedAtLevel.length ≤ lit.index := by omega
      rw [getD_oob _ _ _ hoob] at hpos
      omega
  -- Structural characterization of the post-conflict state.
  have hfields :
      s₂.mClauses = s.mClauses ++ [Clause.mk nc true]
      ∧ s₂.mVariableState = s.mVariableState
      ∧ s₂.mAssignedAtLevel = s.mAssignedAtLevel
      ∧ s₂.mImplications = s.mImplications
      ∧ s₂.mQueue = s.mQueue
      ∧ s₂.mTrail = s.mTrail
      ∧ s₂.mTrailIndices = s.mTrailIndices
      ∧ s₂.mDecisions = s.mDecisions
      ∧ s₂.mWatches.length = s.mWatches.length
      ∧ (∀ u, ∃ ext, s₂.mWatches.getD u [] = s.mWatches.getD u [] ++ ext
          ∧ ∀ w' ∈ ext, w'.clauseIdx = s.mClauses.length ∧ 2 ≤ nc.length) := by
    by_cases hnc2 : nc.length ≥ 2
    · rw [if_pos hnc2] at hs2
      have hkk : (Solver.addClause s (Clause.mk nc true)).mClauses.length - 1
          = s.mClauses.length := by
        show (s.mClauses ++ [Clause.mk nc true]).length - 1 = _
        rw [List.length_append, List.length_singleton]
        omega
      obtain ⟨w1, w2, w3, w4, w5, w6, w7, w8, w9, w10, w11⟩ :=
        watchClause_fields (Solver.addClause s (Clause.mk nc true))
          (s.mClauses.length)
      have hWC : s₂.mWatches
          = ((Solver.addClause s (Clause.mk nc true)).watchClause
              (s.mClauses.length)).mWatches := by
        rw [← hs2, (bump_foldl_fields nc _).2.1]
        show ((Solver.addClause s (Clause.mk nc true)).watchClause
          ((Solver.addClause s (Clause.mk nc true)).mClauses.length - 1)).mWatches
            = _
        rw [hkk]
      have hCC : s₂.mClauses
          = ((Solver.addClause s (Clause.mk nc true)).watchClause
              (s.mClauses.length)).mClauses := by
        rw [← hs2, (bump_foldl_fields nc _).1]
        show ((Solver.addClause s (Clause.mk nc true)).watchClause
          ((Solver.addClause s (Clause.mk nc true)).mClauses.length - 1)).mClauses
            = _
        rw [hkk]
      have hVV : s₂.mVariableState
          = ((Solver.addClause s (Clause.mk nc true)).watchClause
              (s.mClauses.length)).mVariableState := by
        rw [← hs2, (bump_foldl_fields nc _).2.2.1]
        show ((Solver.addClause s (Clause.mk nc true)).watchClause
          ((Solver.addClause s (Clause.mk nc true)).mClauses.length - 1)).mVariableState
            = _
        rw [hkk]
      have hAA : s₂.mAssignedAtLevel
          = ((Solver.addClause s (Clause.mk nc true)).watchClause
              (s.mClauses.length)).mAssignedAtLevel := by
        rw [← hs2, (bump_foldl_fields nc _).2.2.2.1]
        show ((Solver.addClause s (Clause.mk nc true)).watchClause
          ((Solver.addClause s (Clause.mk nc true)).mClauses.length - 1)).mAssignedAtLevel
            = _
        rw [hkk]
      have hII : s₂.mImplications
          = ((Solver.addClause s (Clause.mk nc true)).watchClause
              (s.mClauses.length)).mImplications := by
        rw [← hs2, (bump_foldl_fields nc _).2.2.2.2.1]
        show ((Solver.addClause s (Clause.mk nc true)).watchClause
          ((Solver.addClause s (Clause.mk nc true)).mClauses.length - 1)).mImplications
            = _
        rw [hkk]
      have hTT : s₂.mTrail
          = ((Solver.addClause s (Clause.mk nc true)).watchClause
              (s.mClauses.length)).mTrail := by
        rw [← hs2, (bump_foldl_fields nc _).2.2.2.2.2.1]
        show ((Solver.addClause s (Clause.mk nc true)).watchClause
          ((Solver.addClause s (Clause.mk nc true)).mClauses.length - 1)).mTrail
            = _
        rw [hkk]
      have hTI : s₂.mTrailIndices
          = ((Solver.addClause s (Clause.mk nc true)).watchClause
              (s.mClauses.length)).mTrailIndices := by
        rw [← hs2, (bump_foldl_fields nc _).2.2.2.2.2.2.1]
        show ((Solver.addClause s (Clause.mk nc true)).watchClause
          ((Solver.addClause s (Clause.mk nc true)).mClauses.length - 1)).mTrailIndices
            = _
        rw [hkk]
      have hDD : s₂.mDecisions
          = ((Solver.addClause s (Clause.mk nc true)).watchClause
              (s.mClauses.length)).mDecisions := by
        rw [← hs2, (bump_foldl_fields nc _).2.2.2.2.2.2.2.1]
        show ((Solver.addClause s (Clause.mk nc true)).watchClause
          ((Solver.addClause s (Clause.mk nc true)).mClauses.length - 1)).mDecisions
            = _
        rw [hkk]
      have hQQ : s₂.mQueue
          = ((Solver.addClause s (Clause.mk nc true)).watchClause
              (s.mClauses.length)).mQueue := by
        rw [← hs2, (bump_foldl_fields nc _).2.2.2.2.2.2.2.2]
        show ((Solver.addClause s (Clause.mk nc true)).watchClause
          ((Solver.addClause s (Clause.mk nc true)).mClauses.length - 1)).mQueue
            = _
        rw [hkk]
      refine ⟨?_, ?_, ?_, ?_, ?_, ?_, ?_, ?_, ?_, ?_⟩
      · rw [hCC, w1]
        rfl
      · rw [hVV, w2]
        rfl
      · rw [hAA, w3]
        rfl
      · rw [hII, w4]
        rfl
      · rw [hQQ, w8]
        rfl
      · rw [hTT, w5]
        rfl
      · rw [hTI, w6]
        rfl
      · rw [hDD, w7]
        rfl
      · rw [hWC, w10]
        rfl
      · intro u
        obtain ⟨ext, hext, hcls⟩ := w11 u
        refine ⟨ext, ?_, ?_⟩
        · rw [hWC, hext]
          rfl
        · intro w' hw'
          exact ⟨hcls w' hw', hnc2⟩
    · rw [if_neg hnc2] at hs2
      refine ⟨?_, ?_, ?_, ?_, ?_, ?_, ?_, ?_, ?_, ?_⟩
      · rw [← hs2, (bump_foldl_fields nc _).1]
      · rw [← hs2, (bump_foldl_fields nc _).2.2.1]
      · rw [← hs2, (bump_foldl_fields nc _).2.2.2.1]
      · rw [← hs2, (bump_foldl_fields nc _).2.2.2.2.1]
      · rw [← hs2, (bump_foldl_fields nc _).2.2.2.2.2.2.2.2]
      · rw [← hs2, (bump_foldl_fields nc _).2.2.2.2.2.1]
      · rw [← hs2, (bump_foldl_fields nc _).2.2.2.2.2.2.1]
      · rw [← hs2, (bump_foldl_fields nc _).2.2.2.2.2.2.2.1]
      · rw [← hs2, (bump_foldl_fields nc _).2.1]
      · intro u
        refine ⟨[], ?_, fun w' hw' => absurd hw' (List.not_mem_nil w')⟩
        rw [List.append_nil, ← hs2, (bump_foldl_fields nc _).2.1]
  obtain ⟨hCl, hV, hA, hI, hQ, hT, hTIe, hDe, hWlen, hWext⟩ := hfields
  have hActEq : s₂.mActivity
      = Solver.bumpActivities nc (Solver.decayActivities s.mActivity) := by
    have hactv := analyzeConflict_mActivity s fuel ci bt' nc hfc
    rw [hresO] at hactv
    simp only [Option.map_some'] at hactv
    exact congrArg Prod.snd (Option.some.inj hactv)
  have hdleq : s₂.decisionLevel = s.decisionLevel := by
    unfold Solver.decisionLevel
    rw [hDe]
  have hClen : s₂.mClauses.length = s.mClauses.length + 1 := by
    rw [hCl, List.length_append, List.length_singleton]
  -- health invariant of the post-conflict state
  have hsolv : solverInv s₂ n := by
    refine ⟨⟨⟨?_, ?_, ?_, ?_, ?_, ?_, ?_, ?_, ?_, ?_, ?_, ?_, ?_, ?_, ?_⟩,
      ?_⟩, ?_⟩
    · rw [hV]
      exact hL1
    · rw [hWlen]
      exact hL2
    · rw [hA]
      exact hL3
    · rw [hI]
      exact hL4
    · rw [hActEq, bumpActivities_length, decayActivities_length]
      exact hL5
    · show s₂.mVariableState.getD 0 Tribool.unk = Tribool.unk
      rw [hV]
      exact hv0
    · exact (wellFormedTrail_congr s s₂ hV hA hI hT hTIe hDe).mpr hwf
    · exact (stateConsistent_congr s s₂ hV hA hT).mpr hsc
    · rw [hT]
      exact htr1
    · intro u hu
      rw [hQ] at hu
      obtain ⟨h1, h2⟩ := hql u hu
      refine ⟨h1, ?_⟩
      rw [hA, hdleq]
      exact h2
    · intro p hp himp
      rw [hT] at hp
      rw [hT, hI] at himp
      rw [hT, hI, hCl]
      obtain ⟨h1, h2⟩ := hrs p hp himp
      refine ⟨?_, ?_⟩
      · rw [List.length_append, List.length_singleton]
        omega
      · rw [getD_concat_lt _ _ _ _ h1]
        exact h2
    · intro c hc
      rw [hCl] at hc
      rcases List.mem_append.mp hc with hm | hm
      · exact hcv c hm
      · have hcc := List.mem_singleton.mp hm
        rw [hcc]
        exact hvarbounds
    · intro v hv
      rw [hActEq]
      have hge := bumpActivities_ge nc (Solver.decayActivities s.mActivity) v
      have hdecpos : 0 < (Solver.decayActivities s.mActivity).getD v 0 := by
        rcases Nat.eq_zero_or_pos v with h0 | h1
        · subst h0
          rcases hAct : s.mActivity with _ | ⟨a0, rest⟩
          · rw [hAct] at hL5
            simp at hL5
          · have hp := hact 0 (Nat.zero_le n)
            rw [hAct] at hp
            exact hp
        · rw [decayActivities_getD _ _ h1]
          have h2 := hact v hv
          have h3 : (0 : ℚ) < DefaultActivityDecay := by
            norm_num [DefaultActivityDecay]
          exact mul_pos h2 h3
      exact lt_of_lt_of_le hdecpos hge
    · intro L hL w hw
      obtain ⟨u, hu, hue⟩ := (mem_iff_getD s₂.mWatches L []).mp hL
      obtain ⟨ext, hext, hcls⟩ := hWext u
      rw [hue] at hext
      rw [hClen]
      rcases List.mem_append.mp (hext ▸ hw) with hm | hm
      · have hmem : s.mWatches.getD u [] ∈ s.mWatches :=
          getD_mem _ _ _ (by rw [← hWlen]; exact hu)
        have := hwr _ hmem w hm
        omega
      · rw [(hcls w hm).1]
        omega
    · rw [hQ]
      exact hqnd
    · intro v hvu
      rw [hI]
      refine hic v ?_
      show s.mVariableState.getD v Tribool.unk = Tribool.unk
      rw [← hV]
      exact hvu
    · intro k hk
      rw [hTIe] at hk
      rw [hT]
      exact hstrict k hk
  have hwn₂ : watchNorm s₂ := by
    intro L hL w hw
    obtain ⟨u, hu, hue⟩ := (mem_iff_getD s₂.mWatches L []).mp hL
    obtain ⟨ext, hext, hcls⟩ := hWext u
    rw [hue] at hext
    rcases List.mem_append.mp (hext ▸ hw) with hm | hm
    · have hmem : s.mWatches.getD u [] ∈ s.mWatches :=
        getD_mem _ _ _ (by rw [← hWlen]; exact hu)
      have hold := hwn _ hmem w hm
      have hlt : w.clauseIdx < s.mClauses.length := hwr _ hmem w hm
      have hceq : s₂.clauseAt w.clauseIdx = s.clauseAt w.clauseIdx := by
        unfold Solver.clauseAt
        rw [hCl, getD_concat_lt _ _ _ _ hlt]
      rw [hceq]
      exact hold
    · obtain ⟨hcidx, hnc2⟩ := hcls w hm
      have hceq : s₂.clauseAt w.clauseIdx = Clause.mk nc true := by
        unfold Solver.clauseAt
        rw [hcidx, hCl, getD_concat_self]
      rw [hceq]
      exact hnc2
  exact ⟨hsolv, hwn₂, hCl, hV, hA, hI, hQ, hT, hTIe, hDe, hWext, hne,
    hbt0, hbtlt, hlastlvl, hdrople, hvarbounds⟩

/-- `pushDecision` on an unassigned in-range variable with an empty queue
preserves the full health invariant and raises the decision level by
one. -/
theorem pushDecision_solverInv (s : Solver) (n : Nat) (lit : Literal)
    (hinv : solverInv s n)
    (hq : s.mQueue = [])
    (hunk : s.varState lit.index = Tribool.unk)
    (h1 : 1 ≤ lit.index) (hn : lit.index ≤ n) :
    solverInv (s.pushDecision lit) n
    ∧ (s.pushDecision lit).decisionLevel = s.decisionLevel + 1 := by
  obtain ⟨hcore, hstrict⟩ := hinv
  obtain ⟨⟨hL1, hL2, hL3, hL4, hL5, hv0, hwf, hsc, htr1, hql, hrs, hcv,
    hact, hwr, hqnd⟩, hic⟩ := hcore
  obtain ⟨hlen1, hlen2, hlen3, hpair, hbound, hnd, hrange, hposlvl, hmemlvl,
    hlvlbound⟩ := hwf
  have hmark : ∀ k ∈ s.mTrailIndices, k < s.mTrail.length := hstrict
  set s₁ : Solver := { s with
    mTrailIndices := s.mTrailIndices ++ [s.mTrail.length]
    mDecisions := s.mDecisions ++ [lit] } with hs₁
  have hd₁ : s₁.decisionLevel = s.decisionLevel + 1 := by
    unfold Solver.decisionLevel
    show ((s.mDecisions ++ [lit]).length : Int) = _
    rw [List.length_append]
    simp
  have hcore₁ : solverInvCore s₁ n := by
    refine ⟨⟨hL1, hL2, hL3, hL4, hL5, hv0, ?_, ?_, htr1, ?_, hrs, hcv, hact, hwr,
      hqnd⟩, hic⟩
    · refine ⟨hlen1, hlen2, ?_, ?_, ?_, hnd, hrange, ?_, hmemlvl, ?_⟩
      · show (s.mTrailIndices ++ [s.mTrail.length]).length
            = (s.mDecisions ++ [lit]).length
        rw [List.length_append, List.length_append, hlen3]
        rfl
      · show (s.mTrailIndices ++ [s.mTrail.length]).Pairwise (· < ·)
        rw [List.pairwise_append]
        exact ⟨hpair, List.pairwise_singleton _ _,
          fun a ha b hb => (List.mem_singleton.mp hb) ▸ hmark a ha⟩
      · intro k hk
        rcases List.mem_append.mp hk with h | h
        · exact hbound k h
        · rw [List.mem_singleton.mp h]
      · intro p hp
        rw [show s₁.mTrail = s.mTrail from rfl] at hp
        show s.mAssignedAtLevel.getD _ 0
            = ((s.mTrailIndices ++ [s.mTrail.length]).countP (fun k => decide (k ≤ p)) : Int)
        rw [List.countP_append]
        have h0 : List.countP (fun k => decide (k ≤ p)) [s.mTrail.length] = 0 := by
          simp only [List.countP_cons, List.countP_nil]
          rw [decide_eq_false (by omega : ¬s.mTrail.length ≤ p)]
          rfl
        rw [h0]
        exact hposlvl p hp
      · intro v hv
        rw [hd₁]
        rw [show s₁.mVariableState = s.mVariableState from rfl] at hv
        show s.mAssignedAtLevel.getD v 0 ≤ s.decisionLevel + 1
        have := hlvlbound v hv
        omega
    · refine ⟨hsc.1, hsc.2.1, hsc.2.2⟩
    · intro u hu
      rw [show s₁.mQueue = s.mQueue from rfl, hq] at hu
      exact absurd hu (List.not_mem_nil u)
  have hstep := enqueue_solverInvCore s₁ n lit hcore₁ hunk h1 hn
  have hfin : s.pushDecision lit = s₁.enqueue lit := rfl
  rw [hfin]
  have hdfin : (s₁.enqueue lit).decisionLevel = s.decisionLevel + 1 := by
    unfold Solver.decisionLevel at hd₁ ⊢
    rw [(enqueue_fields s₁ lit).2.2.1]
    exact hd₁
  refine ⟨⟨hstep, ?_⟩, hdfin⟩
  intro k hk
  rw [show (s₁.enqueue lit).mTrailIndices = s₁.mTrailIndices from rfl] at hk
  rw [(enqueue_fields s₁ lit).2.2.2.2.2.2.2.1]
  show k < (s₁.mTrail ++ [lit]).length
  rw [List.length_append]
  rcases List.mem_append.mp hk with h | h
  · have := hmark k h
    show k < s.mTrail.length + [lit].length
    simp only [List.length_cons, List.length_nil]
    omega
  · rw [List.mem_singleton.mp h]
    show s.mTrail.length < s.mTrail.length + [lit].length
    simp

end Solver

/-- **C4**.  For every conflict analyzed at decision level `d >= 1` — on a
well-formed trail whose conflict clause and implying-clause references are
sane — a successful run of `firstUniqueImplicationPointCut` returns a
non-empty learned clause containing exactly one literal assigned at level
`d`, namely its final literal (the negation of the first unique implication
point); every other literal is assigned at a level strictly between 0 and
`d`, and the returned backtrack level equals the maximum assignment level
among those other literals — in particular 0 when the learned clause is a
unit clause. -/
theorem fuip_learns_asserting_clause (s : Solver) (ci fuel : Nat)
    (bt : Int) (nc : List Literal)
    (hwf : wellFormedTrail s)
    (hd : 1 ≤ s.decisionLevel)
    (hcs : conflictClauseSane s ci)
    (hrs : reasonsSane s)
    (hres : s.firstUniqueImplicationPointCut fuel ci = some (bt, nc)) :
    nc ≠ []
    ∧ nc.countP (fun lit =>
        decide (s.mAssignedAtLevel.getD lit.index 0 = s.decisionLevel)) = 1
    ∧ s.mAssignedAtLevel.getD (nc.getLastD (Literal.mk 1)).index 0 = s.decisionLevel
    ∧ (∀ lit ∈ nc.dropLast, 0 < s.mAssignedAtLevel.getD lit.index 0
        ∧ s.mAssignedAtLevel.getD lit.index 0 < s.decisionLevel)
    ∧ bt = maxLevelOf s nc.dropLast
    ∧ (nc.length = 1 → bt = 0) :=
  Solver.fuip_spec_main s ci fuel bt nc hwf hd hcs hrs hres

/-- **C4** witness: at the reachable conflict state (decision level 1,
conflict clause 2) the 1-UIP cut is the unit clause `¬1`: its sole (and
thus final) literal's variable was assigned at level 1, exactly one literal
of the clause is at the conflict level, and the backtrack level 0 is the
maximum level of the remaining (no) literals. -/
theorem fuip_learns_asserting_clause_witness :
    wellFormedTrail conflictStateExample
    ∧ 1 ≤ conflictStateExample.decisionLevel
    ∧ conflictClauseSane conflictStateExample 2
    ∧ reasonsSane conflictStateExample
    ∧ conflictStateExample.firstUniqueImplicationPointCut 50 2
        = some (0, [Literal.mk (-1)])
    ∧ [Literal.mk (-1)].countP (fun lit =>
        decide (conflictStateExample.mAssignedAtLevel.getD lit.index 0
          = conflictStateExample.decisionLevel)) = 1
    ∧ conflictStateExample.mAssignedAtLevel.getD
        (([Literal.mk (-1)]).getLastD (Literal.mk 1)).index 0
        = conflictStateExample.decisionLevel
    ∧ (0 : Int) = maxLevelOf conflictStateExample ([Literal.mk (-1)]).dropLast :=
  ⟨by decide, by decide, by decide, by decide, rfl,
   (fuip_learns_asserting_clause conflictStateExample 2 50 0 [Literal.mk (-1)]
      (by decide) (by decide) (by decide) (by decide) rfl).2.1,
   (fuip_learns_asserting_clause conflictStateExample 2 50 0 [Literal.mk (-1)]
      (by decide) (by decide) (by decide) (by decide) rfl).2.2.1,
   (fuip_learns_asserting_clause conflictStateExample 2 50 0 [Literal.mk (-1)]
      (by decide) (by decide) (by decide) (by decide) rfl).2.2.2.2.1⟩

end Ivasat
